import Mathlib

/-!
# surendarchandra/crypto: AES mode wrappers over the ISA-L primitives

A shallow embedding of `aes/aes.go`, `aes/isal.go`, `cipher/gcm.go`, `cipher/cbc.go`,
`cipher/xts.go` and `msha1/msha1.go`.

* A Go `[]byte` is a `Slice`: the address of element 0, the `len` visible bytes and
  the bytes of spare capacity behind them.
* The C primitives of the acceleration library are not part of the repository; they
  are the fields of `Prims`, and every definition that calls one takes `P : Prims`.
* A Go `panic` (explicit, or the run-time panic of an index expression) is the
  `error` side of `Except Panic`.
* A Go `error` value is `Option GoError`; `none` is `nil`.
* A `cipher.Block` is a pointer to a capability. The wrappers of `cipher/` are given
  twice: call by call on the state of the capability behind the pointer, and over a
  `Store` of capabilities by address, where two wrappers on one address share it.
-/

namespace Crypto

/-! ## Bytes, slices, panics and errors -/

/-- A Go `byte`. -/
abbrev Byte := Fin 256

/-- Contents of a run of memory. -/
abbrev Bytes := List Byte

/-- A Go `[N]byte` array with `N = 16` (`iv`, `authTag`). -/
abbrev Arr16 := {l : Bytes // l.length = 16}

/-- The zero value of a `[16]byte`. -/
def zero16 : Arr16 := ⟨List.replicate 16 0, by simp⟩

/-- A Go slice of bytes. `ptr` is the address of element 0, `data` the `len` bytes the
slice shows, `spare` the bytes of the same allocation between `len` and `cap`. -/
structure Slice where
  ptr : Nat
  data : Bytes
  spare : Bytes
deriving DecidableEq, Repr

/-- Go `len(s)`. -/
def Slice.len (s : Slice) : Nat := s.data.length

/-- Go `cap(s)`. -/
def Slice.cap (s : Slice) : Nat := s.data.length + s.spare.length

/-- The storage reachable from the slice's pointer: the visible bytes, then the spare ones. -/
def Slice.mem (s : Slice) : Bytes := s.data ++ s.spare

/-- The nil slice. -/
def Slice.nil : Slice := ⟨0, [], []⟩

/-- Go `s[:j]`; every use in the sources has `j ≤ cap(s)`. -/
def Slice.upTo (s : Slice) (j : Nat) : Slice :=
  ⟨s.ptr, s.mem.take j, s.mem.drop j⟩

/-- Go `s[i:]`; every use in the sources has `i ≤ len(s)`. -/
def Slice.startAt (s : Slice) (i : Nat) : Slice :=
  ⟨s.ptr + i, s.data.drop i, s.spare⟩

/-- Writing the run `out` over the front of the run `buf`: as many bytes as fit. -/
def overwrite (buf out : Bytes) : Bytes :=
  out.take buf.length ++ buf.drop out.length

/-- Go `copy(dst, src)` on the contents of `dst`: `min(len(dst), len(src))` bytes. -/
def copy (dst src : Bytes) : Bytes := overwrite dst src

/-- Go `copy(s[off:], src)` seen on the contents of `s`. -/
def copyAt (s : Slice) (off : Nat) (src : Bytes) : Slice :=
  { s with data := s.data.take off ++ copy (s.data.drop off) src }

/-- A C primitive storing the run `out` through the pointer `&s[0]`. C knows nothing of
`len`: the store runs through the visible bytes into the spare capacity. Bytes that
would land behind the allocation are not tracked. -/
def Slice.pokeC (s : Slice) (out : Bytes) : Slice :=
  ⟨s.ptr, (overwrite s.mem out).take s.data.length, (overwrite s.mem out).drop s.data.length⟩

/-- A C primitive loading `n` bytes through the pointer `&s[0]`. -/
def Slice.readC (s : Slice) (n : Nat) : Bytes := s.mem.take n

/-- What the slice `view` shows once the run `w` has been stored at the address `p`: a byte
of the view whose address lies in `[p, p + len(w))` is the stored one, every other byte is
as before. -/
def Slice.afterStore (view : Slice) (p : Nat) (w : Bytes) : Bytes :=
  (List.range view.data.length).map (fun i =>
    if p ≤ view.ptr + i ∧ view.ptr + i < p + w.length then w.getD (view.ptr + i - p) 0
    else view.data.getD i 0)

/-- How the output buffer of a primitive call lies relative to its input buffer when
both hold `n` bytes: `none` when the two runs are disjoint, `some d` when they overlap
and the output starts `d` bytes behind the input (`d = 0`: in place). -/
def placement (dst src : Slice) (n : Nat) : Option Int :=
  if ((dst.ptr : Int) - (src.ptr : Int)).natAbs < n then
    some ((dst.ptr : Int) - (src.ptr : Int))
  else none

/-- What stops a call instead of letting it return. -/
inductive Panic where
  /-- An explicit `panic("...")`. -/
  | msg (s : String)
  /-- The run-time panic of an index expression `s[i]` with `i ≥ len(s)`. -/
  | indexOutOfRange
  /-- A C primitive storing through a nil pointer. -/
  | nilStore
deriving DecidableEq, Repr

/-- A non-nil Go `error`. -/
inductive GoError where
  /-- A package-level error variable: one value for the whole process. -/
  | global (msg : String)
  /-- The value of an `errors.New(msg)` evaluated at a return site. -/
  | new (msg : String)
deriving DecidableEq, Repr

/-- A Go `error`; `none` is `nil`. -/
abbrev error := Option GoError

/-- Go `uint64(n)` of an `int`. -/
def uint64 (n : Int) : Nat := (n % 2 ^ 64).toNat

/-! ## cipher/cipher.go -/

/-- ModeXTS is the AES-XTS mode. -/
def ModeXTS : Int := 1

/-- ModeGCM is the AES-GCM mode. -/
def ModeGCM : Int := 2

/-- ModeCBC is the AES-CBC mode. -/
def ModeCBC : Int := 3

/-! ## The acceleration library -/

/-- The C entry points of the acceleration library that `aes/isal.go` calls, as
functions of what they load. Arguments follow the C order with the lengths and the
output pointers left out; the first argument of a bulk primitive is the `placement` of
its output buffer against its input buffer. A GCM primitive returns the bytes stored
through the output pointer and the 16 bytes stored through the tag pointer, and stores
exactly as many output bytes as the length it was given. The per-call GCM context is
scratch that every one-shot call initialises, so it is not carried. -/
structure Prims where
  aes_keyexp_128 : Bytes → Bytes × Bytes
  aes_keyexp_192 : Bytes → Bytes × Bytes
  aes_keyexp_256 : Bytes → Bytes × Bytes
  aes_gcm_pre_128 : Bytes → Bytes
  aes_gcm_pre_256 : Bytes → Bytes
  aes_cbc_enc_128 : Option Int → Bytes → Arr16 → Bytes → Bytes
  aes_cbc_enc_192 : Option Int → Bytes → Arr16 → Bytes → Bytes
  aes_cbc_enc_256 : Option Int → Bytes → Arr16 → Bytes → Bytes
  aes_cbc_dec_128 : Option Int → Bytes → Arr16 → Bytes → Bytes
  aes_cbc_dec_192 : Option Int → Bytes → Arr16 → Bytes → Bytes
  aes_cbc_dec_256 : Option Int → Bytes → Arr16 → Bytes → Bytes
  aes_gcm_enc_128 : Option Int → Bytes → Bytes → Arr16 → Bytes → Bytes × Arr16
  aes_gcm_enc_256 : Option Int → Bytes → Bytes → Arr16 → Bytes → Bytes × Arr16
  aes_gcm_dec_128 : Option Int → Bytes → Bytes → Arr16 → Bytes → Bytes × Arr16
  aes_gcm_dec_256 : Option Int → Bytes → Bytes → Arr16 → Bytes → Bytes × Arr16
  XTS_AES_128_enc_expanded_key : Option Int → Bytes → Bytes → Arr16 → Bytes → Bytes
  XTS_AES_128_dec_expanded_key : Option Int → Bytes → Bytes → Arr16 → Bytes → Bytes
  XTS_AES_256_enc_expanded_key : Option Int → Bytes → Bytes → Arr16 → Bytes → Bytes
  XTS_AES_256_dec_expanded_key : Option Int → Bytes → Bytes → Arr16 → Bytes → Bytes
  gcm_enc_128_length : ∀ r k x iv ad, (aes_gcm_enc_128 r k x iv ad).1.length = x.length
  gcm_enc_256_length : ∀ r k x iv ad, (aes_gcm_enc_256 r k x iv ad).1.length = x.length
  gcm_dec_128_length : ∀ r k x iv ad, (aes_gcm_dec_128 r k x iv ad).1.length = x.length
  gcm_dec_256_length : ∀ r k x iv ad, (aes_gcm_dec_256 r k x iv ad).1.length = x.length

/-! ## aes/isal.go: the four capability variants -/

/-- For CBC-128 or GCM-128. -/
structure isal128Cipher where
  expkeyEnc : Bytes
  expkeyDec : Bytes
  iv : Arr16
  gcmKeyData : Bytes
  authTag : Arr16
  additionalData : Bytes

/-- For CBC-192 or GCM-192. -/
structure isal192Cipher where
  expkeyEnc : Bytes
  expkeyDec : Bytes
  iv : Arr16

/-- For CBC-256, GCM-256 or XTS-128. -/
structure isal256Cipher where
  expkeyEnc : Bytes
  expkeyDec : Bytes
  xtsExpkey1Enc : Bytes
  xtsExpkey1Dec : Bytes
  xtsExpkey2Enc : Bytes
  unused : Bytes
  iv : Arr16
  gcmKeyData : Bytes
  authTag : Arr16
  additionalData : Bytes

/-- Struct for XTS-256. -/
structure isal512Cipher where
  xtsExpkey1Enc : Bytes
  xtsExpkey2Enc : Bytes
  xtsExpkey1Dec : Bytes
  unused : Bytes
  iv : Arr16

/-- BlockSize is the AES block size in bytes. -/
def BlockSize : Int := 16

/-- The `copy(a.iv[:], iv)` every variant's `SetIV` performs. -/
def setIV16 (old : Arr16) (iv : Slice) : Arr16 :=
  ⟨copy old.1 iv.data, by
    have h := old.2
    simp only [copy, overwrite, List.length_append, List.length_take, List.length_drop]
    omega⟩

/-! ### isal128Cipher -/

/-- Method `(a *isal128Cipher) Encrypt(cipherText, plainText []byte, mode int) error`:
the capability after the call, the contents of `cipherText` after it, and the error. -/
def isal128Cipher.Encrypt (P : Prims) (a : isal128Cipher) (cipherText plainText : Slice)
    (mode : Int) : Except Panic (isal128Cipher × Slice × error) :=
  if mode = ModeCBC then
    if plainText.len = 0 then .error .indexOutOfRange
    else if cipherText.len = 0 then .error .indexOutOfRange
    else
      .ok (a,
        cipherText.pokeC (P.aes_cbc_enc_128 (placement cipherText plainText plainText.len)
          plainText.data a.iv a.expkeyEnc),
        none)
  else if mode = ModeGCM then
    if cipherText.len = 0 then .error .indexOutOfRange
    else
      let r := P.aes_gcm_enc_128 (placement cipherText plainText plainText.len)
        a.gcmKeyData plainText.data a.iv a.additionalData
      .ok ({ a with authTag := r.2 }, cipherText.pokeC r.1, none)
  else .ok (a, cipherText, some (.new "Invalid mode: "))

/-- Method `(a *isal128Cipher) Decrypt(plainText, cipherText []byte, mode int) error`.
In CBC mode the primitive reads a private copy of the ciphertext when both slices
start at the same address. In GCM mode the output pointer is nil when `plainText` is
empty, and the primitive stores through it when `cipherText` is not. -/
def isal128Cipher.Decrypt (P : Prims) (a : isal128Cipher) (plainText cipherText : Slice)
    (mode : Int) : Except Panic (isal128Cipher × Slice × error) :=
  if mode = ModeCBC then
    if plainText.len = 0 then .error .indexOutOfRange
    else if cipherText.len = 0 then .error .indexOutOfRange
    else
      let at_ : Option Int :=
        if cipherText.ptr = plainText.ptr then none
        else placement plainText cipherText cipherText.len
      .ok (a, plainText.pokeC (P.aes_cbc_dec_128 at_ cipherText.data a.iv a.expkeyDec), none)
  else if mode = ModeGCM then
    if plainText.len = 0 ∧ cipherText.len ≠ 0 then .error .nilStore
    else
      let r := P.aes_gcm_dec_128 (placement plainText cipherText cipherText.len)
        a.gcmKeyData cipherText.data a.iv a.additionalData
      .ok ({ a with authTag := r.2 }, plainText.pokeC r.1, none)
  else .ok (a, plainText, some (.new "Invalid mode"))

/-- Method `(a *isal128Cipher) SetIV(iv []byte)`. -/
def isal128Cipher.SetIV (a : isal128Cipher) (iv : Slice) : isal128Cipher :=
  { a with iv := setIV16 a.iv iv }

/-- Method `(a *isal128Cipher) BlockSize() int`. -/
def isal128Cipher.BlockSize (_a : isal128Cipher) : Int := Crypto.BlockSize

/-- Method `(a *isal128Cipher) GCMAddAdditionalData(addData []byte)`. -/
def isal128Cipher.GCMAddAdditionalData (a : isal128Cipher) (addData : Slice) : isal128Cipher :=
  { a with additionalData := copy (List.replicate addData.len 0) addData.data }

/-- Method `(a *isal128Cipher) GCMGetAuthTag() []byte`. -/
def isal128Cipher.GCMGetAuthTag (a : isal128Cipher) : Bytes := a.authTag.1

/-! ### isal192Cipher -/

/-- Method `(a *isal192Cipher) Encrypt(cipherText, plainText []byte, mode int) error`. -/
def isal192Cipher.Encrypt (P : Prims) (a : isal192Cipher) (cipherText plainText : Slice)
    (mode : Int) : Except Panic (isal192Cipher × Slice × error) :=
  if mode = ModeCBC then
    if plainText.len = 0 then .error .indexOutOfRange
    else if cipherText.len = 0 then .error .indexOutOfRange
    else
      .ok (a,
        cipherText.pokeC (P.aes_cbc_enc_192 (placement cipherText plainText plainText.len)
          plainText.data a.iv a.expkeyEnc),
        none)
  else if mode = ModeGCM then
    .ok (a, cipherText, some (.new "AES-GCM-192 not implemented"))
  else .ok (a, cipherText, some (.new "Invalid mode"))

/-- Method `(a *isal192Cipher) Decrypt(plainText, cipherText []byte, mode int) error`. -/
def isal192Cipher.Decrypt (P : Prims) (a : isal192Cipher) (plainText cipherText : Slice)
    (mode : Int) : Except Panic (isal192Cipher × Slice × error) :=
  if mode = ModeCBC then
    if plainText.len = 0 then .error .indexOutOfRange
    else if cipherText.len = 0 then .error .indexOutOfRange
    else
      let at_ : Option Int :=
        if cipherText.ptr = plainText.ptr then none
        else placement plainText cipherText cipherText.len
      .ok (a, plainText.pokeC (P.aes_cbc_dec_192 at_ cipherText.data a.iv a.expkeyDec), none)
  else if mode = ModeGCM then
    .ok (a, plainText, some (.new "AES-GCM-192 not implemented"))
  else .ok (a, plainText, some (.new "Invalid mode"))

/-- Method `(a *isal192Cipher) SetIV(iv []byte)`. -/
def isal192Cipher.SetIV (a : isal192Cipher) (iv : Slice) : isal192Cipher :=
  { a with iv := setIV16 a.iv iv }

/-- Method `(a *isal192Cipher) BlockSize() int`. -/
def isal192Cipher.BlockSize (_a : isal192Cipher) : Int := Crypto.BlockSize

/-- Method `(a *isal192Cipher) GCMAddAdditionalData(addData []byte)`: an empty body. -/
def isal192Cipher.GCMAddAdditionalData (a : isal192Cipher) (_addData : Slice) : isal192Cipher := a

/-- Method `(a *isal192Cipher) GCMGetAuthTag() []byte`: returns nil. -/
def isal192Cipher.GCMGetAuthTag (_a : isal192Cipher) : Bytes := []

/-! ### isal256Cipher -/

/-- Method `(a *isal256Cipher) Encrypt(cipherText, plainText []byte, mode int) error`. -/
def isal256Cipher.Encrypt (P : Prims) (a : isal256Cipher) (cipherText plainText : Slice)
    (mode : Int) : Except Panic (isal256Cipher × Slice × error) :=
  if mode = ModeCBC then
    if plainText.len = 0 then .error .indexOutOfRange
    else if cipherText.len = 0 then .error .indexOutOfRange
    else
      .ok (a,
        cipherText.pokeC (P.aes_cbc_enc_256 (placement cipherText plainText plainText.len)
          plainText.data a.iv a.expkeyEnc),
        none)
  else if mode = ModeGCM then
    if cipherText.len = 0 then .error .indexOutOfRange
    else
      let r := P.aes_gcm_enc_256 (placement cipherText plainText plainText.len)
        a.gcmKeyData plainText.data a.iv a.additionalData
      .ok ({ a with authTag := r.2 }, cipherText.pokeC r.1, none)
  else if mode = ModeXTS then
    if plainText.len = 0 then .error .indexOutOfRange
    else if cipherText.len = 0 then .error .indexOutOfRange
    else
      .ok (a,
        cipherText.pokeC (P.XTS_AES_128_enc_expanded_key
          (placement cipherText plainText plainText.len)
          a.xtsExpkey2Enc a.xtsExpkey1Enc a.iv plainText.data),
        none)
  else .ok (a, cipherText, some (.new "Invalid mode"))

/-- Method `(a *isal256Cipher) Decrypt(plainText, cipherText []byte, mode int) error`. -/
def isal256Cipher.Decrypt (P : Prims) (a : isal256Cipher) (plainText cipherText : Slice)
    (mode : Int) : Except Panic (isal256Cipher × Slice × error) :=
  if mode = ModeCBC then
    if plainText.len = 0 then .error .indexOutOfRange
    else if cipherText.len = 0 then .error .indexOutOfRange
    else
      let at_ : Option Int :=
        if cipherText.ptr = plainText.ptr then none
        else placement plainText cipherText cipherText.len
      .ok (a, plainText.pokeC (P.aes_cbc_dec_256 at_ cipherText.data a.iv a.expkeyDec), none)
  else if mode = ModeGCM then
    if plainText.len = 0 ∧ cipherText.len ≠ 0 then .error .nilStore
    else
      let r := P.aes_gcm_dec_256 (placement plainText cipherText cipherText.len)
        a.gcmKeyData cipherText.data a.iv a.additionalData
      .ok ({ a with authTag := r.2 }, plainText.pokeC r.1, none)
  else if mode = ModeXTS then
    if plainText.len = 0 then .error .indexOutOfRange
    else if cipherText.len = 0 then .error .indexOutOfRange
    else
      .ok (a,
        plainText.pokeC (P.XTS_AES_128_dec_expanded_key
          (placement plainText cipherText cipherText.len)
          a.xtsExpkey2Enc a.xtsExpkey1Dec a.iv cipherText.data),
        none)
  else .ok (a, plainText, some (.new "Invalid mode"))

/-- Method `(a *isal256Cipher) SetIV(iv []byte)`. -/
def isal256Cipher.SetIV (a : isal256Cipher) (iv : Slice) : isal256Cipher :=
  { a with iv := setIV16 a.iv iv }

/-- Method `(a *isal256Cipher) BlockSize() int`. -/
def isal256Cipher.BlockSize (_a : isal256Cipher) : Int := Crypto.BlockSize

/-- Method `(a *isal256Cipher) GCMAddAdditionalData(addData []byte)`. -/
def isal256Cipher.GCMAddAdditionalData (a : isal256Cipher) (addData : Slice) : isal256Cipher :=
  { a with additionalData := copy (List.replicate addData.len 0) addData.data }

/-- Method `(a *isal256Cipher) GCMGetAuthTag() []byte`. -/
def isal256Cipher.GCMGetAuthTag (a : isal256Cipher) : Bytes := a.authTag.1

/-! ### isal512Cipher -/

/-- Method `(a *isal512Cipher) Encrypt(cipherText, plainText []byte, mode int) error`. -/
def isal512Cipher.Encrypt (P : Prims) (a : isal512Cipher) (cipherText plainText : Slice)
    (mode : Int) : Except Panic (isal512Cipher × Slice × error) :=
  if mode = ModeXTS then
    if plainText.len = 0 then .error .indexOutOfRange
    else if cipherText.len = 0 then .error .indexOutOfRange
    else
      .ok (a,
        cipherText.pokeC (P.XTS_AES_256_enc_expanded_key
          (placement cipherText plainText plainText.len)
          a.xtsExpkey2Enc a.xtsExpkey1Enc a.iv plainText.data),
        none)
  else .ok (a, cipherText, some (.new "Invalid mode"))

/-- Method `(a *isal512Cipher) Decrypt(plainText, cipherText []byte, mode int) error`. -/
def isal512Cipher.Decrypt (P : Prims) (a : isal512Cipher) (plainText cipherText : Slice)
    (mode : Int) : Except Panic (isal512Cipher × Slice × error) :=
  if mode = ModeXTS then
    if plainText.len = 0 then .error .indexOutOfRange
    else if cipherText.len = 0 then .error .indexOutOfRange
    else
      .ok (a,
        plainText.pokeC (P.XTS_AES_256_dec_expanded_key
          (placement plainText cipherText cipherText.len)
          a.xtsExpkey2Enc a.xtsExpkey1Dec a.iv cipherText.data),
        none)
  else .ok (a, plainText, some (.new "Invalid mode"))

/-- Method `(a *isal512Cipher) SetIV(iv []byte)`. -/
def isal512Cipher.SetIV (a : isal512Cipher) (iv : Slice) : isal512Cipher :=
  { a with iv := setIV16 a.iv iv }

/-- Method `(a *isal512Cipher) BlockSize() int`. -/
def isal512Cipher.BlockSize (_a : isal512Cipher) : Int := Crypto.BlockSize

/-- Method `(a *isal512Cipher) GCMAddAdditionalData(addData []byte)`: returns at once. -/
def isal512Cipher.GCMAddAdditionalData (a : isal512Cipher) (_addData : Slice) : isal512Cipher := a

/-- Method `(a *isal512Cipher) GCMGetAuthTag() []byte`: returns nil. -/
def isal512Cipher.GCMGetAuthTag (_a : isal512Cipher) : Bytes := []

/-! ### The key expansion wrappers -/

/-- Wrapper `isalKeyExpand128(key, enc, dec)`: `&key[0]` is taken, then the primitive
loads 16 key bytes through it and fills `enc` and `dec`. -/
def isalKeyExpand128 (P : Prims) (key : Slice) : Except Panic (Bytes × Bytes) :=
  if key.len = 0 then .error .indexOutOfRange else .ok (P.aes_keyexp_128 (key.readC 16))

/-- Wrapper `isalKeyExpand192(key, enc, dec)`: the primitive loads 24 key bytes. -/
def isalKeyExpand192 (P : Prims) (key : Slice) : Except Panic (Bytes × Bytes) :=
  if key.len = 0 then .error .indexOutOfRange else .ok (P.aes_keyexp_192 (key.readC 24))

/-- Wrapper `isalKeyExpand256(key, enc, dec)`: the primitive loads 32 key bytes. -/
def isalKeyExpand256 (P : Prims) (key : Slice) : Except Panic (Bytes × Bytes) :=
  if key.len = 0 then .error .indexOutOfRange else .ok (P.aes_keyexp_256 (key.readC 32))

/-- Wrapper `isalGCMPrecomp128(key, keyData)`: the primitive loads 16 key bytes. -/
def isalGCMPrecomp128 (P : Prims) (key : Slice) : Except Panic Bytes :=
  if key.len = 0 then .error .indexOutOfRange else .ok (P.aes_gcm_pre_128 (key.readC 16))

/-- Wrapper `isalGCMPrecomp256(key, keyData)`: the primitive loads 32 key bytes. -/
def isalGCMPrecomp256 (P : Prims) (key : Slice) : Except Panic Bytes :=
  if key.len = 0 then .error .indexOutOfRange else .ok (P.aes_gcm_pre_256 (key.readC 32))

/-! ## The `cipher.Block` interface over its four implementations -/

/-- A `cipher.Block` value: one of the four types of `aes/isal.go` that implement it. -/
inductive Block where
  | c128 (a : isal128Cipher)
  | c192 (a : isal192Cipher)
  | c256 (a : isal256Cipher)
  | c512 (a : isal512Cipher)

/-- Interface method `BlockSize() int`. -/
def Block.BlockSize : Block → Int
  | .c128 a => a.BlockSize
  | .c192 a => a.BlockSize
  | .c256 a => a.BlockSize
  | .c512 a => a.BlockSize

/-- Interface method `SetIV(iv []byte)`. -/
def Block.SetIV : Block → Slice → Block
  | .c128 a, iv => .c128 (a.SetIV iv)
  | .c192 a, iv => .c192 (a.SetIV iv)
  | .c256 a, iv => .c256 (a.SetIV iv)
  | .c512 a, iv => .c512 (a.SetIV iv)

/-- Interface method `GCMAddAdditionalData(addData []byte)`. -/
def Block.GCMAddAdditionalData : Block → Slice → Block
  | .c128 a, ad => .c128 (a.GCMAddAdditionalData ad)
  | .c192 a, ad => .c192 (a.GCMAddAdditionalData ad)
  | .c256 a, ad => .c256 (a.GCMAddAdditionalData ad)
  | .c512 a, ad => .c512 (a.GCMAddAdditionalData ad)

/-- Interface method `GCMGetAuthTag() []byte`. -/
def Block.GCMGetAuthTag : Block → Bytes
  | .c128 a => a.GCMGetAuthTag
  | .c192 a => a.GCMGetAuthTag
  | .c256 a => a.GCMGetAuthTag
  | .c512 a => a.GCMGetAuthTag

/-- Carrying a variant's result over to the interface type. -/
def liftResult {α : Type} (f : α → Block) (r : Except Panic (α × Slice × error)) :
    Except Panic (Block × Slice × error) :=
  match r with
  | .error e => .error e
  | .ok (a, s, err) => .ok (f a, s, err)

/-- Interface method `Encrypt(dst, src []byte, mode int) error`. -/
def Block.Encrypt (P : Prims) : Block → Slice → Slice → Int → Except Panic (Block × Slice × error)
  | .c128 a, dst, src, mode => liftResult .c128 (a.Encrypt P dst src mode)
  | .c192 a, dst, src, mode => liftResult .c192 (a.Encrypt P dst src mode)
  | .c256 a, dst, src, mode => liftResult .c256 (a.Encrypt P dst src mode)
  | .c512 a, dst, src, mode => liftResult .c512 (a.Encrypt P dst src mode)

/-- Interface method `Decrypt(dst, src []byte, mode int) error`. -/
def Block.Decrypt (P : Prims) : Block → Slice → Slice → Int → Except Panic (Block × Slice × error)
  | .c128 a, dst, src, mode => liftResult .c128 (a.Decrypt P dst src mode)
  | .c192 a, dst, src, mode => liftResult .c192 (a.Decrypt P dst src mode)
  | .c256 a, dst, src, mode => liftResult .c256 (a.Decrypt P dst src mode)
  | .c512 a, dst, src, mode => liftResult .c512 (a.Decrypt P dst src mode)

/-- The capability's current IV (the field `iv` every variant has). -/
def Block.iv : Block → Arr16
  | .c128 a => a.iv
  | .c192 a => a.iv
  | .c256 a => a.iv
  | .c512 a => a.iv

/-- The capability's bound additional data; the variants without the field have none. -/
def Block.additionalData : Block → Bytes
  | .c128 a => a.additionalData
  | .c192 _ => []
  | .c256 a => a.additionalData
  | .c512 _ => []

/-! ## aes/aes.go -/

/-- Function `IsSupported`: returns the flag that `init` set from the CPU probe. -/
def IsSupported (aesniSupported : Bool) : Bool := aesniSupported

/-- Function `NewCipher(key []byte) (cipher.Block, error)`, run with the value
`aesniSupported` of the package variable. `new(T)` is the zero value of `T`; the
wrappers then fill the schedules. -/
def NewCipher (P : Prims) (aesniSupported : Bool) (key : Slice) :
    Except Panic (Option Block × error) :=
  if !IsSupported aesniSupported then .ok (none, some (.new "H/W not supported"))
  else if key.len = 16 then do
    let k ← isalKeyExpand128 P key
    let g ← isalGCMPrecomp128 P key
    pure (some (.c128 ⟨k.1, k.2, zero16, g, zero16, []⟩), none)
  else if key.len = 24 then do
    let k ← isalKeyExpand192 P key
    pure (some (.c192 ⟨k.1, k.2, zero16⟩), none)
  else if key.len = 32 then do
    let k ← isalKeyExpand256 P key
    let x1 ← isalKeyExpand128 P (key.upTo 15)
    let x2 ← isalKeyExpand128 P (key.startAt 16)
    let g ← isalGCMPrecomp256 P key
    pure (some (.c256 ⟨k.1, k.2, x1.1, x1.2, x2.1, x2.2, zero16, g, zero16, []⟩), none)
  else if key.len = 64 then do
    let x1 ← isalKeyExpand256 P (key.upTo 31)
    let x2 ← isalKeyExpand256 P (key.startAt 32)
    pure (some (.c512 ⟨x1.1, x2.1, x1.2, x2.2, zero16⟩), none)
  else .ok (none, some (.new "Unsupported key size"))

/-! ## cipher/gcm.go -/

/-- The struct `gcm`: a Galois Counter Mode with a specific key. `block` is a reference to
the capability, so the operations below hand back the capability as they leave it. -/
structure gcm where
  block : Block
  nonceSize : Int

/-- Constant `gcmBlockSize`. -/
def gcmBlockSize : Nat := 16

/-- Constant `gcmTagSize`. -/
def gcmTagSize : Nat := 16

/-- Constant `gcmStandardNonceSize`. -/
def gcmStandardNonceSize : Int := 12

/-- Function `NewGCM(block Block) (AEAD, error)`. -/
def NewGCM (block : Block) : Option gcm × error :=
  (some ⟨block, gcmStandardNonceSize⟩, none)

/-- Function `NewGCMWithNonceSize(block Block, size int) (AEAD, error)`. -/
def NewGCMWithNonceSize (block : Block) (size : Int) : Option gcm × error :=
  if size ≠ gcmStandardNonceSize then
    (none, some (.new "Non standard nonce size not implemented"))
  else NewGCM block

/-- Method `(g *gcm) NonceSize() int`. -/
def gcm.NonceSize (g : gcm) : Int := g.nonceSize

/-- Method `(*gcm) Overhead() int`. -/
def gcm.Overhead (_g : gcm) : Int := gcmTagSize

/-- Function `sliceForAppend(in []byte, n int) (head, tail []byte)`; `fresh` is the
address the allocator returns if `make` is reached. -/
def sliceForAppend (fresh : Nat) (in_ : Slice) (n : Nat) : Slice × Slice :=
  let total := in_.len + n
  let head : Slice :=
    if in_.cap ≥ total then in_.upTo total
    else ⟨fresh, copy (List.replicate total 0) in_.data, []⟩
  (head, head.startAt in_.len)

/-- Function `subtle.ConstantTimeCompare(x, y []byte) int` of the Go library: 1 if the two
slices have equal contents, 0 otherwise (also when the lengths differ). -/
def ConstantTimeCompare (x y : Bytes) : Int := if x = y then 1 else 0

/-- Variable `errOpen`, the package's one authentication-failure error. -/
def errOpen : GoError := .global "cipher: message authentication failed"

/-- Method `(g *gcm) Seal(dst, nonce, plaintext, additionalData []byte) []byte`: the
capability after the call and the returned slice. The error of `Encrypt` is dropped,
as in the source. -/
def gcm.Seal (P : Prims) (g : gcm) (fresh : Nat) (dst nonce plaintext additionalData : Slice) :
    Except Panic (Block × Slice) :=
  if (nonce.len : Int) ≠ g.nonceSize then
    .error (.msg "cipher: incorrect nonce length given to GCM")
  else if uint64 plaintext.len > ((2 ^ 32 - 2) * uint64 g.block.BlockSize) % 2 ^ 64 then
    .error (.msg "cipher: message too large for GCM")
  else
    let ret := (sliceForAppend fresh dst (plaintext.len + gcmTagSize)).1
    let b1 := g.block.SetIV nonce
    let b2 := b1.GCMAddAdditionalData additionalData
    match b2.Encrypt P ret plaintext ModeGCM with
    | .error e => .error e
    | .ok (b3, ret1, _) => .ok (b3, copyAt ret1 plaintext.len b3.GCMGetAuthTag)

/-- The loop `for i := range out { out[i] = 0 }` of `Open`, where `out` is `ret[off:]`,
seen on `ret`. -/
def zeroTail (ret : Slice) (off : Nat) : Slice :=
  { ret with data := ret.data.take off ++ List.replicate (ret.data.length - off) 0 }

/-- What a call of `Open` leaves behind: the capability, the two results, and the working
buffer `ret` as the call left it (`none` when the call returned before setting it up).
The working buffer is `dst`'s own storage whenever `dst` had the capacity. -/
structure OpenResult where
  block : Block
  ret : Option Slice
  err : error
  buf : Option Slice

/-- Method `(g *gcm) Open(dst, nonce, ciphertext, additionalData []byte) ([]byte, error)`.
The slice `tag` is a view of the input's last 16 bytes and is read after `Decrypt` has
stored `len(ciphertext)` bytes through `&ret[0]`: where the two overlap, the comparison
sees what was stored. -/
def gcm.Open (P : Prims) (g : gcm) (fresh : Nat) (dst nonce ciphertext additionalData : Slice) :
    Except Panic OpenResult :=
  if (nonce.len : Int) ≠ g.nonceSize then
    .error (.msg "cipher: incorrect nonce length given to GCM")
  else if ciphertext.len < gcmTagSize then
    .ok ⟨g.block, none, some errOpen, none⟩
  else if uint64 ciphertext.len >
      (((2 ^ 32 - 2) * uint64 g.block.BlockSize) % 2 ^ 64 + gcmTagSize) % 2 ^ 64 then
    .ok ⟨g.block, none, some errOpen, none⟩
  else
    let tag := ciphertext.startAt (ciphertext.len - gcmTagSize)
    let ciphertext1 := ciphertext.upTo (ciphertext.len - gcmTagSize)
    let ret := (sliceForAppend fresh dst ciphertext1.len).1
    let b1 := g.block.SetIV nonce
    let b2 := b1.GCMAddAdditionalData additionalData
    match b2.Decrypt P ret ciphertext1 ModeGCM with
    | .error e => .error e
    | .ok (b3, ret1, _) =>
      if ConstantTimeCompare b3.GCMGetAuthTag
          (tag.afterStore ret1.ptr (ret1.readC ciphertext1.len)) ≠ 1 then
        .ok ⟨b3, none, some errOpen, some (zeroTail ret1 dst.len)⟩
      else .ok ⟨b3, some ret1, none, some ret1⟩

/-! ## cipher/cbc.go

A wrapper holds a pointer to the capability. The definitions of this section and the next
show one call on the one capability it touches: the structures carry the state of the
capability behind the pointer as the call finds it, and a method hands back the wrapper
with the capability as the call leaves it. The pointer itself, and with it what a second
wrapper on the same capability does to the first, is in the section on the wrappers on
capabilities in memory. -/

/-- OperationEncrypt to let CryptBlock perform Encryption. -/
def OperationEncrypt : Int := 1

/-- OperationDecrypt to let CryptBlock perform Encryption. -/
def OperationDecrypt : Int := 2

/-- The struct `cbc`: the capability, the mode tag and the remembered operation. -/
structure cbc where
  block : Block
  mode : Int
  operation : Int

/-- Function `NewCBCEncrypter(b Block, iv []byte) BlockMode`: the capability as the call
leaves it, and the wrapper or the panic. -/
def NewCBCEncrypter (b : Block) (iv : Slice) : Block × Except Panic cbc :=
  if (iv.len : Int) ≠ b.BlockSize then
    (b, .error (.msg "cipher.NewCBCEncrypter: IV length must equal block size"))
  else (b.SetIV iv, .ok ⟨b.SetIV iv, ModeCBC, OperationEncrypt⟩)

/-- Function `NewCBCDecrypter(b Block, iv []byte) BlockMode`; the panic text is the one
of the source. -/
def NewCBCDecrypter (b : Block) (iv : Slice) : Block × Except Panic cbc :=
  if (iv.len : Int) ≠ b.BlockSize then
    (b, .error (.msg "cipher.NewCBCEncrypter: IV length must equal block size"))
  else (b.SetIV iv, .ok ⟨b.SetIV iv, ModeCBC, OperationDecrypt⟩)

/-- Method `(c *cbc) BlockSize() int`. -/
def cbc.BlockSize (c : cbc) : Int := c.block.BlockSize

/-- Method `(c *cbc) SetIV(iv []byte)`: the wrapper after the call and the panic, if any. -/
def cbc.SetIV (c : cbc) (iv : Slice) : cbc × Option Panic :=
  if (iv.len : Int) ≠ c.block.BlockSize then
    (c, some (.msg "cipher: incorrect length IV"))
  else ({ c with block := c.block.SetIV iv }, none)

/-- Method `(c *cbc) Encrypt(cipherText, plainText []byte) error`. -/
def cbc.Encrypt (P : Prims) (c : cbc) (cipherText plainText : Slice) :
    Except Panic (cbc × Slice × error) :=
  match c.block.Encrypt P cipherText plainText c.mode with
  | .error e => .error e
  | .ok (b, s, err) => .ok ({ c with block := b }, s, err)

/-- Method `(c *cbc) Decrypt(plainText, cipherText []byte) error`. -/
def cbc.Decrypt (P : Prims) (c : cbc) (plainText cipherText : Slice) :
    Except Panic (cbc × Slice × error) :=
  match c.block.Decrypt P plainText cipherText c.mode with
  | .error e => .error e
  | .ok (b, s, err) => .ok ({ c with block := b }, s, err)

/-- Method `(c *cbc) CryptBlocks(dst, src []byte) error`. -/
def cbc.CryptBlocks (P : Prims) (c : cbc) (dst src : Slice) :
    Except Panic (cbc × Slice × error) :=
  if c.operation = OperationEncrypt then c.Encrypt P dst src
  else if c.operation = OperationDecrypt then c.Decrypt P dst src
  else .ok (c, dst, some (.new "Unknown operation"))

/-! ## cipher/xts.go -/

/-- The struct `xtsEncryptor`. -/
structure xtsEncryptor where
  block : Block
  mode : Int

/-- Function `NewXTSEncryptor(k Block) BlockMode`. -/
def NewXTSEncryptor (k : Block) : xtsEncryptor := ⟨k, ModeXTS⟩

/-- Method `(x *xtsEncryptor) validate(dst, src []byte) error`. -/
def xtsEncryptor.validate (x : xtsEncryptor) (dst src : Slice) : error :=
  if (dst.len : Int) < x.block.BlockSize then some (.new "Source buffer too small")
  else if dst.len < src.len then some (.new "Destination buffer too small")
  else none

/-- Method `(x *xtsEncryptor) Encrypt(cipherText, plainText []byte) error`. -/
def xtsEncryptor.Encrypt (P : Prims) (x : xtsEncryptor) (cipherText plainText : Slice) :
    Except Panic (xtsEncryptor × Slice × error) :=
  match x.validate cipherText plainText with
  | some err => .ok (x, cipherText, some err)
  | none =>
    match x.block.Encrypt P cipherText plainText x.mode with
    | .error e => .error e
    | .ok (b, s, err) => .ok ({ x with block := b }, s, err)

/-- Method `(x *xtsEncryptor) Decrypt(plainText, cipherText []byte) error`. -/
def xtsEncryptor.Decrypt (P : Prims) (x : xtsEncryptor) (plainText cipherText : Slice) :
    Except Panic (xtsEncryptor × Slice × error) :=
  match x.validate plainText cipherText with
  | some err => .ok (x, plainText, some err)
  | none =>
    match x.block.Decrypt P plainText cipherText x.mode with
    | .error e => .error e
    | .ok (b, s, err) => .ok ({ x with block := b }, s, err)

/-- Method `(x *xtsEncryptor) SetIV(iv []byte)`: the wrapper after the call and the panic,
if any. -/
def xtsEncryptor.SetIV (x : xtsEncryptor) (iv : Slice) : xtsEncryptor × Option Panic :=
  if (iv.len : Int) ≠ x.block.BlockSize then
    (x, some (.msg "IV length must equal cipher block size"))
  else ({ x with block := x.block.SetIV iv }, none)

/-- Method `(x *xtsEncryptor) BlockSize() int`. -/
def xtsEncryptor.BlockSize (_x : xtsEncryptor) : Int := 1

/-- Method `(x *xtsEncryptor) CryptBlocks(dst, src []byte) error`. -/
def xtsEncryptor.CryptBlocks (x : xtsEncryptor) (dst _src : Slice) :
    xtsEncryptor × Slice × error :=
  (x, dst, some (.new "Not implemented"))

/-! ## The wrappers on capabilities in memory

A `cipher.Block` value is a pointer to a capability, and a wrapper stores that pointer in
its field `block`: all wrappers built on one `Block` address one capability. Below the
capabilities live in a `Store`, by address; a wrapper is the Go struct with the address in
its field, and each function or method takes the store as it finds it and gives the
store as it leaves it. The definitions of `cipher/cbc.go`, `cipher/xts.go` and
`cipher/gcm.go` above show each call on the one capability it touches. -/

/-- The capabilities in memory, by address. -/
abbrev Store := Nat → Block

/-- The store after a write to the capability at the address `p`. -/
def Store.put (m : Store) (p : Nat) (b : Block) : Store := fun q => if q = p then b else m q

/-- The struct `cbc`, with the pointer to the capability in `block`. -/
structure Shared.cbc where
  block : Nat
  mode : Int
  operation : Int

/-- Function `NewCBCEncrypter(b Block, iv []byte) BlockMode`, where `b` is the address of a
capability: `b.SetIV(iv)` writes to the capability, the wrapper keeps the address. -/
def Shared.NewCBCEncrypter (m : Store) (b : Nat) (iv : Slice) :
    Store × Except Panic Shared.cbc :=
  if (iv.len : Int) ≠ (m b).BlockSize then
    (m, .error (.msg "cipher.NewCBCEncrypter: IV length must equal block size"))
  else (m.put b ((m b).SetIV iv), .ok ⟨b, ModeCBC, OperationEncrypt⟩)

/-- Function `NewCBCDecrypter(b Block, iv []byte) BlockMode`. -/
def Shared.NewCBCDecrypter (m : Store) (b : Nat) (iv : Slice) :
    Store × Except Panic Shared.cbc :=
  if (iv.len : Int) ≠ (m b).BlockSize then
    (m, .error (.msg "cipher.NewCBCEncrypter: IV length must equal block size"))
  else (m.put b ((m b).SetIV iv), .ok ⟨b, ModeCBC, OperationDecrypt⟩)

/-- Method `(c *cbc) SetIV(iv []byte)`. -/
def Shared.cbc.SetIV (c : Shared.cbc) (m : Store) (iv : Slice) : Store × Option Panic :=
  if (iv.len : Int) ≠ (m c.block).BlockSize then (m, some (.msg "cipher: incorrect length IV"))
  else (m.put c.block ((m c.block).SetIV iv), none)

/-- Method `(c *cbc) Encrypt(cipherText, plainText []byte) error`. -/
def Shared.cbc.Encrypt (P : Prims) (c : Shared.cbc) (m : Store) (cipherText plainText : Slice) :
    Except Panic (Store × Slice × error) :=
  match (m c.block).Encrypt P cipherText plainText c.mode with
  | .error e => .error e
  | .ok (b, s, err) => .ok (m.put c.block b, s, err)

/-- Method `(c *cbc) Decrypt(plainText, cipherText []byte) error`. -/
def Shared.cbc.Decrypt (P : Prims) (c : Shared.cbc) (m : Store) (plainText cipherText : Slice) :
    Except Panic (Store × Slice × error) :=
  match (m c.block).Decrypt P plainText cipherText c.mode with
  | .error e => .error e
  | .ok (b, s, err) => .ok (m.put c.block b, s, err)

/-- Method `(c *cbc) CryptBlocks(dst, src []byte) error`. -/
def Shared.cbc.CryptBlocks (P : Prims) (c : Shared.cbc) (m : Store) (dst src : Slice) :
    Except Panic (Store × Slice × error) :=
  if c.operation = OperationEncrypt then c.Encrypt P m dst src
  else if c.operation = OperationDecrypt then c.Decrypt P m dst src
  else .ok (m, dst, some (.new "Unknown operation"))

/-- The struct `xtsEncryptor`, with the pointer to the capability in `block`. -/
structure Shared.xtsEncryptor where
  block : Nat
  mode : Int

/-- Function `NewXTSEncryptor(k Block) BlockMode`. -/
def Shared.NewXTSEncryptor (k : Nat) : Shared.xtsEncryptor := ⟨k, ModeXTS⟩

/-- Method `(x *xtsEncryptor) validate(dst, src []byte) error`. -/
def Shared.xtsEncryptor.validate (x : Shared.xtsEncryptor) (m : Store) (dst src : Slice) :
    error :=
  if (dst.len : Int) < (m x.block).BlockSize then some (.new "Source buffer too small")
  else if dst.len < src.len then some (.new "Destination buffer too small")
  else none

/-- Method `(x *xtsEncryptor) Encrypt(cipherText, plainText []byte) error`. -/
def Shared.xtsEncryptor.Encrypt (P : Prims) (x : Shared.xtsEncryptor) (m : Store)
    (cipherText plainText : Slice) : Except Panic (Store × Slice × error) :=
  match x.validate m cipherText plainText with
  | some err => .ok (m, cipherText, some err)
  | none =>
    match (m x.block).Encrypt P cipherText plainText x.mode with
    | .error e => .error e
    | .ok (b, s, err) => .ok (m.put x.block b, s, err)

/-- Method `(x *xtsEncryptor) Decrypt(plainText, cipherText []byte) error`. -/
def Shared.xtsEncryptor.Decrypt (P : Prims) (x : Shared.xtsEncryptor) (m : Store)
    (plainText cipherText : Slice) : Except Panic (Store × Slice × error) :=
  match x.validate m plainText cipherText with
  | some err => .ok (m, plainText, some err)
  | none =>
    match (m x.block).Decrypt P plainText cipherText x.mode with
    | .error e => .error e
    | .ok (b, s, err) => .ok (m.put x.block b, s, err)

/-- Method `(x *xtsEncryptor) SetIV(iv []byte)`. -/
def Shared.xtsEncryptor.SetIV (x : Shared.xtsEncryptor) (m : Store) (iv : Slice) :
    Store × Option Panic :=
  if (iv.len : Int) ≠ (m x.block).BlockSize then
    (m, some (.msg "IV length must equal cipher block size"))
  else (m.put x.block ((m x.block).SetIV iv), none)

/-- Method `(x *xtsEncryptor) CryptBlocks(dst, src []byte) error`. -/
def Shared.xtsEncryptor.CryptBlocks (_x : Shared.xtsEncryptor) (m : Store) (dst _src : Slice) :
    Store × Slice × error :=
  (m, dst, some (.new "Not implemented"))

/-- The struct `gcm`, with the pointer to the capability in `block`. -/
structure Shared.gcm where
  block : Nat
  nonceSize : Int

/-- Function `NewGCM(block Block) (AEAD, error)`. -/
def Shared.NewGCM (block : Nat) : Option Shared.gcm × error :=
  (some ⟨block, gcmStandardNonceSize⟩, none)

/-- Method `(g *gcm) Seal`: `gcm.Seal` above, run on the capability at the wrapper's address
and leaving it there. -/
def Shared.gcm.Seal (P : Prims) (g : Shared.gcm) (m : Store) (fresh : Nat)
    (dst nonce plaintext additionalData : Slice) : Except Panic (Store × Slice) :=
  match Crypto.gcm.Seal P ⟨m g.block, g.nonceSize⟩ fresh dst nonce plaintext additionalData with
  | .error e => .error e
  | .ok (b, ret) => .ok (m.put g.block b, ret)

/-- Method `(g *gcm) Open`: `gcm.Open` above, run on the capability at the wrapper's address
and leaving it there; the store and the two results. -/
def Shared.gcm.Open (P : Prims) (g : Shared.gcm) (m : Store) (fresh : Nat)
    (dst nonce ciphertext additionalData : Slice) :
    Except Panic (Store × Option Slice × error) :=
  match Crypto.gcm.Open P ⟨m g.block, g.nonceSize⟩ fresh dst nonce ciphertext additionalData with
  | .error e => .error e
  | .ok r => .ok (m.put g.block r.block, r.ret, r.err)

/-! ## msha1/msha1.go -/

/-- A Go `[N]byte` array with `N = 20` (`hash`). -/
abbrev Arr20 := {l : Bytes // l.length = 20}

/-- The zero value of a `[20]byte`. -/
def zero20 : Arr20 := ⟨List.replicate 20 0, by simp⟩

/-- The multi-hash SHA-1 entry points of the acceleration library that `msha1/msha1.go`
calls. `Ctx` is the C struct `mh_sha1_ctx` and `zeroCtx` its zero value. Each entry point
takes the context it is handed and gives the context it leaves; `mh_sha1_update` takes the
bytes it loads, `mh_sha1_finalize` gives the 20 bytes it stores through the hash pointer. -/
structure MhPrims where
  Ctx : Type
  zeroCtx : Ctx
  mh_sha1_init : Ctx → Ctx
  mh_sha1_update : Ctx → Bytes → Ctx
  mh_sha1_finalize : Ctx → Ctx × Arr20

/-- The size of a checksum in bytes. -/
def msha1.Size : Int := 20

/-- The blocksize in bytes. -/
def msha1.BlockSize : Int := 64

/-- The struct `digest`: the partial evaluation of a checksum. -/
structure msha1.digest (M : MhPrims) where
  hash : Arr20
  ctx : M.Ctx

/-- The zero value of `digest` (`new(digest)`, `var d digest`). -/
def msha1.digest.zero (M : MhPrims) : msha1.digest M := ⟨zero20, M.zeroCtx⟩

/-- Method `(d *digest) Reset()`. -/
def msha1.digest.Reset {M : MhPrims} (d : msha1.digest M) : msha1.digest M :=
  { d with ctx := M.mh_sha1_init d.ctx }

/-- Function `New() hash.Hash`. -/
def msha1.New (M : MhPrims) : msha1.digest M := (msha1.digest.zero M).Reset

/-- Method `(d *digest) Size() int`. -/
def msha1.digest.Size {M : MhPrims} (_d : msha1.digest M) : Int := msha1.Size

/-- Method `(d *digest) BlockSize() int`. -/
def msha1.digest.BlockSize {M : MhPrims} (_d : msha1.digest M) : Int := msha1.BlockSize

/-- Method `(d *digest) Write(p []byte) (int, error)`: the digest after the call and the two
results. The length handed to the primitive is `C.uint32_t(len(p))`. -/
def msha1.digest.Write {M : MhPrims} (d : msha1.digest M) (p : Slice) :
    msha1.digest M × Int × error :=
  if p.len = 0 then (d, 0, none)
  else ({ d with ctx := M.mh_sha1_update d.ctx (p.readC (p.len % 2 ^ 32)) }, p.len, none)

/-- Method `(d digest) finalize() [Size]byte`. The receiver is a copy, so the digest of the
caller is left as it was. -/
def msha1.digest.finalize {M : MhPrims} (d : msha1.digest M) : Arr20 :=
  (M.mh_sha1_finalize d.ctx).2

/-- Go `append(s, xs...)`: in place when the capacity suffices, otherwise into a new array,
at the address `fresh` and with `extra` bytes of spare capacity, as the run time chooses. -/
def append (fresh extra : Nat) (s : Slice) (xs : Bytes) : Slice :=
  if s.cap ≥ s.len + xs.length then ⟨s.ptr, s.data ++ xs, s.spare.drop xs.length⟩
  else ⟨fresh, s.data ++ xs, List.replicate extra 0⟩

/-- Method `(d digest) Sum(in []byte) []byte`. -/
def msha1.digest.Sum {M : MhPrims} (d : msha1.digest M) (fresh extra : Nat) (in_ : Slice) :
    Slice :=
  append fresh extra in_ d.finalize.1

/-- Function `Sum(data []byte) [Size]byte`: the multi-hash SHA-1 checksum of the data. -/
def msha1.Sum (M : MhPrims) (data : Slice) : Arr20 :=
  (((msha1.digest.zero M).Reset).Write data).1.finalize

/-! ## Vocabulary of the statements -/

/-- Key-size capability matrix of the specification: the modes a key of `n` bytes supports. -/
def supportedModes (n : Nat) : List Int :=
  if n = 16 then [ModeCBC, ModeGCM]
  else if n = 24 then [ModeCBC]
  else if n = 32 then [ModeCBC, ModeGCM, ModeXTS]
  else if n = 64 then [ModeXTS]
  else []

/-- The variants whose `Encrypt` and `Decrypt` have a GCM case that calls a primitive. -/
def Block.supportsGCM : Block → Bool
  | .c128 _ => true
  | .c192 _ => false
  | .c256 _ => true
  | .c512 _ => false

/-- The call of the GCM encryption primitive that the capability's `Encrypt` makes in
GCM mode on the input `x`, with the capability's key data, current IV and bound
additional data: the ciphertext and the tag. `none` for a variant that makes no call. -/
def Block.gcmEncrypt (P : Prims) : Block → Option Int → Bytes → Option (Bytes × Arr16)
  | .c128 a, r, x => some (P.aes_gcm_enc_128 r a.gcmKeyData x a.iv a.additionalData)
  | .c192 _, _, _ => none
  | .c256 a, r, x => some (P.aes_gcm_enc_256 r a.gcmKeyData x a.iv a.additionalData)
  | .c512 _, _, _ => none

/-- The call of the GCM decryption primitive that the capability's `Decrypt` makes in
GCM mode on the input `x`: the plaintext and the recomputed tag. -/
def Block.gcmDecrypt (P : Prims) : Block → Option Int → Bytes → Option (Bytes × Arr16)
  | .c128 a, r, x => some (P.aes_gcm_dec_128 r a.gcmKeyData x a.iv a.additionalData)
  | .c192 _, _, _ => none
  | .c256 a, r, x => some (P.aes_gcm_dec_256 r a.gcmKeyData x a.iv a.additionalData)
  | .c512 _, _, _ => none

/-- The capability with its `authTag` field set to `t` (the variants without the field
are left as they are). -/
def Block.withAuthTag : Block → Arr16 → Block
  | .c128 a, t => .c128 { a with authTag := t }
  | .c192 a, _ => .c192 a
  | .c256 a, t => .c256 { a with authTag := t }
  | .c512 a, _ => .c512 a

/-- The two ways the buffers of a primitive call may lie that the library is asked to
handle: apart (`none`) or output on top of input (`some 0`). -/
def okPlacement (r : Option Int) : Prop := r = none ∨ r = some 0

/-- The rule of the `AEAD` interface for an output buffer and an input of `n` bytes: they
"may alias exactly or not at all". The output starts where the input starts, or it
starts at least `n` bytes away from it. -/
def exactOrDisjoint (dst src : Slice) (n : Nat) : Prop :=
  dst.ptr = src.ptr ∨ placement dst src n = none

instance okPlacement.decidable (r : Option Int) : Decidable (okPlacement r) :=
  inferInstanceAs (Decidable (r = none ∨ r = some 0))

instance exactOrDisjoint.decidable (dst src : Slice) (n : Nat) :
    Decidable (exactOrDisjoint dst src n) :=
  inferInstanceAs (Decidable (dst.ptr = src.ptr ∨ placement dst src n = none))

/-- The library's GCM decryption inverts its GCM encryption and recomputes the same tag,
in calls whose buffers lie apart or coincide. -/
def GCMInverts (P : Prims) : Prop :=
  (∀ r r' k x iv ad, okPlacement r → okPlacement r' →
    P.aes_gcm_dec_128 r' k (P.aes_gcm_enc_128 r k x iv ad).1 iv ad =
      (x, (P.aes_gcm_enc_128 r k x iv ad).2)) ∧
  (∀ r r' k x iv ad, okPlacement r → okPlacement r' →
    P.aes_gcm_dec_256 r' k (P.aes_gcm_enc_256 r k x iv ad).1 iv ad =
      (x, (P.aes_gcm_enc_256 r k x iv ad).2))

/-- The byte run `t` with bit `k` of its byte `i` flipped. -/
def flipBit (t : Bytes) (i k : Nat) : Bytes :=
  t.modify (fun b => b ^^^ Fin.ofNat (2 ^ k)) i

/-- The size bound of `Seal`: `(2^32 - 2)` blocks of 16 bytes. -/
def maxPlaintext : Nat := (2 ^ 32 - 2) * 16

/-- The variants whose `Encrypt` and `Decrypt` have a CBC case. -/
def Block.supportsCBC : Block → Bool
  | .c128 _ => true
  | .c192 _ => true
  | .c256 _ => true
  | .c512 _ => false

/-- The call of the CBC encryption primitive that the capability's `Encrypt` makes in CBC
mode on the input `x` with output placement `r`: the ciphertext. `none` for a variant
that makes no call. -/
def Block.cbcEncrypt (P : Prims) : Block → Option Int → Bytes → Option Bytes
  | .c128 a, r, x => some (P.aes_cbc_enc_128 r x a.iv a.expkeyEnc)
  | .c192 a, r, x => some (P.aes_cbc_enc_192 r x a.iv a.expkeyEnc)
  | .c256 a, r, x => some (P.aes_cbc_enc_256 r x a.iv a.expkeyEnc)
  | .c512 _, _, _ => none

/-- The call of the CBC decryption primitive that the capability's `Decrypt` makes in CBC
mode on the input `x` with output placement `r`: the plaintext. `none` for a variant
that makes no call. -/
def Block.cbcDecrypt (P : Prims) : Block → Option Int → Bytes → Option Bytes
  | .c128 a, r, x => some (P.aes_cbc_dec_128 r x a.iv a.expkeyDec)
  | .c192 a, r, x => some (P.aes_cbc_dec_192 r x a.iv a.expkeyDec)
  | .c256 a, r, x => some (P.aes_cbc_dec_256 r x a.iv a.expkeyDec)
  | .c512 _, _, _ => none

/-- The library's CBC decryption inverts its CBC encryption under the two schedules that
its key expansion derives from one key of the variant's size, on every non-empty input of
whole blocks: the encryption in a call whose buffers lie apart or coincide, the
decryption in a call whose buffers lie apart. The encryption stores as many bytes as it
was given. -/
def CBCInverts (P : Prims) : Prop :=
  (∀ (k : Bytes) (r : Option Int) (iv : Arr16) (x : Bytes), okPlacement r → k.length = 16 →
      x ≠ [] → x.length % 16 = 0 →
    (P.aes_cbc_enc_128 r x iv (P.aes_keyexp_128 k).1).length = x.length ∧
    P.aes_cbc_dec_128 none (P.aes_cbc_enc_128 r x iv (P.aes_keyexp_128 k).1) iv
      (P.aes_keyexp_128 k).2 = x) ∧
  (∀ (k : Bytes) (r : Option Int) (iv : Arr16) (x : Bytes), okPlacement r → k.length = 24 →
      x ≠ [] → x.length % 16 = 0 →
    (P.aes_cbc_enc_192 r x iv (P.aes_keyexp_192 k).1).length = x.length ∧
    P.aes_cbc_dec_192 none (P.aes_cbc_enc_192 r x iv (P.aes_keyexp_192 k).1) iv
      (P.aes_keyexp_192 k).2 = x) ∧
  (∀ (k : Bytes) (r : Option Int) (iv : Arr16) (x : Bytes), okPlacement r → k.length = 32 →
      x ≠ [] → x.length % 16 = 0 →
    (P.aes_cbc_enc_256 r x iv (P.aes_keyexp_256 k).1).length = x.length ∧
    P.aes_cbc_dec_256 none (P.aes_cbc_enc_256 r x iv (P.aes_keyexp_256 k).1) iv
      (P.aes_keyexp_256 k).2 = x)

/-- The library's XTS primitives are correct for the function `std`, where
`std key1 key2 tweak x` is the standard AES-XTS ciphertext of the sector `x` under the
data key `key1`, the tweak key `key2` and the tweak `tweak`. The library takes the
expanded tweak key as its first argument `k2` and the expanded data key as its second
argument `k1` (the encryption schedule to encrypt, the decryption schedule to decrypt);
the keys have the variant's size, a sector has at least 16 bytes, and the buffers of the
call lie apart or coincide. -/
def XTSCorrect (P : Prims) (std : Bytes → Bytes → Arr16 → Bytes → Bytes) : Prop :=
  (∀ (r : Option Int) (key1 key2 : Bytes) (tw : Arr16) (x : Bytes), okPlacement r →
      key1.length = 16 → key2.length = 16 → 16 ≤ x.length →
    P.XTS_AES_128_enc_expanded_key r (P.aes_keyexp_128 key2).1 (P.aes_keyexp_128 key1).1 tw x =
      std key1 key2 tw x ∧
    P.XTS_AES_128_dec_expanded_key r (P.aes_keyexp_128 key2).1 (P.aes_keyexp_128 key1).2 tw
      (std key1 key2 tw x) = x) ∧
  (∀ (r : Option Int) (key1 key2 : Bytes) (tw : Arr16) (x : Bytes), okPlacement r →
      key1.length = 32 → key2.length = 32 → 16 ≤ x.length →
    P.XTS_AES_256_enc_expanded_key r (P.aes_keyexp_256 key2).1 (P.aes_keyexp_256 key1).1 tw x =
      std key1 key2 tw x ∧
    P.XTS_AES_256_dec_expanded_key r (P.aes_keyexp_256 key2).1 (P.aes_keyexp_256 key1).2 tw
      (std key1 key2 tw x) = x) ∧
  (∀ (key1 key2 : Bytes) (tw : Arr16) (x : Bytes), (std key1 key2 tw x).length = x.length)

/-- The two errors that `validate` of the XTS wrapper returns. -/
def isSizeError (e : GoError) : Prop :=
  e = .new "Source buffer too small" ∨ e = .new "Destination buffer too small"

/-- The library's `mh_sha1_init` initialises the whole context: what it leaves does not
depend on what the context held. -/
def MhInitResets (M : MhPrims) : Prop :=
  ∀ c c' : M.Ctx, M.mh_sha1_init c = M.mh_sha1_init c'

/-- The result of a call on the capability at the address `p`, as a result on the store. -/
def Store.result (m : Store) (p : Nat) (r : Except Panic (Block × Slice × error)) :
    Except Panic (Store × Slice × error) :=
  match r with
  | .error e => .error e
  | .ok (b, s, err) => .ok (m.put p b, s, err)

/-! ## A small stand-in for the acceleration library

Used to run the definitions on concrete inputs. It is no cipher: the bulk primitives
shift every byte by one, and the GCM tag repeats the sum of the ciphertext and
additional-data bytes. -/

/-- Sum of a run of bytes, modulo 256. -/
def byteSum (x : Bytes) : Byte := x.foldr (fun b acc => b + acc) 0

/-- The stand-in's tag over a ciphertext and the additional data. -/
def toyTag (ct ad : Bytes) : Arr16 :=
  ⟨List.replicate 16 (byteSum ct + byteSum ad + 1), by simp⟩

/-- The stand-in library. -/
def toyPrims : Prims where
  aes_keyexp_128 := fun k => (k, k.reverse)
  aes_keyexp_192 := fun k => (k, k.reverse)
  aes_keyexp_256 := fun k => (k, k.reverse)
  aes_gcm_pre_128 := fun k => k
  aes_gcm_pre_256 := fun k => k
  aes_cbc_enc_128 := fun _ x _ _ => x.map (fun b => b + 1)
  aes_cbc_enc_192 := fun _ x _ _ => x.map (fun b => b + 1)
  aes_cbc_enc_256 := fun _ x _ _ => x.map (fun b => b + 1)
  aes_cbc_dec_128 := fun _ x _ _ => x.map (fun b => b - 1)
  aes_cbc_dec_192 := fun _ x _ _ => x.map (fun b => b - 1)
  aes_cbc_dec_256 := fun _ x _ _ => x.map (fun b => b - 1)
  aes_gcm_enc_128 := fun _ _ x _ ad => (x.map (fun b => b + 1), toyTag (x.map (fun b => b + 1)) ad)
  aes_gcm_enc_256 := fun _ _ x _ ad => (x.map (fun b => b + 1), toyTag (x.map (fun b => b + 1)) ad)
  aes_gcm_dec_128 := fun _ _ x _ ad => (x.map (fun b => b - 1), toyTag x ad)
  aes_gcm_dec_256 := fun _ _ x _ ad => (x.map (fun b => b - 1), toyTag x ad)
  XTS_AES_128_enc_expanded_key := fun _ _ _ _ x => x.map (fun b => b + 1)
  XTS_AES_128_dec_expanded_key := fun _ _ _ _ x => x.map (fun b => b - 1)
  XTS_AES_256_enc_expanded_key := fun _ _ _ _ x => x.map (fun b => b + 1)
  XTS_AES_256_dec_expanded_key := fun _ _ _ _ x => x.map (fun b => b - 1)
  gcm_enc_128_length := by intros; simp
  gcm_enc_256_length := by intros; simp
  gcm_dec_128_length := by intros; simp
  gcm_dec_256_length := by intros; simp

/-- A slice of `n` zero bytes at address `p` with no spare capacity: `make([]byte, n)`. -/
def zeros (p n : Nat) : Slice := ⟨p, List.replicate n 0, []⟩

/-- The 128-bit capability the stand-in builds from 16 zero key bytes. -/
def toy128 : isal128Cipher :=
  ⟨List.replicate 16 0, List.replicate 16 0, zero16, List.replicate 16 0, zero16, []⟩

/-- The 256-bit capability the stand-in builds from 32 zero key bytes. -/
def toy256 : isal256Cipher :=
  ⟨List.replicate 32 0, List.replicate 32 0, List.replicate 16 0, List.replicate 16 0,
    List.replicate 16 0, List.replicate 16 0, zero16, List.replicate 32 0, zero16, []⟩

/-- The function the XTS primitives of the stand-in compute, in the place of the standard
AES-XTS encryption. -/
def toyXTS (_key1 _key2 : Bytes) (_tweak : Arr16) (x : Bytes) : Bytes :=
  x.map (fun b => b + 1)

/-- The 192-bit capability the stand-in builds from 24 zero key bytes. -/
def toy192 : isal192Cipher :=
  ⟨List.replicate 24 0, List.replicate 24 0, zero16⟩

/-- A 32-byte key whose byte `i` is `i`. -/
def key32 : Slice := ⟨1000, (List.range 32).map (fun n => (Fin.ofNat n : Byte)), []⟩

/-- A 64-byte key whose byte `i` is `i`. -/
def key64 : Slice := ⟨1000, (List.range 64).map (fun n => (Fin.ofNat n : Byte)), []⟩

/-- A stand-in library whose XTS primitives tell their two key arguments apart: every byte
is shifted by the first byte of the schedule in the tweak-key position `k2` plus twice the
first byte of the schedule in the data-key position `k1`. -/
def keyedPrims : Prims :=
  { toyPrims with
    XTS_AES_128_enc_expanded_key := fun _ k2 k1 _ x =>
      x.map (fun b => b + k2.headD 0 + 2 * k1.headD 0)
    XTS_AES_128_dec_expanded_key := fun _ k2 k1 _ x =>
      x.map (fun b => b - k2.headD 0 - 2 * k1.getLastD 0) }

/-- A byte-at-a-time decryption that runs in memory where the output buffer starts `d`
bytes behind the input buffer: input byte `i` is loaded when its turn comes, and from
`i = d` on the load finds the output byte `i - d` stored over it. `out` holds the bytes
stored so far and `k` counts the bytes still to do. -/
def clobberedRun (d : Nat) (x : Bytes) : Nat → Bytes → Bytes
  | 0, out => out
  | k + 1, out =>
    clobberedRun d x k
      (out ++ [(if out.length < d then x.getD out.length 0 else out.getD (out.length - d) 0) - 1])

/-- The CBC decryption of a stand-in that works through its buffers front to back: with
disjoint buffers, or with the output at or before the input, every input byte is loaded
before anything is stored over it; with the output `d > 0` bytes behind the input the
stores overtake the loads. -/
def seqDec (at_ : Option Int) (x : Bytes) : Bytes :=
  match at_ with
  | none => x.map (fun b => b - 1)
  | some d => if 0 < d then clobberedRun d.toNat x x.length [] else x.map (fun b => b - 1)

/-- The stand-in library with the front-to-back CBC decryption. -/
def seqPrims : Prims :=
  { toyPrims with
    aes_cbc_dec_128 := fun r x _ _ => seqDec r x
    aes_cbc_dec_192 := fun r x _ _ => seqDec r x
    aes_cbc_dec_256 := fun r x _ _ => seqDec r x }

/-- A stand-in for the hash library: the context is the run of bytes taken in so far, and
the checksum repeats their sum. -/
def toyMh : MhPrims where
  Ctx := Bytes
  zeroCtx := []
  mh_sha1_init := fun _ => []
  mh_sha1_update := fun c p => c ++ p
  mh_sha1_finalize := fun c => (c, ⟨List.replicate 20 (byteSum c), by simp⟩)

/-- A 48-byte buffer at address 100: sixteen bytes `10`, sixteen `20`, sixteen `30`. -/
def buf48 : Slice :=
  ⟨100, List.replicate 16 10 ++ List.replicate 16 20 ++ List.replicate 16 30, []⟩

/-- A store with the stand-in 16-byte-key capability at every address. -/
def toyStore : Store := fun _ => .c128 toy128

/-! ## Lemmas on buffers, on the capability and on `Seal` and `Open` -/

theorem isalKeyExpand128_ok (P : Prims) (key : Slice) (h : key.len ≠ 0) :
    isalKeyExpand128 P key = .ok (P.aes_keyexp_128 (key.readC 16)) := by
  simp [isalKeyExpand128, h]

theorem isalKeyExpand192_ok (P : Prims) (key : Slice) (h : key.len ≠ 0) :
    isalKeyExpand192 P key = .ok (P.aes_keyexp_192 (key.readC 24)) := by
  simp [isalKeyExpand192, h]

theorem isalKeyExpand256_ok (P : Prims) (key : Slice) (h : key.len ≠ 0) :
    isalKeyExpand256 P key = .ok (P.aes_keyexp_256 (key.readC 32)) := by
  simp [isalKeyExpand256, h]

theorem isalGCMPrecomp128_ok (P : Prims) (key : Slice) (h : key.len ≠ 0) :
    isalGCMPrecomp128 P key = .ok (P.aes_gcm_pre_128 (key.readC 16)) := by
  simp [isalGCMPrecomp128, h]

theorem isalGCMPrecomp256_ok (P : Prims) (key : Slice) (h : key.len ≠ 0) :
    isalGCMPrecomp256 P key = .ok (P.aes_gcm_pre_256 (key.readC 32)) := by
  simp [isalGCMPrecomp256, h]

theorem len_upTo (s : Slice) (j : Nat) (h : j ≤ s.cap) : (s.upTo j).len = j := by
  simp [Slice.upTo, Slice.len, Slice.mem, Slice.cap] at *
  omega

theorem len_startAt (s : Slice) (i : Nat) : (s.startAt i).len = s.len - i := by
  simp [Slice.startAt, Slice.len]

theorem le_cap (s : Slice) : s.len ≤ s.cap := by
  simp [Slice.len, Slice.cap]

theorem NewCipher_16 (P : Prims) (key : Slice) (h : key.len = 16) :
    NewCipher P true key = .ok (some (.c128
      ⟨(P.aes_keyexp_128 (key.readC 16)).1, (P.aes_keyexp_128 (key.readC 16)).2, zero16,
        P.aes_gcm_pre_128 (key.readC 16), zero16, []⟩), none) := by
  have h0 : key.len ≠ 0 := by omega
  simp [NewCipher, IsSupported, h, isalKeyExpand128_ok P key h0, isalGCMPrecomp128_ok P key h0]
  rfl

theorem NewCipher_24 (P : Prims) (key : Slice) (h : key.len = 24) :
    NewCipher P true key = .ok (some (.c192
      ⟨(P.aes_keyexp_192 (key.readC 24)).1, (P.aes_keyexp_192 (key.readC 24)).2, zero16⟩),
      none) := by
  have h0 : key.len ≠ 0 := by omega
  simp [NewCipher, IsSupported, h, isalKeyExpand192_ok P key h0]

theorem NewCipher_32 (P : Prims) (key : Slice) (h : key.len = 32) :
    NewCipher P true key = .ok (some (.c256
      ⟨(P.aes_keyexp_256 (key.readC 32)).1, (P.aes_keyexp_256 (key.readC 32)).2,
        (P.aes_keyexp_128 ((key.upTo 15).readC 16)).1,
        (P.aes_keyexp_128 ((key.upTo 15).readC 16)).2,
        (P.aes_keyexp_128 ((key.startAt 16).readC 16)).1,
        (P.aes_keyexp_128 ((key.startAt 16).readC 16)).2,
        zero16, P.aes_gcm_pre_256 (key.readC 32), zero16, []⟩), none) := by
  have h0 : key.len ≠ 0 := by omega
  have h1 : (key.upTo 15).len ≠ 0 := by
    rw [len_upTo _ _ (by have := le_cap key; omega)]; omega
  have h2 : (key.startAt 16).len ≠ 0 := by rw [len_startAt]; omega
  simp [NewCipher, IsSupported, h, isalKeyExpand256_ok P key h0, isalGCMPrecomp256_ok P key h0,
    isalKeyExpand128_ok P _ h1, isalKeyExpand128_ok P _ h2]
  rfl

theorem NewCipher_64 (P : Prims) (key : Slice) (h : key.len = 64) :
    NewCipher P true key = .ok (some (.c512
      ⟨(P.aes_keyexp_256 ((key.upTo 31).readC 32)).1,
        (P.aes_keyexp_256 ((key.startAt 32).readC 32)).1,
        (P.aes_keyexp_256 ((key.upTo 31).readC 32)).2,
        (P.aes_keyexp_256 ((key.startAt 32).readC 32)).2, zero16⟩), none) := by
  have h1 : (key.upTo 31).len ≠ 0 := by
    rw [len_upTo _ _ (by have := le_cap key; omega)]; omega
  have h2 : (key.startAt 32).len ≠ 0 := by rw [len_startAt]; omega
  simp [NewCipher, IsSupported, h, isalKeyExpand256_ok P _ h1, isalKeyExpand256_ok P _ h2]
  rfl

theorem NewCipher_unsupported (P : Prims) (key : Slice) :
    NewCipher P false key = .ok (none, some (.new "H/W not supported")) := by
  simp [NewCipher, IsSupported]

theorem NewCipher_other (P : Prims) (key : Slice)
    (h : ¬ (key.len = 16 ∨ key.len = 24 ∨ key.len = 32 ∨ key.len = 64)) :
    NewCipher P true key = .ok (none, some (.new "Unsupported key size")) := by
  simp only [not_or] at h
  simp [NewCipher, IsSupported, h.1, h.2.1, h.2.2.1, h.2.2.2]

theorem enc128_matrix (P : Prims) (a : isal128Cipher) (dst src : Slice)
    (hd : dst.len ≠ 0) (hs : src.len ≠ 0) (mode : Int) :
    ∃ a' dst' e, a.Encrypt P dst src mode = .ok (a', dst', e) ∧
      (e = none ↔ (mode = ModeCBC ∨ mode = ModeGCM)) ∧
      (e ≠ none → a' = a ∧ dst' = dst) := by
  unfold isal128Cipher.Encrypt
  by_cases h1 : mode = ModeCBC
  · rw [if_pos h1, if_neg hs, if_neg hd]
    exact ⟨_, _, _, rfl, by simp [h1], by simp⟩
  · rw [if_neg h1]
    by_cases h2 : mode = ModeGCM
    · rw [if_pos h2, if_neg hd]
      exact ⟨_, _, _, rfl, by simp [h2], by simp⟩
    · rw [if_neg h2]
      exact ⟨_, _, _, rfl, by simp [h1, h2], by simp⟩

theorem dec128_matrix (P : Prims) (a : isal128Cipher) (dst src : Slice)
    (hd : dst.len ≠ 0) (hs : src.len ≠ 0) (mode : Int) :
    ∃ a' dst' e, a.Decrypt P dst src mode = .ok (a', dst', e) ∧
      (e = none ↔ (mode = ModeCBC ∨ mode = ModeGCM)) ∧
      (e ≠ none → a' = a ∧ dst' = dst) := by
  unfold isal128Cipher.Decrypt
  by_cases h1 : mode = ModeCBC
  · rw [if_pos h1, if_neg hd, if_neg hs]
    exact ⟨_, _, _, rfl, by simp [h1], by simp⟩
  · rw [if_neg h1]
    by_cases h2 : mode = ModeGCM
    · rw [if_pos h2, if_neg (by simp [hd])]
      exact ⟨_, _, _, rfl, by simp [h2], by simp⟩
    · rw [if_neg h2]
      exact ⟨_, _, _, rfl, by simp [h1, h2], by simp⟩

theorem enc192_matrix (P : Prims) (a : isal192Cipher) (dst src : Slice)
    (hd : dst.len ≠ 0) (hs : src.len ≠ 0) (mode : Int) :
    ∃ a' dst' e, a.Encrypt P dst src mode = .ok (a', dst', e) ∧
      (e = none ↔ mode = ModeCBC) ∧
      (e ≠ none → a' = a ∧ dst' = dst) := by
  unfold isal192Cipher.Encrypt
  by_cases h1 : mode = ModeCBC
  · rw [if_pos h1, if_neg hs, if_neg hd]
    exact ⟨_, _, _, rfl, by simp [h1], by simp⟩
  · rw [if_neg h1]
    by_cases h2 : mode = ModeGCM
    · rw [if_pos h2]
      exact ⟨_, _, _, rfl, by simp [h1], by simp⟩
    · rw [if_neg h2]
      exact ⟨_, _, _, rfl, by simp [h1], by simp⟩

theorem dec192_matrix (P : Prims) (a : isal192Cipher) (dst src : Slice)
    (hd : dst.len ≠ 0) (hs : src.len ≠ 0) (mode : Int) :
    ∃ a' dst' e, a.Decrypt P dst src mode = .ok (a', dst', e) ∧
      (e = none ↔ mode = ModeCBC) ∧
      (e ≠ none → a' = a ∧ dst' = dst) := by
  unfold isal192Cipher.Decrypt
  by_cases h1 : mode = ModeCBC
  · rw [if_pos h1, if_neg hd, if_neg hs]
    exact ⟨_, _, _, rfl, by simp [h1], by simp⟩
  · rw [if_neg h1]
    by_cases h2 : mode = ModeGCM
    · rw [if_pos h2]
      exact ⟨_, _, _, rfl, by simp [h1], by simp⟩
    · rw [if_neg h2]
      exact ⟨_, _, _, rfl, by simp [h1], by simp⟩

theorem enc256_matrix (P : Prims) (a : isal256Cipher) (dst src : Slice)
    (hd : dst.len ≠ 0) (hs : src.len ≠ 0) (mode : Int) :
    ∃ a' dst' e, a.Encrypt P dst src mode = .ok (a', dst', e) ∧
      (e = none ↔ (mode = ModeCBC ∨ mode = ModeGCM ∨ mode = ModeXTS)) ∧
      (e ≠ none → a' = a ∧ dst' = dst) := by
  unfold isal256Cipher.Encrypt
  by_cases h1 : mode = ModeCBC
  · rw [if_pos h1, if_neg hs, if_neg hd]
    exact ⟨_, _, _, rfl, by simp [h1], by simp⟩
  · rw [if_neg h1]
    by_cases h2 : mode = ModeGCM
    · rw [if_pos h2, if_neg hd]
      exact ⟨_, _, _, rfl, by simp [h2], by simp⟩
    · rw [if_neg h2]
      by_cases h3 : mode = ModeXTS
      · rw [if_pos h3, if_neg hs, if_neg hd]
        exact ⟨_, _, _, rfl, by simp [h3], by simp⟩
      · rw [if_neg h3]
        exact ⟨_, _, _, rfl, by simp [h1, h2, h3], by simp⟩

theorem dec256_matrix (P : Prims) (a : isal256Cipher) (dst src : Slice)
    (hd : dst.len ≠ 0) (hs : src.len ≠ 0) (mode : Int) :
    ∃ a' dst' e, a.Decrypt P dst src mode = .ok (a', dst', e) ∧
      (e = none ↔ (mode = ModeCBC ∨ mode = ModeGCM ∨ mode = ModeXTS)) ∧
      (e ≠ none → a' = a ∧ dst' = dst) := by
  unfold isal256Cipher.Decrypt
  by_cases h1 : mode = ModeCBC
  · rw [if_pos h1, if_neg hd, if_neg hs]
    exact ⟨_, _, _, rfl, by simp [h1], by simp⟩
  · rw [if_neg h1]
    by_cases h2 : mode = ModeGCM
    · rw [if_pos h2, if_neg (by simp [hd])]
      exact ⟨_, _, _, rfl, by simp [h2], by simp⟩
    · rw [if_neg h2]
      by_cases h3 : mode = ModeXTS
      · rw [if_pos h3, if_neg hd, if_neg hs]
        exact ⟨_, _, _, rfl, by simp [h3], by simp⟩
      · rw [if_neg h3]
        exact ⟨_, _, _, rfl, by simp [h1, h2, h3], by simp⟩

theorem enc512_matrix (P : Prims) (a : isal512Cipher) (dst src : Slice)
    (hd : dst.len ≠ 0) (hs : src.len ≠ 0) (mode : Int) :
    ∃ a' dst' e, a.Encrypt P dst src mode = .ok (a', dst', e) ∧
      (e = none ↔ mode = ModeXTS) ∧
      (e ≠ none → a' = a ∧ dst' = dst) := by
  unfold isal512Cipher.Encrypt
  by_cases h3 : mode = ModeXTS
  · rw [if_pos h3, if_neg hs, if_neg hd]
    exact ⟨_, _, _, rfl, by simp [h3], by simp⟩
  · rw [if_neg h3]
    exact ⟨_, _, _, rfl, by simp [h3], by simp⟩

theorem dec512_matrix (P : Prims) (a : isal512Cipher) (dst src : Slice)
    (hd : dst.len ≠ 0) (hs : src.len ≠ 0) (mode : Int) :
    ∃ a' dst' e, a.Decrypt P dst src mode = .ok (a', dst', e) ∧
      (e = none ↔ mode = ModeXTS) ∧
      (e ≠ none → a' = a ∧ dst' = dst) := by
  unfold isal512Cipher.Decrypt
  by_cases h3 : mode = ModeXTS
  · rw [if_pos h3, if_neg hd, if_neg hs]
    exact ⟨_, _, _, rfl, by simp [h3], by simp⟩
  · rw [if_neg h3]
    exact ⟨_, _, _, rfl, by simp [h3], by simp⟩

theorem lift_matrix {α : Type} (f : α → Block) (r : Except Panic (α × Slice × error)) (a : α)
    (dst : Slice) (S : Prop)
    (h : ∃ a' dst' e, r = .ok (a', dst', e) ∧ (e = none ↔ S) ∧ (e ≠ none → a' = a ∧ dst' = dst)) :
    ∃ b' dst' e, liftResult f r = .ok (b', dst', e) ∧ (e = none ↔ S) ∧
      (¬ S → e ≠ none ∧ dst' = dst ∧ b' = f a ∧ b'.iv = (f a).iv ∧
        b'.additionalData = (f a).additionalData ∧ b'.GCMGetAuthTag = (f a).GCMGetAuthTag) := by
  obtain ⟨a', dst', e, hr, hiff, hrest⟩ := h
  refine ⟨f a', dst', e, by rw [hr]; rfl, hiff, ?_⟩
  intro hS
  have he : e ≠ none := fun h0 => hS (hiff.mp h0)
  obtain ⟨ha, hdst⟩ := hrest he
  subst ha
  exact ⟨he, hdst, rfl, rfl, rfl, rfl⟩

theorem NewCipher_cases (P : Prims) (hw : Bool) (key : Slice) (b : Block) (e0 : error)
    (hb : NewCipher P hw key = .ok (some b, e0)) :
    (key.len = 16 ∧ ∃ a, b = .c128 a) ∨ (key.len = 24 ∧ ∃ a, b = .c192 a) ∨
    (key.len = 32 ∧ ∃ a, b = .c256 a) ∨ (key.len = 64 ∧ ∃ a, b = .c512 a) := by
  cases hw
  · rw [NewCipher_unsupported] at hb
    simp at hb
  · by_cases h : key.len = 16 ∨ key.len = 24 ∨ key.len = 32 ∨ key.len = 64
    · rcases h with h | h | h | h
      · rw [NewCipher_16 P key h] at hb
        simp only [Except.ok.injEq, Prod.mk.injEq, Option.some.injEq] at hb
        exact Or.inl ⟨h, _, hb.1.symm⟩
      · rw [NewCipher_24 P key h] at hb
        simp only [Except.ok.injEq, Prod.mk.injEq, Option.some.injEq] at hb
        exact Or.inr (Or.inl ⟨h, _, hb.1.symm⟩)
      · rw [NewCipher_32 P key h] at hb
        simp only [Except.ok.injEq, Prod.mk.injEq, Option.some.injEq] at hb
        exact Or.inr (Or.inr (Or.inl ⟨h, _, hb.1.symm⟩))
      · rw [NewCipher_64 P key h] at hb
        simp only [Except.ok.injEq, Prod.mk.injEq, Option.some.injEq] at hb
        exact Or.inr (Or.inr (Or.inr ⟨h, _, hb.1.symm⟩))
    · rw [NewCipher_other P key h] at hb
      simp at hb

theorem mem_modes_16 (mode : Int) :
    mode ∈ supportedModes 16 ↔ (mode = ModeCBC ∨ mode = ModeGCM) := by
  simp [supportedModes]

theorem mem_modes_24 (mode : Int) : mode ∈ supportedModes 24 ↔ mode = ModeCBC := by
  simp [supportedModes]

theorem mem_modes_32 (mode : Int) :
    mode ∈ supportedModes 32 ↔ (mode = ModeCBC ∨ mode = ModeGCM ∨ mode = ModeXTS) := by
  simp [supportedModes]

theorem mem_modes_64 (mode : Int) : mode ∈ supportedModes 64 ↔ mode = ModeXTS := by
  simp [supportedModes]

theorem overwrite_length (buf out : Bytes) : (overwrite buf out).length = buf.length := by
  simp only [overwrite, List.length_append, List.length_take, List.length_drop]
  omega

theorem overwrite_of_le (buf out : Bytes) (h : out.length ≤ buf.length) :
    overwrite buf out = out ++ buf.drop out.length := by
  simp [overwrite, List.take_of_length_le h]

theorem overwrite_append (d sp out : Bytes) (h : out.length ≤ d.length) :
    overwrite (d ++ sp) out = (out ++ d.drop out.length) ++ sp := by
  rw [overwrite_of_le _ _ (by simp; omega), List.drop_append_of_le_length h, List.append_assoc]

theorem copy_replicate_self (x : Bytes) : copy (List.replicate x.length 0) x = x := by
  simp [copy, overwrite]

theorem pokeC_eq (s : Slice) (out : Bytes) (h : out.length ≤ s.len) :
    s.pokeC out = ⟨s.ptr, out ++ s.data.drop out.length, s.spare⟩ := by
  unfold Slice.len at h
  have hl : (out ++ s.data.drop out.length).length = s.data.length := by
    simp; omega
  unfold Slice.pokeC Slice.mem
  rw [overwrite_append _ _ _ h]
  congr 1
  · rw [← hl, List.take_left']
    rfl
  · rw [← hl, List.drop_left']
    rfl

theorem uint64_len (n : Nat) (h : n < 2 ^ 64) : uint64 (n : Int) = n := by
  unfold uint64
  omega

theorem Block.BlockSize_eq (b : Block) : b.BlockSize = 16 := by
  cases b <;> rfl

theorem uint64_BlockSize (b : Block) : uint64 b.BlockSize = 16 := by
  rw [Block.BlockSize_eq]; rfl

theorem sliceForAppend_fst (fresh : Nat) (s : Slice) (n : Nat) :
    (sliceForAppend fresh s n).1 =
      if s.cap ≥ s.len + n then s.upTo (s.len + n)
      else ⟨fresh, s.data ++ List.replicate n 0, []⟩ := by
  unfold sliceForAppend
  by_cases h : s.cap ≥ s.len + n
  · simp [h]
  · simp only [h, if_false]
    simp [copy, overwrite, Slice.len]

theorem sliceForAppend_len (fresh : Nat) (s : Slice) (n : Nat) :
    (sliceForAppend fresh s n).1.len = s.len + n := by
  rw [sliceForAppend_fst]
  by_cases h : s.cap ≥ s.len + n
  · rw [if_pos h]; exact len_upTo _ _ h
  · rw [if_neg h]; simp [Slice.len]

theorem seal_guard (b : Block) (n : Nat) (h : n ≤ (2 ^ 32 - 2) * 16) :
    ¬ (uint64 (n : Int) > ((2 ^ 32 - 2) * uint64 b.BlockSize) % 2 ^ 64) := by
  rw [uint64_BlockSize, uint64_len n (by omega)]
  omega

theorem copyAt_poke (ret : Slice) (ct tag : Bytes) (hl : ct.length + tag.length ≤ ret.len) :
    copyAt ⟨ret.ptr, ct ++ ret.data.drop ct.length, ret.spare⟩ ct.length tag =
      ⟨ret.ptr, ct ++ tag ++ ret.data.drop (ct.length + tag.length), ret.spare⟩ := by
  unfold Slice.len at hl
  unfold copyAt copy
  simp only [List.take_left', List.drop_left']
  rw [overwrite_of_le _ _ (by simp; omega)]
  simp [List.append_assoc, Nat.add_comm]

theorem modeGCM_ne_CBC : ModeGCM ≠ ModeCBC := by decide

theorem modeGCM_ne_XTS : ModeGCM ≠ ModeXTS := by decide

theorem gcmEncrypt_length (P : Prims) (b : Block) (rel : Option Int) (x : Bytes)
    (r : Bytes × Arr16) (h : b.gcmEncrypt P rel x = some r) : r.1.length = x.length := by
  cases b <;> simp only [Block.gcmEncrypt, Option.some.injEq] at h <;> first
    | (rw [← h]; first | exact P.gcm_enc_128_length _ _ _ _ _ | exact P.gcm_enc_256_length _ _ _ _ _)
    | exact absurd h (by simp)

theorem gcmDecrypt_length (P : Prims) (b : Block) (rel : Option Int) (x : Bytes)
    (r : Bytes × Arr16) (h : b.gcmDecrypt P rel x = some r) : r.1.length = x.length := by
  cases b <;> simp only [Block.gcmDecrypt, Option.some.injEq] at h <;> first
    | (rw [← h]; first | exact P.gcm_dec_128_length _ _ _ _ _ | exact P.gcm_dec_256_length _ _ _ _ _)
    | exact absurd h (by simp)

theorem Encrypt_GCM_some (P : Prims) (b : Block) (dst src : Slice) (r : Bytes × Arr16)
    (hd : dst.len ≠ 0) (h : b.gcmEncrypt P (placement dst src src.len) src.data = some r) :
    b.Encrypt P dst src ModeGCM = .ok (b.withAuthTag r.2, dst.pokeC r.1, none) := by
  cases b with
  | c128 a =>
    simp only [Block.gcmEncrypt, Option.some.injEq] at h
    simp only [Block.Encrypt, isal128Cipher.Encrypt, modeGCM_ne_CBC, hd, ↓reduceIte, liftResult,
      Block.withAuthTag, h]
  | c192 a => simp [Block.gcmEncrypt] at h
  | c256 a =>
    simp only [Block.gcmEncrypt, Option.some.injEq] at h
    simp only [Block.Encrypt, isal256Cipher.Encrypt, modeGCM_ne_CBC, hd, ↓reduceIte, liftResult,
      Block.withAuthTag, h]
  | c512 a => simp [Block.gcmEncrypt] at h

theorem Encrypt_GCM_none (P : Prims) (b : Block) (dst src : Slice)
    (h : b.supportsGCM = false) :
    ∃ e, b.Encrypt P dst src ModeGCM = .ok (b, dst, some e) := by
  cases b with
  | c128 a => simp [Block.supportsGCM] at h
  | c192 a =>
    refine ⟨.new "AES-GCM-192 not implemented", ?_⟩
    simp only [Block.Encrypt, isal192Cipher.Encrypt, modeGCM_ne_CBC, ↓reduceIte, liftResult]
  | c256 a => simp [Block.supportsGCM] at h
  | c512 a =>
    refine ⟨.new "Invalid mode", ?_⟩
    simp only [Block.Encrypt, isal512Cipher.Encrypt, modeGCM_ne_XTS, ↓reduceIte, liftResult]

theorem Decrypt_GCM_some (P : Prims) (b : Block) (dst src : Slice) (r : Bytes × Arr16)
    (hd : ¬ (dst.len = 0 ∧ src.len ≠ 0))
    (h : b.gcmDecrypt P (placement dst src src.len) src.data = some r) :
    b.Decrypt P dst src ModeGCM = .ok (b.withAuthTag r.2, dst.pokeC r.1, none) := by
  cases b with
  | c128 a =>
    simp only [Block.gcmDecrypt, Option.some.injEq] at h
    simp only [Block.Decrypt, isal128Cipher.Decrypt, modeGCM_ne_CBC, hd, ↓reduceIte, liftResult,
      Block.withAuthTag, h]
  | c192 a => simp [Block.gcmDecrypt] at h
  | c256 a =>
    simp only [Block.gcmDecrypt, Option.some.injEq] at h
    simp only [Block.Decrypt, isal256Cipher.Decrypt, modeGCM_ne_CBC, hd, ↓reduceIte, liftResult,
      Block.withAuthTag, h]
  | c512 a => simp [Block.gcmDecrypt] at h

theorem Decrypt_GCM_none (P : Prims) (b : Block) (dst src : Slice)
    (h : b.supportsGCM = false) :
    ∃ e, b.Decrypt P dst src ModeGCM = .ok (b, dst, some e) := by
  cases b with
  | c128 a => simp [Block.supportsGCM] at h
  | c192 a =>
    refine ⟨.new "AES-GCM-192 not implemented", ?_⟩
    simp only [Block.Decrypt, isal192Cipher.Decrypt, modeGCM_ne_CBC, ↓reduceIte, liftResult]
  | c256 a => simp [Block.supportsGCM] at h
  | c512 a =>
    refine ⟨.new "Invalid mode", ?_⟩
    simp only [Block.Decrypt, isal512Cipher.Decrypt, modeGCM_ne_XTS, ↓reduceIte, liftResult]

theorem supportsGCM_iff_enc (P : Prims) (b : Block) (rel : Option Int) (x : Bytes) :
    b.supportsGCM = true ↔ ∃ r, b.gcmEncrypt P rel x = some r := by
  cases b <;> simp [Block.supportsGCM, Block.gcmEncrypt]

theorem supportsGCM_iff_dec (P : Prims) (b : Block) (rel : Option Int) (x : Bytes) :
    b.supportsGCM = true ↔ ∃ r, b.gcmDecrypt P rel x = some r := by
  cases b <;> simp [Block.supportsGCM, Block.gcmDecrypt]

theorem withAuthTag_tag (b : Block) (t : Arr16) (h : b.supportsGCM = true) :
    (b.withAuthTag t).GCMGetAuthTag = t.1 := by
  cases b <;> simp [Block.supportsGCM] at h <;> rfl

theorem noGCM_tag (b : Block) (h : b.supportsGCM = false) : b.GCMGetAuthTag = [] := by
  cases b <;> simp [Block.supportsGCM] at h <;> rfl

theorem supportsGCM_SetIV (b : Block) (iv : Slice) :
    (b.SetIV iv).supportsGCM = b.supportsGCM := by
  cases b <;> rfl

theorem supportsGCM_AD (b : Block) (ad : Slice) :
    (b.GCMAddAdditionalData ad).supportsGCM = b.supportsGCM := by
  cases b <;> rfl

/-- Seal on a capability with GCM support: the capability's encryption output lands at the
front of the working buffer and the tag right behind it. -/
theorem Seal_some (P : Prims) (b : Block) (fresh : Nat)
    (dst nonce plaintext additionalData : Slice) (r : Bytes × Arr16)
    (hn : nonce.len = 12) (hp : plaintext.len ≤ maxPlaintext)
    (hr : ((b.SetIV nonce).GCMAddAdditionalData additionalData).gcmEncrypt P
      (placement (sliceForAppend fresh dst (plaintext.len + gcmTagSize)).1 plaintext
        plaintext.len) plaintext.data = some r) :
    gcm.Seal P ⟨b, gcmStandardNonceSize⟩ fresh dst nonce plaintext additionalData =
      .ok (((b.SetIV nonce).GCMAddAdditionalData additionalData).withAuthTag r.2,
        ⟨(sliceForAppend fresh dst (plaintext.len + gcmTagSize)).1.ptr,
          r.1 ++ r.2.1 ++
            (sliceForAppend fresh dst (plaintext.len + gcmTagSize)).1.data.drop
              (plaintext.len + 16),
          (sliceForAppend fresh dst (plaintext.len + gcmTagSize)).1.spare⟩) := by
  unfold gcm.Seal
  rw [if_neg (by simp [hn, gcmStandardNonceSize]), if_neg (seal_guard _ _ hp)]
  have hlen := sliceForAppend_len fresh dst (plaintext.len + gcmTagSize)
  generalize (sliceForAppend fresh dst (plaintext.len + gcmTagSize)).1 = ret at hlen hr ⊢
  have hne : ret.len ≠ 0 := by rw [hlen]; simp [gcmTagSize]
  have hrl : r.1.length = plaintext.len := gcmEncrypt_length P _ _ _ r hr
  have hg : ((b.SetIV nonce).GCMAddAdditionalData additionalData).supportsGCM = true :=
    (supportsGCM_iff_enc P _ _ _).mpr ⟨r, hr⟩
  simp only [Encrypt_GCM_some P _ ret plaintext r hne hr, withAuthTag_tag _ _ hg]
  rw [pokeC_eq _ _ (by rw [hrl, hlen]; omega)]
  have h16 : r.2.1.length = 16 := r.2.2
  have := copyAt_poke ret r.1 r.2.1 (by rw [hrl, h16, hlen]; simp [gcmTagSize])
  rw [hrl, h16] at this
  rw [hrl, this]

theorem copyAt_nil (s : Slice) (off : Nat) : copyAt s off [] = s := by
  simp [copyAt, copy, overwrite]

/-- Seal on a capability without GCM support: only the IV is bound. -/
theorem Seal_none (P : Prims) (b : Block) (fresh : Nat)
    (dst nonce plaintext additionalData : Slice)
    (hn : nonce.len = 12) (hp : plaintext.len ≤ maxPlaintext)
    (hb : b.supportsGCM = false) :
    gcm.Seal P ⟨b, gcmStandardNonceSize⟩ fresh dst nonce plaintext additionalData =
      .ok ((b.SetIV nonce).GCMAddAdditionalData additionalData,
        (sliceForAppend fresh dst (plaintext.len + gcmTagSize)).1) := by
  unfold gcm.Seal
  rw [if_neg (by simp [hn, gcmStandardNonceSize]), if_neg (seal_guard _ _ hp)]
  have hg : ((b.SetIV nonce).GCMAddAdditionalData additionalData).supportsGCM = false := by
    rw [supportsGCM_AD, supportsGCM_SetIV, hb]
  obtain ⟨e, he⟩ := Encrypt_GCM_none P _
    (sliceForAppend fresh dst (plaintext.len + gcmTagSize)).1 plaintext hg
  simp only [he, noGCM_tag _ hg, copyAt_nil]

theorem open_guard (b : Block) (n : Nat) (h : n ≤ maxPlaintext + 16) :
    ¬ (uint64 (n : Int) >
      (((2 ^ 32 - 2) * uint64 b.BlockSize) % 2 ^ 64 + gcmTagSize) % 2 ^ 64) := by
  unfold maxPlaintext at h
  rw [uint64_BlockSize, uint64_len n (by omega)]
  unfold gcmTagSize
  omega

theorem upTo_data (s : Slice) (j : Nat) (h : j ≤ s.len) : (s.upTo j).data = s.data.take j := by
  unfold Slice.len at h
  simp only [Slice.upTo, Slice.mem]
  rw [List.take_append_of_le_length h]

theorem ConstantTimeCompare_ne_one (x y : Bytes) : ConstantTimeCompare x y ≠ 1 ↔ x ≠ y := by
  unfold ConstantTimeCompare
  by_cases h : x = y <;> simp [h]

theorem afterStore_length (view : Slice) (p : Nat) (w : Bytes) :
    (view.afterStore p w).length = view.data.length := by
  simp [Slice.afterStore]

/-- A store that does not reach the view leaves it as it was. -/
theorem afterStore_clear (view : Slice) (p : Nat) (w : Bytes)
    (h : view.ptr + view.data.length ≤ p ∨ p + w.length ≤ view.ptr) :
    view.afterStore p w = view.data := by
  apply List.ext_getElem
  · simp [Slice.afterStore]
  · intro i h1 h2
    simp only [Slice.afterStore, List.getElem_map, List.getElem_range]
    rw [if_neg (by omega)]
    exact List.getD_eq_getElem _ _ h2

theorem readC_pokeC (s : Slice) (out : Bytes) (h : out.length ≤ s.len) :
    (s.pokeC out).readC out.length = out := by
  rw [pokeC_eq s out h]
  simp [Slice.readC, Slice.mem, List.take_append_of_le_length]

/-- Open on a capability with GCM support, past the two length checks: the capability's
decryption output lands at the front of the working buffer; the result depends only on
whether the recomputed tag equals what the tag view shows after that store. -/
theorem Open_core (P : Prims) (b : Block) (fresh : Nat)
    (dst nonce ciphertext additionalData : Slice) (r : Bytes × Arr16)
    (hn : nonce.len = 12) (h16 : 16 ≤ ciphertext.len)
    (hmax : ¬ (uint64 (ciphertext.len : Int) >
      (((2 ^ 32 - 2) * uint64 b.BlockSize) % 2 ^ 64 + gcmTagSize) % 2 ^ 64))
    (hr : ((b.SetIV nonce).GCMAddAdditionalData additionalData).gcmDecrypt P
      (placement (sliceForAppend fresh dst (ciphertext.upTo (ciphertext.len - gcmTagSize)).len).1
        (ciphertext.upTo (ciphertext.len - gcmTagSize))
        (ciphertext.upTo (ciphertext.len - gcmTagSize)).len)
      (ciphertext.upTo (ciphertext.len - gcmTagSize)).data = some r) :
    gcm.Open P ⟨b, gcmStandardNonceSize⟩ fresh dst nonce ciphertext additionalData =
      .ok (if r.2.1 = (ciphertext.startAt (ciphertext.len - 16)).afterStore
            (sliceForAppend fresh dst (ciphertext.len - 16)).1.ptr r.1 then
          ⟨((b.SetIV nonce).GCMAddAdditionalData additionalData).withAuthTag r.2,
            some ⟨(sliceForAppend fresh dst (ciphertext.len - 16)).1.ptr,
              r.1 ++ (sliceForAppend fresh dst (ciphertext.len - 16)).1.data.drop
                (ciphertext.len - 16),
              (sliceForAppend fresh dst (ciphertext.len - 16)).1.spare⟩,
            none,
            some ⟨(sliceForAppend fresh dst (ciphertext.len - 16)).1.ptr,
              r.1 ++ (sliceForAppend fresh dst (ciphertext.len - 16)).1.data.drop
                (ciphertext.len - 16),
              (sliceForAppend fresh dst (ciphertext.len - 16)).1.spare⟩⟩
        else
          ⟨((b.SetIV nonce).GCMAddAdditionalData additionalData).withAuthTag r.2,
            none, some errOpen,
            some (zeroTail ⟨(sliceForAppend fresh dst (ciphertext.len - 16)).1.ptr,
              r.1 ++ (sliceForAppend fresh dst (ciphertext.len - 16)).1.data.drop
                (ciphertext.len - 16),
              (sliceForAppend fresh dst (ciphertext.len - 16)).1.spare⟩ dst.len)⟩) := by
  have hbl : (ciphertext.upTo (ciphertext.len - gcmTagSize)).len = ciphertext.len - 16 :=
    len_upTo _ _ (by have := le_cap ciphertext; unfold gcmTagSize; omega)
  unfold gcm.Open
  rw [if_neg (by simp [hn, gcmStandardNonceSize]), if_neg (by unfold gcmTagSize; omega),
    if_neg hmax]
  simp only [hbl] at hr ⊢
  have hlen := sliceForAppend_len fresh dst (ciphertext.len - 16)
  generalize (sliceForAppend fresh dst (ciphertext.len - 16)).1 = ret at hlen hr ⊢
  have hrl : r.1.length = ciphertext.len - 16 := by
    rw [gcmDecrypt_length P _ _ _ r hr]
    exact hbl
  have hg : ((b.SetIV nonce).GCMAddAdditionalData additionalData).supportsGCM = true :=
    (supportsGCM_iff_dec P _ _ _).mpr ⟨r, hr⟩
  have hd : ¬ (ret.len = 0 ∧ (ciphertext.upTo (ciphertext.len - gcmTagSize)).len ≠ 0) := by
    rw [hbl, hlen]; omega
  rw [← hbl] at hr
  have hrd : (ret.pokeC r.1).readC (ciphertext.len - 16) = r.1 := by
    rw [← hrl]; exact readC_pokeC ret r.1 (by rw [hrl, hlen]; omega)
  have hpp : (ret.pokeC r.1).ptr = ret.ptr := rfl
  simp only [Decrypt_GCM_some P _ ret _ r hd hr, withAuthTag_tag _ _ hg, hrd, hpp]
  rw [pokeC_eq _ _ (by rw [hrl, hlen]; omega), hrl]
  by_cases ht : r.2.1 = (ciphertext.startAt (ciphertext.len - 16)).afterStore ret.ptr r.1
  · rw [if_pos ht, if_neg]
    rw [ConstantTimeCompare_ne_one]
    simpa [gcmTagSize] using ht
  · rw [if_neg ht, if_pos]
    rw [ConstantTimeCompare_ne_one]
    simpa [gcmTagSize] using ht

/-- The tag view of an input is out of reach of the store of the body through `ret` when
`ret` starts at or before the input, or behind its end. -/
theorem tag_clear (ret ciphertext : Slice) (w : Bytes) (h16 : 16 ≤ ciphertext.len)
    (hw : w.length = ciphertext.len - 16)
    (h : ret.ptr ≤ ciphertext.ptr ∨ ciphertext.ptr + ciphertext.len ≤ ret.ptr) :
    (ciphertext.startAt (ciphertext.len - 16)).afterStore ret.ptr w =
      ciphertext.data.drop (ciphertext.len - 16) := by
  rw [afterStore_clear]
  · rfl
  · unfold Slice.len at *
    simp only [Slice.startAt, List.length_drop]
    omega

/-- The same, when the store cannot reach the trailing 16 bytes of the input. -/
theorem Open_some (P : Prims) (b : Block) (fresh : Nat)
    (dst nonce ciphertext additionalData : Slice) (r : Bytes × Arr16)
    (hn : nonce.len = 12) (h16 : 16 ≤ ciphertext.len)
    (hmax : ¬ (uint64 (ciphertext.len : Int) >
      (((2 ^ 32 - 2) * uint64 b.BlockSize) % 2 ^ 64 + gcmTagSize) % 2 ^ 64))
    (hclear : (sliceForAppend fresh dst (ciphertext.len - 16)).1.ptr ≤ ciphertext.ptr ∨
      ciphertext.ptr + ciphertext.len ≤ (sliceForAppend fresh dst (ciphertext.len - 16)).1.ptr)
    (hr : ((b.SetIV nonce).GCMAddAdditionalData additionalData).gcmDecrypt P
      (placement (sliceForAppend fresh dst (ciphertext.upTo (ciphertext.len - gcmTagSize)).len).1
        (ciphertext.upTo (ciphertext.len - gcmTagSize))
        (ciphertext.upTo (ciphertext.len - gcmTagSize)).len)
      (ciphertext.upTo (ciphertext.len - gcmTagSize)).data = some r) :
    gcm.Open P ⟨b, gcmStandardNonceSize⟩ fresh dst nonce ciphertext additionalData =
      .ok (if r.2.1 = ciphertext.data.drop (ciphertext.len - 16) then
          ⟨((b.SetIV nonce).GCMAddAdditionalData additionalData).withAuthTag r.2,
            some ⟨(sliceForAppend fresh dst (ciphertext.len - 16)).1.ptr,
              r.1 ++ (sliceForAppend fresh dst (ciphertext.len - 16)).1.data.drop
                (ciphertext.len - 16),
              (sliceForAppend fresh dst (ciphertext.len - 16)).1.spare⟩,
            none,
            some ⟨(sliceForAppend fresh dst (ciphertext.len - 16)).1.ptr,
              r.1 ++ (sliceForAppend fresh dst (ciphertext.len - 16)).1.data.drop
                (ciphertext.len - 16),
              (sliceForAppend fresh dst (ciphertext.len - 16)).1.spare⟩⟩
        else
          ⟨((b.SetIV nonce).GCMAddAdditionalData additionalData).withAuthTag r.2,
            none, some errOpen,
            some (zeroTail ⟨(sliceForAppend fresh dst (ciphertext.len - 16)).1.ptr,
              r.1 ++ (sliceForAppend fresh dst (ciphertext.len - 16)).1.data.drop
                (ciphertext.len - 16),
              (sliceForAppend fresh dst (ciphertext.len - 16)).1.spare⟩ dst.len)⟩) := by
  have hbl : (ciphertext.upTo (ciphertext.len - gcmTagSize)).len = ciphertext.len - 16 :=
    len_upTo _ _ (by have := le_cap ciphertext; unfold gcmTagSize; omega)
  have hrl : r.1.length = ciphertext.len - 16 := by
    rw [gcmDecrypt_length P _ _ _ r hr]
    exact hbl
  rw [Open_core P b fresh dst nonce ciphertext additionalData r hn h16 hmax hr,
    tag_clear _ ciphertext r.1 h16 hrl hclear]

theorem zeroTail_eq (s : Slice) (off : Nat) :
    zeroTail s off = ⟨s.ptr, s.data.take off ++ List.replicate (s.data.length - off) 0, s.spare⟩ :=
  rfl

/-- Open on a capability without GCM support, past the two length checks. -/
theorem Open_none (P : Prims) (b : Block) (fresh : Nat)
    (dst nonce ciphertext additionalData : Slice)
    (hn : nonce.len = 12) (h16 : 16 ≤ ciphertext.len)
    (hmax : ¬ (uint64 (ciphertext.len : Int) >
      (((2 ^ 32 - 2) * uint64 b.BlockSize) % 2 ^ 64 + gcmTagSize) % 2 ^ 64))
    (hb : b.supportsGCM = false) :
    gcm.Open P ⟨b, gcmStandardNonceSize⟩ fresh dst nonce ciphertext additionalData =
      .ok ⟨(b.SetIV nonce).GCMAddAdditionalData additionalData, none, some errOpen,
        some (zeroTail (sliceForAppend fresh dst (ciphertext.len - 16)).1 dst.len)⟩ := by
  have hbl : (ciphertext.upTo (ciphertext.len - gcmTagSize)).len = ciphertext.len - 16 :=
    len_upTo _ _ (by have := le_cap ciphertext; unfold gcmTagSize; omega)
  unfold gcm.Open
  rw [if_neg (by simp [hn, gcmStandardNonceSize]), if_neg (by unfold gcmTagSize; omega),
    if_neg hmax]
  have hg : ((b.SetIV nonce).GCMAddAdditionalData additionalData).supportsGCM = false := by
    rw [supportsGCM_AD, supportsGCM_SetIV, hb]
  obtain ⟨e, he⟩ := Decrypt_GCM_none P _
    (sliceForAppend fresh dst (ciphertext.upTo (ciphertext.len - gcmTagSize)).len).1
    (ciphertext.upTo (ciphertext.len - gcmTagSize)) hg
  simp only [he, noGCM_tag _ hg]
  rw [if_pos]
  · rw [hbl]
  · rw [ConstantTimeCompare_ne_one]
    intro h
    have : (ciphertext.startAt (ciphertext.len - gcmTagSize)).data.length = 16 := by
      simp only [Slice.startAt, gcmTagSize, List.length_drop, Slice.len] at h16 ⊢
      omega
    rw [← afterStore_length, ← h] at this
    simp at this

theorem overwrite_idem (o x : Bytes) : overwrite (overwrite o x) x = overwrite o x := by
  have hl := overwrite_length o x
  unfold overwrite at hl ⊢
  rw [hl]
  congr 1
  rcases Nat.le_total x.length o.length with h | h
  · rw [List.take_of_length_le h]
    simp
  · rw [List.drop_of_length_le h]
    simp

theorem byte_xor_val (b c : Byte) : (b ^^^ c).val = (b.val ^^^ c.val) % 256 := rfl

theorem flip_byte_ne (b : Byte) (k : Nat) (hk : k < 8) : b ^^^ Fin.ofNat (2 ^ k) ≠ b := by
  intro h
  have hv := congrArg Fin.val h
  have h2 : (2 : Nat) ^ k < 2 ^ 8 := Nat.pow_lt_pow_right (by norm_num) hk
  have hm : (Fin.ofNat (2 ^ k) : Fin 256).val = 2 ^ k := by
    simp only [Fin.ofNat]
    exact Nat.mod_eq_of_lt h2
  rw [byte_xor_val, hm] at hv
  have hlt : b.val ^^^ 2 ^ k < 2 ^ 8 := Nat.xor_lt_two_pow b.isLt h2
  have hlt2 : b.val ^^^ 2 ^ k < 256 := hlt
  rw [Nat.mod_eq_of_lt hlt2] at hv
  have h3 : b.val ^^^ (b.val ^^^ 2 ^ k) = b.val ^^^ b.val := by rw [hv]
  rw [Nat.xor_cancel_left, Nat.xor_self] at h3
  have h4 : (2:Nat) ^ k > 0 := Nat.pow_pos (by norm_num)
  omega

theorem setIV16_idem (old : Arr16) (iv : Slice) : setIV16 (setIV16 old iv) iv = setIV16 old iv := by
  apply Subtype.ext
  simp only [setIV16, copy]
  exact overwrite_idem _ _

theorem gcmDecrypt_of_encrypt (P : Prims) (hP : GCMInverts P) (b : Block) (nonce ad : Slice)
    (rel rel' : Option Int) (hrel : okPlacement rel) (hrel' : okPlacement rel') (x : Bytes)
    (r : Bytes × Arr16)
    (h : ((b.SetIV nonce).GCMAddAdditionalData ad).gcmEncrypt P rel x = some r) :
    (((((b.SetIV nonce).GCMAddAdditionalData ad).withAuthTag r.2).SetIV nonce).GCMAddAdditionalData
      ad).gcmDecrypt P rel' r.1 = some (x, r.2) := by
  cases b with
  | c128 a =>
    simp only [Block.SetIV, Block.GCMAddAdditionalData, Block.gcmEncrypt, Block.gcmDecrypt,
      Block.withAuthTag, isal128Cipher.SetIV, isal128Cipher.GCMAddAdditionalData,
      Option.some.injEq, setIV16_idem] at h ⊢
    rw [← h]
    exact hP.1 _ _ _ _ _ _ hrel hrel'
  | c192 a => simp [Block.SetIV, Block.GCMAddAdditionalData, Block.gcmEncrypt] at h
  | c256 a =>
    simp only [Block.SetIV, Block.GCMAddAdditionalData, Block.gcmEncrypt, Block.gcmDecrypt,
      Block.withAuthTag, isal256Cipher.SetIV, isal256Cipher.GCMAddAdditionalData,
      Option.some.injEq, setIV16_idem] at h ⊢
    rw [← h]
    exact hP.2 _ _ _ _ _ _ hrel hrel'
  | c512 a => simp [Block.SetIV, Block.GCMAddAdditionalData, Block.gcmEncrypt] at h

theorem NewGCM_eq (b : Block) (g : gcm) (e : error) (h : NewGCM b = (some g, e)) :
    g = ⟨b, gcmStandardNonceSize⟩ := by
  simp only [NewGCM, Prod.mk.injEq, Option.some.injEq] at h
  exact h.1.symm

theorem sliceForAppend_data_empty (fresh : Nat) (d : Slice) (n : Nat) (hd : d.len = 0) :
    (sliceForAppend fresh d n).1.data.length = n := by
  have := sliceForAppend_len fresh d n
  rw [hd] at this
  simpa [Slice.len] using this

theorem Open_err (P : Prims) (g : gcm) (fresh : Nat) (dst nonce ciphertext additionalData : Slice)
    (r : OpenResult) (h : g.Open P fresh dst nonce ciphertext additionalData = .ok r)
    (he : r.err ≠ none) : r.ret = none ∧ r.err = some errOpen := by
  unfold gcm.Open at h
  split at h
  · cases h
  · split at h
    · cases h; exact ⟨rfl, rfl⟩
    · split at h
      · cases h; exact ⟨rfl, rfl⟩
      · simp only at h
        split at h
        · cases h
        · split at h
          · cases h; exact ⟨rfl, rfl⟩
          · cases h; exact absurd rfl he

theorem Decrypt_src_spare (P : Prims) (b : Block) (dst : Slice) (p : Nat) (d s1 s2 : Bytes)
    (mode : Int) : b.Decrypt P dst ⟨p, d, s1⟩ mode = b.Decrypt P dst ⟨p, d, s2⟩ mode := by
  cases b <;> rfl

theorem liftResult_ok {α : Type} (f : α → Block) (r : Except Panic (α × Slice × error))
    (b3 : Block) (s : Slice) (e : error) (h : liftResult f r = .ok (b3, s, e)) :
    ∃ a, r = .ok (a, s, e) := by
  unfold liftResult at h
  split at h
  · cases h
  · cases h
    exact ⟨_, rfl⟩

theorem dec128_ptr (P : Prims) (a a' : isal128Cipher) (dst src s : Slice) (mode : Int)
    (e : error) (h : a.Decrypt P dst src mode = .ok (a', s, e)) : s.ptr = dst.ptr := by
  unfold isal128Cipher.Decrypt at h
  repeat' split at h
  all_goals (cases h <;> rfl)

theorem dec192_ptr (P : Prims) (a a' : isal192Cipher) (dst src s : Slice) (mode : Int)
    (e : error) (h : a.Decrypt P dst src mode = .ok (a', s, e)) : s.ptr = dst.ptr := by
  unfold isal192Cipher.Decrypt at h
  repeat' split at h
  all_goals (cases h <;> rfl)

theorem dec256_ptr (P : Prims) (a a' : isal256Cipher) (dst src s : Slice) (mode : Int)
    (e : error) (h : a.Decrypt P dst src mode = .ok (a', s, e)) : s.ptr = dst.ptr := by
  unfold isal256Cipher.Decrypt at h
  repeat' split at h
  all_goals (cases h <;> rfl)

theorem dec512_ptr (P : Prims) (a a' : isal512Cipher) (dst src s : Slice) (mode : Int)
    (e : error) (h : a.Decrypt P dst src mode = .ok (a', s, e)) : s.ptr = dst.ptr := by
  unfold isal512Cipher.Decrypt at h
  repeat' split at h
  all_goals (cases h <;> rfl)

/-- Whatever the mode, `Decrypt` hands back the destination at the address it had. -/
theorem Decrypt_ptr (P : Prims) (b : Block) (dst src : Slice) (mode : Int) (b3 : Block)
    (ret1 : Slice) (e : error) (h : b.Decrypt P dst src mode = .ok (b3, ret1, e)) :
    ret1.ptr = dst.ptr := by
  cases b with
  | c128 a =>
    obtain ⟨a', h'⟩ := liftResult_ok _ _ _ _ _ h
    exact dec128_ptr P a a' dst src ret1 mode e h'
  | c192 a =>
    obtain ⟨a', h'⟩ := liftResult_ok _ _ _ _ _ h
    exact dec192_ptr P a a' dst src ret1 mode e h'
  | c256 a =>
    obtain ⟨a', h'⟩ := liftResult_ok _ _ _ _ _ h
    exact dec256_ptr P a a' dst src ret1 mode e h'
  | c512 a =>
    obtain ⟨a', h'⟩ := liftResult_ok _ _ _ _ _ h
    exact dec512_ptr P a a' dst src ret1 mode e h'

theorem Open_split (P : Prims) (g : gcm) (fresh : Nat) (dst nonce ad : Slice) (p : Nat)
    (body u sp : Bytes) (hu : u.length = 16) :
    g.Open P fresh dst nonce ⟨p, body ++ u, sp⟩ ad =
      if (nonce.len : Int) ≠ g.nonceSize then
        .error (.msg "cipher: incorrect nonce length given to GCM")
      else if uint64 ((body.length + 16 : Nat) : Int) >
          (((2 ^ 32 - 2) * uint64 g.block.BlockSize) % 2 ^ 64 + gcmTagSize) % 2 ^ 64 then
        .ok ⟨g.block, none, some errOpen, none⟩
      else
        match ((g.block.SetIV nonce).GCMAddAdditionalData ad).Decrypt P
            (sliceForAppend fresh dst body.length).1 ⟨p, body, []⟩ ModeGCM with
        | .error e => .error e
        | .ok (b3, ret1, _) =>
          if b3.GCMGetAuthTag ≠
              (⟨p + body.length, u, sp⟩ : Slice).afterStore ret1.ptr (ret1.readC body.length) then
            .ok ⟨b3, none, some errOpen, some (zeroTail ret1 dst.len)⟩
          else .ok ⟨b3, some ret1, none, some ret1⟩ := by
  have hl : (⟨p, body ++ u, sp⟩ : Slice).len = body.length + 16 := by
    simp [Slice.len, hu]
  have hup : (⟨p, body ++ u, sp⟩ : Slice).upTo ((⟨p, body ++ u, sp⟩ : Slice).len - gcmTagSize) =
      ⟨p, body, u ++ sp⟩ := by
    rw [hl]
    simp [Slice.upTo, Slice.mem, gcmTagSize, List.take_append_of_le_length,
      List.drop_append_of_le_length]
  have hst : (⟨p, body ++ u, sp⟩ : Slice).startAt
      ((⟨p, body ++ u, sp⟩ : Slice).len - gcmTagSize) = ⟨p + body.length, u, sp⟩ := by
    rw [hl]
    simp [Slice.startAt, gcmTagSize]
  have hbl : (⟨p, body, u ++ sp⟩ : Slice).len = body.length := rfl
  unfold gcm.Open
  simp only [hup, hst, hbl, ConstantTimeCompare_ne_one]
  rw [hl, Decrypt_src_spare P _ _ p body (u ++ sp) []]
  have : ¬ (body.length + 16 < gcmTagSize) := by unfold gcmTagSize; omega
  simp only [this, if_false]

theorem flipBit_length (t : Bytes) (i k : Nat) : (flipBit t i k).length = t.length := by
  simp [flipBit]

theorem flipBit_ne (t : Bytes) (i k : Nat) (hi : i < t.length) (hk : k < 8) :
    flipBit t i k ≠ t := by
  intro h
  have h1 : (flipBit t i k)[i]? = t[i]? := by rw [h]
  simp only [flipBit, List.getElem?_modify_eq] at h1
  rw [List.getElem?_eq_getElem hi] at h1
  simp only [Option.map_eq_map, Option.map_some', Option.some.injEq] at h1
  exact flip_byte_ne _ k hk h1

theorem Open_body_tag (P : Prims) (b : Block) (fresh : Nat) (dst nonce ad : Slice) (p : Nat)
    (body u sp : Bytes) (r : Bytes × Arr16) (hu : u.length = 16) (hn : nonce.len = 12)
    (hmax : body.length ≤ maxPlaintext)
    (hclear : (sliceForAppend fresh dst body.length).1.ptr ≤ p ∨
      p + body.length + 16 ≤ (sliceForAppend fresh dst body.length).1.ptr)
    (hr : ((b.SetIV nonce).GCMAddAdditionalData ad).gcmDecrypt P
      (placement (sliceForAppend fresh dst body.length).1 ⟨p, body, []⟩ body.length) body =
        some r) :
    gcm.Open P ⟨b, gcmStandardNonceSize⟩ fresh dst nonce ⟨p, body ++ u, sp⟩ ad =
      .ok (if r.2.1 = u then
          ⟨((b.SetIV nonce).GCMAddAdditionalData ad).withAuthTag r.2,
            some ⟨(sliceForAppend fresh dst body.length).1.ptr,
              r.1 ++ (sliceForAppend fresh dst body.length).1.data.drop body.length,
              (sliceForAppend fresh dst body.length).1.spare⟩,
            none,
            some ⟨(sliceForAppend fresh dst body.length).1.ptr,
              r.1 ++ (sliceForAppend fresh dst body.length).1.data.drop body.length,
              (sliceForAppend fresh dst body.length).1.spare⟩⟩
        else
          ⟨((b.SetIV nonce).GCMAddAdditionalData ad).withAuthTag r.2, none, some errOpen,
            some (zeroTail ⟨(sliceForAppend fresh dst body.length).1.ptr,
              r.1 ++ (sliceForAppend fresh dst body.length).1.data.drop body.length,
              (sliceForAppend fresh dst body.length).1.spare⟩ dst.len)⟩) := by
  rw [Open_split P _ fresh dst nonce ad p body u sp hu]
  rw [if_neg (by simp [hn, gcmStandardNonceSize]), if_neg (open_guard _ _ (by omega))]
  have hlen := sliceForAppend_len fresh dst body.length
  have hg : ((b.SetIV nonce).GCMAddAdditionalData ad).supportsGCM = true :=
    (supportsGCM_iff_dec P _ _ _).mpr ⟨r, hr⟩
  have hrl : r.1.length = body.length := gcmDecrypt_length P _ _ _ r hr
  have hd : ¬ ((sliceForAppend fresh dst body.length).1.len = 0 ∧
      (⟨p, body, []⟩ : Slice).len ≠ 0) := by
    rw [hlen]; simp only [Slice.len]; omega
  have hdec := Decrypt_GCM_some P _ (sliceForAppend fresh dst body.length).1 ⟨p, body, []⟩ r hd hr
  have hrd : ((sliceForAppend fresh dst body.length).1.pokeC r.1).readC body.length = r.1 := by
    rw [← hrl]; exact readC_pokeC _ r.1 (by rw [hrl, hlen]; omega)
  have hpp : ((sliceForAppend fresh dst body.length).1.pokeC r.1).ptr =
      (sliceForAppend fresh dst body.length).1.ptr := rfl
  have hcl : (⟨p + body.length, u, sp⟩ : Slice).afterStore
      (sliceForAppend fresh dst body.length).1.ptr r.1 = u :=
    afterStore_clear _ _ _ (by simp only [hrl, hu]; omega)
  simp only [hdec, withAuthTag_tag _ _ hg, hrd, hpp, hcl]
  rw [pokeC_eq _ _ (by rw [hrl, hlen]; omega), hrl]
  by_cases ht : r.2.1 = u
  · rw [if_pos ht, if_neg (by simp [ht])]
  · rw [if_neg ht, if_pos (by simpa using ht)]

theorem toy_map_inv (x : Bytes) : (x.map (fun b => b + 1)).map (fun b => b - 1) = x := by
  simp [List.map_map, Function.comp_def]

theorem toyPrims_inverts : GCMInverts toyPrims := by
  constructor <;> intro r r' k x iv ad _ _ <;> simp only [toyPrims, toy_map_inv]

theorem three_le_max : (3 : Nat) ≤ maxPlaintext := by
  unfold maxPlaintext; omega

theorem sliceForAppend_fresh (fresh : Nat) (s : Slice) (n : Nat) (h : ¬ s.cap ≥ s.len + n) :
    (sliceForAppend fresh s n).1 = ⟨fresh, s.data ++ List.replicate n 0, []⟩ := by
  rw [sliceForAppend_fst, if_neg h]

theorem sliceForAppend_shared (fresh : Nat) (s : Slice) (n : Nat) (h : s.cap ≥ s.len + n) :
    (sliceForAppend fresh s n).1 = s.upTo (s.len + n) := by
  rw [sliceForAppend_fst, if_pos h]

theorem zeros_len (p n : Nat) : (zeros p n).len = n := by
  unfold zeros Slice.len
  exact List.length_replicate _ _

theorem toy_open_mismatch :
    gcm.Open toyPrims ⟨.c128 toy128, gcmStandardNonceSize⟩ 700 Slice.nil (zeros 300 12)
      ⟨500, [2, 3, 4] ++ List.replicate 16 11, []⟩ (zeros 400 2) =
      .ok ⟨(((Block.c128 toy128).SetIV (zeros 300 12)).GCMAddAdditionalData
          (zeros 400 2)).withAuthTag (toyTag [2, 3, 4] [0, 0]),
        none, some errOpen, some ⟨700, [0, 0, 0], []⟩⟩ := by
  rw [Open_body_tag toyPrims (.c128 toy128) 700 Slice.nil (zeros 300 12) (zeros 400 2) 500
    [2, 3, 4] (List.replicate 16 11) [] ([1, 2, 3], toyTag [2, 3, 4] [0, 0]) rfl rfl
    three_le_max (by decide) rfl]
  rfl

/-! ## Lemmas on the CBC and XTS wrappers -/

theorem Seal_returns (P : Prims) (b : Block) (fresh : Nat)
    (dst nonce plaintext additionalData : Slice)
    (hn : nonce.len = 12) (hp : plaintext.len ≤ maxPlaintext) :
    ∃ b1 ret, gcm.Seal P ⟨b, gcmStandardNonceSize⟩ fresh dst nonce plaintext additionalData =
      .ok (b1, ret) := by
  cases hb : b.supportsGCM
  · exact ⟨_, _, Seal_none P b fresh dst nonce plaintext additionalData hn hp hb⟩
  · have hb2 : ((b.SetIV nonce).GCMAddAdditionalData additionalData).supportsGCM = true := by
      rw [supportsGCM_AD, supportsGCM_SetIV, hb]
    obtain ⟨r, hr⟩ := (supportsGCM_iff_enc P _
      (placement (sliceForAppend fresh dst (plaintext.len + gcmTagSize)).1 plaintext
        plaintext.len) plaintext.data).mp hb2
    exact ⟨_, _, Seal_some P b fresh dst nonce plaintext additionalData r hn hp hr⟩


theorem validate_some_iff (k : Block) (dst src : Slice) :
    (∃ e, (NewXTSEncryptor k).validate dst src = some e) ↔ (dst.len < 16 ∨ dst.len < src.len) := by
  unfold xtsEncryptor.validate NewXTSEncryptor
  simp only [Block.BlockSize_eq]
  by_cases h1 : (dst.len : Int) < 16
  · rw [if_pos h1]
    have : dst.len < 16 := by omega
    simp [this]
  · rw [if_neg h1]
    have h1' : ¬ dst.len < 16 := by omega
    by_cases h2 : dst.len < src.len
    · rw [if_pos h2]; simp [h2]
    · rw [if_neg h2]; simp [h1', h2]

theorem validate_isSizeError (k : Block) (dst src : Slice) (e : GoError)
    (h : (NewXTSEncryptor k).validate dst src = some e) : isSizeError e := by
  unfold xtsEncryptor.validate at h
  split at h
  · simp only [Option.some.injEq] at h; exact Or.inl h.symm
  · split at h
    · simp only [Option.some.injEq] at h; exact Or.inr h.symm
    · cases h

theorem validate_none (k : Block) (dst src : Slice) (h : ¬ (dst.len < 16 ∨ dst.len < src.len)) :
    (NewXTSEncryptor k).validate dst src = none := by
  cases hv : (NewXTSEncryptor k).validate dst src with
  | none => rfl
  | some e => exact absurd ((validate_some_iff k dst src).mp ⟨e, hv⟩) h

theorem modeXTS_ne_CBC : ModeXTS ≠ ModeCBC := by decide

theorem modeXTS_ne_GCM : ModeXTS ≠ ModeGCM := by decide

theorem Encrypt_XTS_noXTS (P : Prims) (b : Block) (dst src : Slice)
    (hb : (∃ a, b = .c128 a) ∨ (∃ a, b = .c192 a)) :
    ∃ e, b.Encrypt P dst src ModeXTS = .ok (b, dst, some e) ∧ ¬ isSizeError e := by
  rcases hb with ⟨a, rfl⟩ | ⟨a, rfl⟩
  · refine ⟨.new "Invalid mode: ", ?_, by unfold isSizeError; decide⟩
    simp only [Block.Encrypt, isal128Cipher.Encrypt, modeXTS_ne_CBC, modeXTS_ne_GCM, ↓reduceIte,
      liftResult]
  · refine ⟨.new "Invalid mode", ?_, by unfold isSizeError; decide⟩
    simp only [Block.Encrypt, isal192Cipher.Encrypt, modeXTS_ne_CBC, modeXTS_ne_GCM, ↓reduceIte,
      liftResult]

theorem Decrypt_XTS_noXTS (P : Prims) (b : Block) (dst src : Slice)
    (hb : (∃ a, b = .c128 a) ∨ (∃ a, b = .c192 a)) :
    ∃ e, b.Decrypt P dst src ModeXTS = .ok (b, dst, some e) ∧ ¬ isSizeError e := by
  rcases hb with ⟨a, rfl⟩ | ⟨a, rfl⟩
  · refine ⟨.new "Invalid mode", ?_, by unfold isSizeError; decide⟩
    simp only [Block.Decrypt, isal128Cipher.Decrypt, modeXTS_ne_CBC, modeXTS_ne_GCM, ↓reduceIte,
      liftResult]
  · refine ⟨.new "Invalid mode", ?_, by unfold isSizeError; decide⟩
    simp only [Block.Decrypt, isal192Cipher.Decrypt, modeXTS_ne_CBC, modeXTS_ne_GCM, ↓reduceIte,
      liftResult]

/-- What the XTS case of the 256- and 512-bit variants stores: the call of the XTS
encryption primitive. -/
theorem Encrypt_XTS_c256 (P : Prims) (a : isal256Cipher) (dst src : Slice) :
    (Block.c256 a).Encrypt P dst src ModeXTS =
      if src.len = 0 then .error .indexOutOfRange
      else if dst.len = 0 then .error .indexOutOfRange
      else .ok (.c256 a, dst.pokeC (P.XTS_AES_128_enc_expanded_key
        (placement dst src src.len) a.xtsExpkey2Enc a.xtsExpkey1Enc a.iv src.data), none) := by
  simp only [Block.Encrypt, isal256Cipher.Encrypt, modeXTS_ne_CBC, modeXTS_ne_GCM, ↓reduceIte]
  split
  · rfl
  · split <;> rfl

theorem Decrypt_XTS_c256 (P : Prims) (a : isal256Cipher) (dst src : Slice) :
    (Block.c256 a).Decrypt P dst src ModeXTS =
      if dst.len = 0 then .error .indexOutOfRange
      else if src.len = 0 then .error .indexOutOfRange
      else .ok (.c256 a, dst.pokeC (P.XTS_AES_128_dec_expanded_key
        (placement dst src src.len) a.xtsExpkey2Enc a.xtsExpkey1Dec a.iv src.data), none) := by
  simp only [Block.Decrypt, isal256Cipher.Decrypt, modeXTS_ne_CBC, modeXTS_ne_GCM, ↓reduceIte]
  split
  · rfl
  · split <;> rfl

theorem Encrypt_XTS_c512 (P : Prims) (a : isal512Cipher) (dst src : Slice) :
    (Block.c512 a).Encrypt P dst src ModeXTS =
      if src.len = 0 then .error .indexOutOfRange
      else if dst.len = 0 then .error .indexOutOfRange
      else .ok (.c512 a, dst.pokeC (P.XTS_AES_256_enc_expanded_key
        (placement dst src src.len) a.xtsExpkey2Enc a.xtsExpkey1Enc a.iv src.data), none) := by
  simp only [Block.Encrypt, isal512Cipher.Encrypt, ↓reduceIte]
  split
  · rfl
  · split <;> rfl

theorem Decrypt_XTS_c512 (P : Prims) (a : isal512Cipher) (dst src : Slice) :
    (Block.c512 a).Decrypt P dst src ModeXTS =
      if dst.len = 0 then .error .indexOutOfRange
      else if src.len = 0 then .error .indexOutOfRange
      else .ok (.c512 a, dst.pokeC (P.XTS_AES_256_dec_expanded_key
        (placement dst src src.len) a.xtsExpkey2Enc a.xtsExpkey1Dec a.iv src.data), none) := by
  simp only [Block.Decrypt, isal512Cipher.Decrypt, ↓reduceIte]
  split
  · rfl
  · split <;> rfl

theorem Encrypt_XTS_not_sizeError (P : Prims) (b : Block) (dst src : Slice)
    (b' : Block) (d' : Slice) (e : GoError)
    (h : b.Encrypt P dst src ModeXTS = .ok (b', d', some e)) : ¬ isSizeError e := by
  cases b with
  | c128 a =>
    obtain ⟨e', he, hs⟩ := Encrypt_XTS_noXTS P (.c128 a) dst src (Or.inl ⟨a, rfl⟩)
    rw [he] at h
    simp only [Except.ok.injEq, Prod.mk.injEq, Option.some.injEq] at h
    rw [← h.2.2]; exact hs
  | c192 a =>
    obtain ⟨e', he, hs⟩ := Encrypt_XTS_noXTS P (.c192 a) dst src (Or.inr ⟨a, rfl⟩)
    rw [he] at h
    simp only [Except.ok.injEq, Prod.mk.injEq, Option.some.injEq] at h
    rw [← h.2.2]; exact hs
  | c256 a =>
    rw [Encrypt_XTS_c256] at h
    split at h
    · cases h
    · split at h
      · cases h
      · simp at h
  | c512 a =>
    rw [Encrypt_XTS_c512] at h
    split at h
    · cases h
    · split at h
      · cases h
      · simp at h

theorem Decrypt_XTS_not_sizeError (P : Prims) (b : Block) (dst src : Slice)
    (b' : Block) (d' : Slice) (e : GoError)
    (h : b.Decrypt P dst src ModeXTS = .ok (b', d', some e)) : ¬ isSizeError e := by
  cases b with
  | c128 a =>
    obtain ⟨e', he, hs⟩ := Decrypt_XTS_noXTS P (.c128 a) dst src (Or.inl ⟨a, rfl⟩)
    rw [he] at h
    simp only [Except.ok.injEq, Prod.mk.injEq, Option.some.injEq] at h
    rw [← h.2.2]; exact hs
  | c192 a =>
    obtain ⟨e', he, hs⟩ := Decrypt_XTS_noXTS P (.c192 a) dst src (Or.inr ⟨a, rfl⟩)
    rw [he] at h
    simp only [Except.ok.injEq, Prod.mk.injEq, Option.some.injEq] at h
    rw [← h.2.2]; exact hs
  | c256 a =>
    rw [Decrypt_XTS_c256] at h
    split at h
    · cases h
    · split at h
      · cases h
      · simp at h
  | c512 a =>
    rw [Decrypt_XTS_c512] at h
    split at h
    · cases h
    · split at h
      · cases h
      · simp at h

/-- The result of a capability call as the XTS wrapper hands it on. -/
theorem xts_Encrypt_pass (P : Prims) (k : Block) (dst src : Slice)
    (h : ¬ (dst.len < 16 ∨ dst.len < src.len)) :
    (NewXTSEncryptor k).Encrypt P dst src =
      match k.Encrypt P dst src ModeXTS with
      | .error e => .error e
      | .ok (b, s, err) => .ok (⟨b, ModeXTS⟩, s, err) := by
  unfold xtsEncryptor.Encrypt
  rw [validate_none k dst src h]
  rfl

theorem xts_Decrypt_pass (P : Prims) (k : Block) (dst src : Slice)
    (h : ¬ (dst.len < 16 ∨ dst.len < src.len)) :
    (NewXTSEncryptor k).Decrypt P dst src =
      match k.Decrypt P dst src ModeXTS with
      | .error e => .error e
      | .ok (b, s, err) => .ok (⟨b, ModeXTS⟩, s, err) := by
  unfold xtsEncryptor.Decrypt
  rw [validate_none k dst src h]
  rfl

theorem xts_Encrypt_reject (P : Prims) (k : Block) (dst src : Slice)
    (h : dst.len < 16 ∨ dst.len < src.len) :
    ∃ e, (NewXTSEncryptor k).Encrypt P dst src = .ok (NewXTSEncryptor k, dst, some e) ∧
      isSizeError e := by
  obtain ⟨e, he⟩ := (validate_some_iff k dst src).mpr h
  refine ⟨e, ?_, validate_isSizeError k dst src e he⟩
  unfold xtsEncryptor.Encrypt
  rw [he]

theorem xts_Decrypt_reject (P : Prims) (k : Block) (dst src : Slice)
    (h : dst.len < 16 ∨ dst.len < src.len) :
    ∃ e, (NewXTSEncryptor k).Decrypt P dst src = .ok (NewXTSEncryptor k, dst, some e) ∧
      isSizeError e := by
  obtain ⟨e, he⟩ := (validate_some_iff k dst src).mpr h
  refine ⟨e, ?_, validate_isSizeError k dst src e he⟩
  unfold xtsEncryptor.Decrypt
  rw [he]


theorem setIV16_full (old : Arr16) (iv : Slice) (h : iv.len = 16) :
    (setIV16 old iv).1 = iv.data := by
  have ho := old.2
  unfold Slice.len at h
  simp only [setIV16, copy, overwrite]
  rw [List.take_of_length_le (by omega), List.drop_of_length_le (by omega), List.append_nil]

theorem SetIV_iv (b : Block) (iv : Slice) (h : iv.len = 16) : (b.SetIV iv).iv.1 = iv.data := by
  cases b <;> exact setIV16_full _ iv h

theorem ivlen_ne_iff (b : Block) (iv : Slice) : (iv.len : Int) ≠ b.BlockSize ↔ iv.len ≠ 16 := by
  rw [Block.BlockSize_eq]
  omega


theorem modeCBC_ne_XTS : ModeCBC ≠ ModeXTS := by decide

theorem pokeC_data_full (s : Slice) (out : Bytes) (h : out.length = s.len) :
    (s.pokeC out).data = out := by
  rw [pokeC_eq s out (by omega)]
  simp only
  rw [List.drop_of_length_le (by unfold Slice.len at h; omega), List.append_nil]

theorem pokeC_data_take (s : Slice) (out : Bytes) (h : out.length ≤ s.len) :
    (s.pokeC out).data.take out.length = out := by
  rw [pokeC_eq s out h]
  exact List.take_left' rfl

theorem pokeC_len (s : Slice) (out : Bytes) : (s.pokeC out).len = s.len := by
  simp only [Slice.pokeC, Slice.len, List.length_take, overwrite_length, Slice.mem,
    List.length_append]
  omega

/-- The CBC case of `Encrypt` on the variants that have one. -/
theorem Encrypt_CBC_c128 (P : Prims) (a : isal128Cipher) (dst src : Slice) :
    (Block.c128 a).Encrypt P dst src ModeCBC =
      if src.len = 0 then .error .indexOutOfRange
      else if dst.len = 0 then .error .indexOutOfRange
      else .ok (.c128 a, dst.pokeC (P.aes_cbc_enc_128 (placement dst src src.len) src.data a.iv
        a.expkeyEnc), none) := by
  simp only [Block.Encrypt, isal128Cipher.Encrypt, ↓reduceIte]
  split
  · rfl
  · split <;> rfl

theorem Encrypt_CBC_c192 (P : Prims) (a : isal192Cipher) (dst src : Slice) :
    (Block.c192 a).Encrypt P dst src ModeCBC =
      if src.len = 0 then .error .indexOutOfRange
      else if dst.len = 0 then .error .indexOutOfRange
      else .ok (.c192 a, dst.pokeC (P.aes_cbc_enc_192 (placement dst src src.len) src.data a.iv
        a.expkeyEnc), none) := by
  simp only [Block.Encrypt, isal192Cipher.Encrypt, ↓reduceIte]
  split
  · rfl
  · split <;> rfl

theorem Encrypt_CBC_c256 (P : Prims) (a : isal256Cipher) (dst src : Slice) :
    (Block.c256 a).Encrypt P dst src ModeCBC =
      if src.len = 0 then .error .indexOutOfRange
      else if dst.len = 0 then .error .indexOutOfRange
      else .ok (.c256 a, dst.pokeC (P.aes_cbc_enc_256 (placement dst src src.len) src.data a.iv
        a.expkeyEnc), none) := by
  simp only [Block.Encrypt, isal256Cipher.Encrypt, ↓reduceIte]
  split
  · rfl
  · split <;> rfl

theorem Encrypt_CBC_c512 (P : Prims) (a : isal512Cipher) (dst src : Slice) :
    (Block.c512 a).Encrypt P dst src ModeCBC =
      .ok (.c512 a, dst, some (.new "Invalid mode")) := by
  simp only [Block.Encrypt, isal512Cipher.Encrypt, modeCBC_ne_XTS, ↓reduceIte, liftResult]

theorem Decrypt_CBC_c512 (P : Prims) (a : isal512Cipher) (dst src : Slice) :
    (Block.c512 a).Decrypt P dst src ModeCBC =
      .ok (.c512 a, dst, some (.new "Invalid mode")) := by
  simp only [Block.Decrypt, isal512Cipher.Decrypt, modeCBC_ne_XTS, ↓reduceIte, liftResult]

/-- The CBC case of `Decrypt` on the variants that have one: the primitive reads a private
copy, hence runs with disjoint buffers, when the two slices start at the same address. -/
theorem Decrypt_CBC (P : Prims) (b : Block) (dst src : Slice) (out : Bytes)
    (hd : dst.len ≠ 0) (hs : src.len ≠ 0)
    (ho : b.cbcDecrypt P
      (if src.ptr = dst.ptr then none else placement dst src src.len) src.data = some out) :
    b.Decrypt P dst src ModeCBC = .ok (b, dst.pokeC out, none) := by
  cases b with
  | c128 a =>
    simp only [Block.cbcDecrypt, Option.some.injEq] at ho
    simp only [Block.Decrypt, isal128Cipher.Decrypt, ↓reduceIte, hd, hs, liftResult, ho]
  | c192 a =>
    simp only [Block.cbcDecrypt, Option.some.injEq] at ho
    simp only [Block.Decrypt, isal192Cipher.Decrypt, ↓reduceIte, hd, hs, liftResult, ho]
  | c256 a =>
    simp only [Block.cbcDecrypt, Option.some.injEq] at ho
    simp only [Block.Decrypt, isal256Cipher.Decrypt, ↓reduceIte, hd, hs, liftResult, ho]
  | c512 a => simp [Block.cbcDecrypt] at ho

theorem Decrypt_CBC_empty (P : Prims) (b : Block) (dst src : Slice)
    (hb : b.supportsCBC = true) (h : dst.len = 0 ∨ src.len = 0) :
    b.Decrypt P dst src ModeCBC = .error .indexOutOfRange := by
  cases b with
  | c128 a =>
    simp only [Block.Decrypt, isal128Cipher.Decrypt, ↓reduceIte]
    split
    · rfl
    · split
      · rfl
      · omega
  | c192 a =>
    simp only [Block.Decrypt, isal192Cipher.Decrypt, ↓reduceIte]
    split
    · rfl
    · split
      · rfl
      · omega
  | c256 a =>
    simp only [Block.Decrypt, isal256Cipher.Decrypt, ↓reduceIte]
    split
    · rfl
    · split
      · rfl
      · omega
  | c512 a => simp [Block.supportsCBC] at hb

theorem supportsCBC_iff_dec (P : Prims) (b : Block) (rel : Option Int) (x : Bytes) :
    b.supportsCBC = true ↔ ∃ out, b.cbcDecrypt P rel x = some out := by
  cases b <;> simp [Block.supportsCBC, Block.cbcDecrypt]

theorem Encrypt_CBC_err (P : Prims) (b b' : Block) (dst src s : Slice) (e : GoError)
    (h : b.Encrypt P dst src ModeCBC = .ok (b', s, some e)) : e = .new "Invalid mode" := by
  cases b with
  | c128 a =>
    rw [Encrypt_CBC_c128] at h
    split at h
    · cases h
    · split at h
      · cases h
      · simp at h
  | c192 a =>
    rw [Encrypt_CBC_c192] at h
    split at h
    · cases h
    · split at h
      · cases h
      · simp at h
  | c256 a =>
    rw [Encrypt_CBC_c256] at h
    split at h
    · cases h
    · split at h
      · cases h
      · simp at h
  | c512 a =>
    rw [Encrypt_CBC_c512] at h
    simp only [Except.ok.injEq, Prod.mk.injEq, Option.some.injEq] at h
    exact h.2.2.symm

theorem Decrypt_CBC_err (P : Prims) (b b' : Block) (dst src s : Slice) (e : GoError)
    (h : b.Decrypt P dst src ModeCBC = .ok (b', s, some e)) : e = .new "Invalid mode" := by
  cases hb : b.supportsCBC
  · cases b with
    | c512 a =>
      rw [Decrypt_CBC_c512] at h
      simp only [Except.ok.injEq, Prod.mk.injEq, Option.some.injEq] at h
      exact h.2.2.symm
    | c128 a => simp [Block.supportsCBC] at hb
    | c192 a => simp [Block.supportsCBC] at hb
    | c256 a => simp [Block.supportsCBC] at hb
  · by_cases hz : dst.len = 0 ∨ src.len = 0
    · rw [Decrypt_CBC_empty P b dst src hb hz] at h
      cases h
    · obtain ⟨out, ho⟩ := (supportsCBC_iff_dec P b
        (if src.ptr = dst.ptr then none else placement dst src src.len) src.data).mp hb
      rw [Decrypt_CBC P b dst src out (by omega) (by omega) ho] at h
      simp at h


theorem readC_length (s : Slice) (n : Nat) (h : n ≤ s.len) : (s.readC n).length = n := by
  unfold Slice.len at h
  simp only [Slice.readC, Slice.mem, List.length_take, List.length_append]
  omega

theorem Block.SetIV_idem (b : Block) (iv : Slice) : (b.SetIV iv).SetIV iv = b.SetIV iv := by
  cases b <;>
    simp only [Block.SetIV, isal128Cipher.SetIV, isal192Cipher.SetIV, isal256Cipher.SetIV,
      isal512Cipher.SetIV, setIV16_idem]

theorem Encrypt_CBC (P : Prims) (b : Block) (dst src : Slice) (out : Bytes)
    (hd : dst.len ≠ 0) (hs : src.len ≠ 0)
    (ho : b.cbcEncrypt P (placement dst src src.len) src.data = some out) :
    b.Encrypt P dst src ModeCBC = .ok (b, dst.pokeC out, none) := by
  cases b with
  | c128 a =>
    simp only [Block.cbcEncrypt, Option.some.injEq] at ho
    rw [Encrypt_CBC_c128, if_neg hs, if_neg hd, ho]
  | c192 a =>
    simp only [Block.cbcEncrypt, Option.some.injEq] at ho
    rw [Encrypt_CBC_c192, if_neg hs, if_neg hd, ho]
  | c256 a =>
    simp only [Block.cbcEncrypt, Option.some.injEq] at ho
    rw [Encrypt_CBC_c256, if_neg hs, if_neg hd, ho]
  | c512 a => simp [Block.cbcEncrypt] at ho

/-- On a capability built from a 16-, 24- or 32-byte key over a library whose CBC
decryption inverts its encryption, the encryption in a call whose buffers lie apart or
coincide and the decryption in a call whose buffers lie apart invert each other under
every bound IV. -/
theorem cbc_pair (P : Prims) (hP : CBCInverts P) (hw : Bool) (key : Slice) (b : Block)
    (e0 : error) (hb : NewCipher P hw key = .ok (some b, e0))
    (hk : key.len = 16 ∨ key.len = 24 ∨ key.len = 32) (iv : Slice)
    (r : Option Int) (hr : okPlacement r) (x : Bytes) (hx : x ≠ []) (hm : x.length % 16 = 0) :
    ∃ out, (b.SetIV iv).cbcEncrypt P r x = some out ∧ out.length = x.length ∧
      (b.SetIV iv).cbcDecrypt P none out = some x := by
  cases hw
  · rw [NewCipher_unsupported] at hb
    simp at hb
  · rcases hk with h | h | h
    · rw [NewCipher_16 P key h] at hb
      simp only [Except.ok.injEq, Prod.mk.injEq, Option.some.injEq] at hb
      rw [← hb.1]
      have := hP.1 (key.readC 16) r (setIV16 zero16 iv) x hr
        (readC_length key 16 (by omega)) hx hm
      exact ⟨_, rfl, this.1, congrArg some this.2⟩
    · rw [NewCipher_24 P key h] at hb
      simp only [Except.ok.injEq, Prod.mk.injEq, Option.some.injEq] at hb
      rw [← hb.1]
      have := hP.2.1 (key.readC 24) r (setIV16 zero16 iv) x hr
        (readC_length key 24 (by omega)) hx hm
      exact ⟨_, rfl, this.1, congrArg some this.2⟩
    · rw [NewCipher_32 P key h] at hb
      simp only [Except.ok.injEq, Prod.mk.injEq, Option.some.injEq] at hb
      rw [← hb.1]
      have := hP.2.2 (key.readC 32) r (setIV16 zero16 iv) x hr
        (readC_length key 32 (by omega)) hx hm
      exact ⟨_, rfl, this.1, congrArg some this.2⟩

/-- Buffers that alias exactly or not at all give the primitive a placement it handles,
also when the call covers fewer bytes than the rule was stated for. -/
theorem okPlacement_of_exactOrDisjoint (dst src src' : Slice) (n m : Nat)
    (h : exactOrDisjoint dst src n) (hp : src'.ptr = src.ptr) (hm : m ≤ n) :
    okPlacement (placement dst src' m) := by
  unfold exactOrDisjoint placement at h
  unfold okPlacement placement
  rw [hp]
  rcases h with h | h
  · rw [h]
    by_cases h0 : 0 < m
    · right; simp [h0]
    · left; simp [h0]
  · left
    split at h
    · cases h
    · rw [if_neg (by omega)]

/-- A working buffer that aliases an input exactly or not at all starts at or before the
input, or behind its end. -/
theorem clear_of_exactOrDisjoint (ret c : Slice) (n : Nat) (h : exactOrDisjoint ret c n) :
    ret.ptr ≤ c.ptr ∨ c.ptr + n ≤ ret.ptr := by
  unfold exactOrDisjoint placement at h
  rcases h with h | h
  · left; omega
  · split at h
    · cases h
    · omega

/-- The placement that the CBC case of `Decrypt` hands the primitive is "apart" for buffers
that alias exactly or not at all. -/
theorem cbcDecrypt_placement (dst src : Slice) (h : exactOrDisjoint dst src src.len) :
    (if src.ptr = dst.ptr then none else placement dst src src.len) = none := by
  rcases h with h | h
  · rw [if_pos h.symm]
  · rw [h, ite_self]

theorem upTo_readC (s : Slice) (j n : Nat) (h : n ≤ s.len) :
    (s.upTo j).readC n = s.data.take n := by
  unfold Slice.len at h
  simp only [Slice.readC, Slice.upTo, Slice.mem, List.take_append_drop]
  rw [List.take_append_of_le_length h]

theorem startAt_readC (s : Slice) (i n : Nat) (h : s.len = i + n) :
    (s.startAt i).readC n = s.data.drop i := by
  unfold Slice.len at h
  simp only [Slice.readC, Slice.startAt, Slice.mem]
  rw [List.take_append_of_le_length (by simp; omega)]
  exact List.take_of_length_le (by simp; omega)

theorem setIV16_eq (old : Arr16) (iv : Slice) (h : iv.len = 16) :
    setIV16 old iv = ⟨iv.data, h⟩ :=
  Subtype.ext (setIV16_full old iv h)

/-- On a capability built from a 32- or 64-byte key over a correct XTS library, with the
tweak bound, the XTS case of `Encrypt` stores the standard ciphertext under the two key
halves and the XTS case of `Decrypt` recovers the sector. -/
theorem xts_pair (P : Prims) (std : Bytes → Bytes → Arr16 → Bytes → Bytes)
    (hP : XTSCorrect P std) (hw : Bool) (key : Slice) (b : Block) (e0 : error)
    (hb : NewCipher P hw key = .ok (some b, e0)) (hk : key.len = 32 ∨ key.len = 64)
    (tweak : Slice) (ht : tweak.len = 16) (x : Bytes) (hx : 16 ≤ x.length) :
    (∀ dst src : Slice, dst.len ≠ 0 → src.data = x → okPlacement (placement dst src src.len) →
      (b.SetIV tweak).Encrypt P dst src ModeXTS =
        .ok (b.SetIV tweak, dst.pokeC (std (key.data.take (key.len / 2))
          (key.data.drop (key.len / 2)) ⟨tweak.data, ht⟩ x), none)) ∧
    (∀ dst src : Slice, dst.len ≠ 0 →
      src.data = std (key.data.take (key.len / 2)) (key.data.drop (key.len / 2))
        ⟨tweak.data, ht⟩ x →
      okPlacement (placement dst src src.len) →
      (b.SetIV tweak).Decrypt P dst src ModeXTS = .ok (b.SetIV tweak, dst.pokeC x, none)) := by
  have hsl := hP.2.2 (key.data.take (key.len / 2)) (key.data.drop (key.len / 2))
    ⟨tweak.data, ht⟩ x
  cases hw
  · rw [NewCipher_unsupported] at hb
    simp at hb
  · rcases hk with h | h
    · rw [NewCipher_32 P key h] at hb
      simp only [Except.ok.injEq, Prod.mk.injEq, Option.some.injEq] at hb
      rw [← hb.1, h]
      have hk1 : (key.data.take (32 / 2)).length = 16 := by
        unfold Slice.len at h; simp; omega
      have hk2 : (key.data.drop (32 / 2)).length = 16 := by
        unfold Slice.len at h; simp; omega
      rw [h] at hsl
      constructor
      · intro dst src hd hs hpl
        have hsn : src.len ≠ 0 := by unfold Slice.len; rw [hs]; omega
        have := (hP.1 (placement dst src src.len) _ _ ⟨tweak.data, ht⟩ x hpl hk1 hk2 hx).1
        simp only [Block.SetIV, isal256Cipher.SetIV]
        rw [Encrypt_XTS_c256, if_neg hsn, if_neg hd]
        simp only [upTo_readC key 15 16 (by omega), startAt_readC key 16 16 (by omega),
          setIV16_eq _ tweak ht, hs]
        rw [← this]
      · intro dst src hd hs hpl
        have hsn : src.len ≠ 0 := by unfold Slice.len; rw [hs, hsl]; omega
        have := (hP.1 (placement dst src src.len) _ _ ⟨tweak.data, ht⟩ x hpl hk1 hk2 hx).2
        simp only [Block.SetIV, isal256Cipher.SetIV]
        rw [Decrypt_XTS_c256, if_neg hd, if_neg hsn]
        simp only [upTo_readC key 15 16 (by omega), startAt_readC key 16 16 (by omega),
          setIV16_eq _ tweak ht, hs]
        rw [this]
    · rw [NewCipher_64 P key h] at hb
      simp only [Except.ok.injEq, Prod.mk.injEq, Option.some.injEq] at hb
      rw [← hb.1, h]
      have hk1 : (key.data.take (64 / 2)).length = 32 := by
        unfold Slice.len at h; simp; omega
      have hk2 : (key.data.drop (64 / 2)).length = 32 := by
        unfold Slice.len at h; simp; omega
      rw [h] at hsl
      constructor
      · intro dst src hd hs hpl
        have hsn : src.len ≠ 0 := by unfold Slice.len; rw [hs]; omega
        have := (hP.2.1 (placement dst src src.len) _ _ ⟨tweak.data, ht⟩ x hpl hk1 hk2 hx).1
        simp only [Block.SetIV, isal512Cipher.SetIV]
        rw [Encrypt_XTS_c512, if_neg hsn, if_neg hd]
        simp only [upTo_readC key 31 32 (by omega), startAt_readC key 32 32 (by omega),
          setIV16_eq _ tweak ht, hs]
        rw [← this]
      · intro dst src hd hs hpl
        have hsn : src.len ≠ 0 := by unfold Slice.len; rw [hs, hsl]; omega
        have := (hP.2.1 (placement dst src src.len) _ _ ⟨tweak.data, ht⟩ x hpl hk1 hk2 hx).2
        simp only [Block.SetIV, isal512Cipher.SetIV]
        rw [Decrypt_XTS_c512, if_neg hd, if_neg hsn]
        simp only [upTo_readC key 31 32 (by omega), startAt_readC key 32 32 (by omega),
          setIV16_eq _ tweak ht, hs]
        rw [this]

/-- The stand-in library satisfies the two hypotheses on the CBC and XTS primitives. -/
theorem toyPrims_cbc_inverts : CBCInverts toyPrims := by
  refine ⟨?_, ?_, ?_⟩ <;> intro k r iv x _ _ _ _ <;>
    exact ⟨by simp [toyPrims], by simp only [toyPrims, toy_map_inv]⟩

/-- The front-to-back stand-in satisfies the CBC hypothesis too: it inverts whenever the
buffers of the decryption lie apart. -/
theorem seqPrims_cbc_inverts : CBCInverts seqPrims := by
  refine ⟨?_, ?_, ?_⟩ <;> intro k r iv x _ _ _ _ <;>
    exact ⟨by simp [seqPrims, toyPrims], by simp only [seqPrims, toyPrims, seqDec, toy_map_inv]⟩

theorem toyPrims_xts_correct : XTSCorrect toyPrims toyXTS := by
  refine ⟨?_, ?_, ?_⟩
  · intro r k1 k2 tw x _ _ _ _
    exact ⟨rfl, by simp only [toyPrims, toyXTS, toy_map_inv]⟩
  · intro r k1 k2 tw x _ _ _ _
    exact ⟨rfl, by simp only [toyPrims, toyXTS, toy_map_inv]⟩
  · intro k1 k2 tw x
    simp [toyXTS]

/-! ## Lemmas on the hash wrapper, on empty buffers and on the shared IV -/

theorem append_data (fresh extra : Nat) (s : Slice) (xs : Bytes) :
    (append fresh extra s xs).data = s.data ++ xs := by
  unfold append
  split <;> rfl

theorem Write_result {M : MhPrims} (d : msha1.digest M) (p : Slice) :
    (d.Write p).2 = ((p.len : Int), none) := by
  unfold msha1.digest.Write
  split
  · rename_i h
    simp [h]
  · rfl

theorem Write_ctx {M : MhPrims} (d : msha1.digest M) (p : Slice) :
    (d.Write p).1.ctx =
      if p.len = 0 then d.ctx else M.mh_sha1_update d.ctx (p.data.take (p.len % 2 ^ 32)) := by
  unfold msha1.digest.Write
  split
  · rfl
  · have : p.len % 2 ^ 32 ≤ p.data.length := Nat.mod_le _ _
    simp only [Slice.readC, Slice.mem, List.take_append_of_le_length this]

theorem Encrypt_CBC_empty (P : Prims) (b : Block) (dst src : Slice)
    (hb : b.supportsCBC = true) (h : dst.len = 0 ∨ src.len = 0) :
    b.Encrypt P dst src ModeCBC = .error .indexOutOfRange := by
  cases b with
  | c128 a =>
    rw [Encrypt_CBC_c128]
    split
    · rfl
    · split
      · rfl
      · omega
  | c192 a =>
    rw [Encrypt_CBC_c192]
    split
    · rfl
    · split
      · rfl
      · omega
  | c256 a =>
    rw [Encrypt_CBC_c256]
    split
    · rfl
    · split
      · rfl
      · omega
  | c512 a => simp [Block.supportsCBC] at hb

theorem supportsCBC_SetIV (b : Block) (iv : Slice) :
    (b.SetIV iv).supportsCBC = b.supportsCBC := by
  cases b <;> rfl

theorem Decrypt_CBC_distinct_ptr (P : Prims) (b : Block) (dst src : Slice) (out : Bytes)
    (hd : dst.len ≠ 0) (hs : src.len ≠ 0) (hp : src.ptr ≠ dst.ptr)
    (ho : b.cbcDecrypt P (placement dst src src.len) src.data = some out) :
    b.Decrypt P dst src ModeCBC = .ok (b, dst.pokeC out, none) :=
  Decrypt_CBC P b dst src out hd hs (by rw [if_neg hp]; exact ho)

theorem NewCipher_noGCM (P : Prims) (hw : Bool) (key : Slice) (b : Block) (e0 : error)
    (hb : NewCipher P hw key = .ok (some b, e0)) (hk : key.len = 24 ∨ key.len = 64) :
    b.supportsGCM = false := by
  cases hw
  · rw [NewCipher_unsupported] at hb
    simp at hb
  · rcases hk with h | h
    · rw [NewCipher_24 P key h] at hb
      simp only [Except.ok.injEq, Prod.mk.injEq, Option.some.injEq] at hb
      rw [← hb.1]; rfl
    · rw [NewCipher_64 P key h] at hb
      simp only [Except.ok.injEq, Prod.mk.injEq, Option.some.injEq] at hb
      rw [← hb.1]; rfl

theorem upTo_of_len_zero (s : Slice) (n : Nat) (h : s.len = 0) :
    s.upTo n = ⟨s.ptr, s.spare.take n, s.spare.drop n⟩ := by
  unfold Slice.len at h
  have : s.data = [] := List.eq_nil_of_length_eq_zero h
  simp [Slice.upTo, Slice.mem, this]

theorem setIV16_val (old : Arr16) (iv : Slice) :
    (setIV16 old iv).1 = iv.data.take 16 ++ old.1.drop iv.len := by
  simp only [setIV16, copy, overwrite, old.2, Slice.len]

theorem SetIV_iv_val (b : Block) (iv : Slice) :
    (b.SetIV iv).iv.1 = iv.data.take 16 ++ b.iv.1.drop iv.len := by
  cases b <;> exact setIV16_val _ iv

theorem SetIV_iv_12 (b : Block) (nonce : Slice) (hn : nonce.len = 12) :
    (b.SetIV nonce).iv.1 = nonce.data ++ b.iv.1.drop 12 := by
  rw [SetIV_iv_val, hn, List.take_of_length_le]
  unfold Slice.len at hn
  omega

theorem iv_AD (b : Block) (ad : Slice) : (b.GCMAddAdditionalData ad).iv = b.iv := by
  cases b <;> rfl

theorem iv_withAuthTag (b : Block) (t : Arr16) : (b.withAuthTag t).iv = b.iv := by
  cases b <;> rfl

theorem setIV16_twice (old : Arr16) (iv1 iv2 : Slice) (h2 : iv2.len = 16) :
    setIV16 (setIV16 old iv1) iv2 = setIV16 old iv2 := by
  rw [setIV16_eq _ iv2 h2, setIV16_eq _ iv2 h2]

theorem SetIV_twice (b : Block) (iv1 iv2 : Slice) (h2 : iv2.len = 16) :
    (b.SetIV iv1).SetIV iv2 = b.SetIV iv2 := by
  cases b <;>
    simp only [Block.SetIV, isal128Cipher.SetIV, isal192Cipher.SetIV, isal256Cipher.SetIV,
      isal512Cipher.SetIV, setIV16_twice _ iv1 iv2 h2]

theorem Seal_iv (P : Prims) (b : Block) (fresh : Nat) (dst nonce plaintext ad : Slice)
    (hn : nonce.len = 12) (hp : plaintext.len ≤ maxPlaintext) :
    ∃ b1 ret, gcm.Seal P ⟨b, gcmStandardNonceSize⟩ fresh dst nonce plaintext ad = .ok (b1, ret) ∧
      b1.iv = (b.SetIV nonce).iv := by
  cases hg : b.supportsGCM
  · exact ⟨_, _, Seal_none P b fresh dst nonce plaintext ad hn hp hg, iv_AD _ _⟩
  · have hg2 : ((b.SetIV nonce).GCMAddAdditionalData ad).supportsGCM = true := by
      rw [supportsGCM_AD, supportsGCM_SetIV]; exact hg
    obtain ⟨r, hr⟩ := (supportsGCM_iff_enc P _
      (placement (sliceForAppend fresh dst (plaintext.len + gcmTagSize)).1 plaintext
        plaintext.len) plaintext.data).mp hg2
    exact ⟨_, _, Seal_some P b fresh dst nonce plaintext ad r hn hp hr,
      by rw [iv_withAuthTag, iv_AD]⟩

theorem Open_iv (P : Prims) (b : Block) (fresh : Nat) (dst nonce ciphertext ad : Slice)
    (hn : nonce.len = 12) (h16 : 16 ≤ ciphertext.len)
    (hmax : ciphertext.len ≤ maxPlaintext + 16) :
    ∃ r, gcm.Open P ⟨b, gcmStandardNonceSize⟩ fresh dst nonce ciphertext ad = .ok r ∧
      r.block.iv = (b.SetIV nonce).iv := by
  have hguard := open_guard b ciphertext.len hmax
  cases hg : b.supportsGCM
  · exact ⟨_, Open_none P b fresh dst nonce ciphertext ad hn h16 hguard hg, iv_AD _ _⟩
  · have hg2 : ((b.SetIV nonce).GCMAddAdditionalData ad).supportsGCM = true := by
      rw [supportsGCM_AD, supportsGCM_SetIV]; exact hg
    obtain ⟨r, hr⟩ := (supportsGCM_iff_dec P _
      (placement (sliceForAppend fresh dst (ciphertext.upTo (ciphertext.len - gcmTagSize)).len).1
        (ciphertext.upTo (ciphertext.len - gcmTagSize))
        (ciphertext.upTo (ciphertext.len - gcmTagSize)).len)
      (ciphertext.upTo (ciphertext.len - gcmTagSize)).data).mp hg2
    refine ⟨_, Open_core P b fresh dst nonce ciphertext ad r hn h16 hguard hr, ?_⟩
    split <;> simp only [iv_withAuthTag, iv_AD]

theorem Store.put_same (m : Store) (p : Nat) (b : Block) : (m.put p b) p = b := by
  simp only [Store.put, ↓reduceIte]

theorem Store.put_other (m : Store) (p q : Nat) (b : Block) (h : q ≠ p) :
    (m.put p b) q = m q := by
  simp only [Store.put, if_neg h]

theorem Store.put_put (m : Store) (p : Nat) (b c : Block) :
    (m.put p b).put p c = m.put p c := by
  funext q
  by_cases h : q = p <;> simp only [Store.put, h, ↓reduceIte]

theorem Store.put_self (m : Store) (p : Nat) : m.put p (m p) = m := by
  funext q
  by_cases h : q = p
  · subst h; simp only [Store.put, ↓reduceIte]
  · simp only [Store.put, if_neg h]

theorem Shared_cbc_Encrypt (P : Prims) (c : Shared.cbc) (m : Store) (dst src : Slice) :
    c.Encrypt P m dst src = m.result c.block ((m c.block).Encrypt P dst src c.mode) := by
  unfold Shared.cbc.Encrypt Store.result
  rfl

theorem Shared_cbc_Decrypt (P : Prims) (c : Shared.cbc) (m : Store) (dst src : Slice) :
    c.Decrypt P m dst src = m.result c.block ((m c.block).Decrypt P dst src c.mode) := by
  unfold Shared.cbc.Decrypt Store.result
  rfl

theorem Shared_xts_Encrypt (P : Prims) (x : Shared.xtsEncryptor) (m : Store) (dst src : Slice) :
    x.Encrypt P m dst src =
      (match (⟨m x.block, x.mode⟩ : xtsEncryptor).validate dst src with
      | some err => .ok (m, dst, some err)
      | none => m.result x.block ((m x.block).Encrypt P dst src x.mode)) := by
  unfold Shared.xtsEncryptor.Encrypt Store.result Shared.xtsEncryptor.validate
    xtsEncryptor.validate
  rfl

theorem Shared_xts_Decrypt (P : Prims) (x : Shared.xtsEncryptor) (m : Store) (dst src : Slice) :
    x.Decrypt P m dst src =
      (match (⟨m x.block, x.mode⟩ : xtsEncryptor).validate dst src with
      | some err => .ok (m, dst, some err)
      | none => m.result x.block ((m x.block).Decrypt P dst src x.mode)) := by
  unfold Shared.xtsEncryptor.Decrypt Store.result Shared.xtsEncryptor.validate
    xtsEncryptor.validate
  rfl

theorem Shared_Seal_iv (P : Prims) (m : Store) (g : Shared.gcm) (fresh : Nat)
    (dst nonce plaintext ad : Slice) (hg : g.nonceSize = gcmStandardNonceSize)
    (hn : nonce.len = 12) (hp : plaintext.len ≤ maxPlaintext) :
    ∃ m1 ret, g.Seal P m fresh dst nonce plaintext ad = .ok (m1, ret) ∧
      (m1 g.block).iv.1 = nonce.data ++ (m g.block).iv.1.drop 12 ∧
      ∀ q, q ≠ g.block → m1 q = m q := by
  obtain ⟨b1, ret, hs, hiv⟩ := Seal_iv P (m g.block) fresh dst nonce plaintext ad hn hp
  refine ⟨m.put g.block b1, ret, ?_, ?_, fun q hq => Store.put_other m _ q b1 hq⟩
  · simp only [Shared.gcm.Seal, hg, hs]
  · rw [Store.put_same, hiv, SetIV_iv_12 _ nonce hn]

theorem Shared_Open_iv (P : Prims) (m : Store) (g : Shared.gcm) (fresh : Nat)
    (dst nonce ciphertext ad : Slice) (hg : g.nonceSize = gcmStandardNonceSize)
    (hn : nonce.len = 12) (h16 : 16 ≤ ciphertext.len)
    (hmax : ciphertext.len ≤ maxPlaintext + 16) :
    ∃ m1 ret err, g.Open P m fresh dst nonce ciphertext ad = .ok (m1, ret, err) ∧
      (m1 g.block).iv.1 = nonce.data ++ (m g.block).iv.1.drop 12 ∧
      ∀ q, q ≠ g.block → m1 q = m q := by
  obtain ⟨r, hs, hiv⟩ := Open_iv P (m g.block) fresh dst nonce ciphertext ad hn h16 hmax
  refine ⟨m.put g.block r.block, r.ret, r.err, ?_, ?_,
    fun q hq => Store.put_other m _ q r.block hq⟩
  · simp only [Shared.gcm.Open, hg, hs]
  · rw [Store.put_same, hiv, SetIV_iv_12 _ nonce hn]

theorem Shared_NewCBCEncrypter_onCapability (m : Store) (b : Nat) (iv : Slice) :
    Shared.NewCBCEncrypter m b iv =
      (m.put b (NewCBCEncrypter (m b) iv).1,
        match (NewCBCEncrypter (m b) iv).2 with
        | .error e => .error e
        | .ok c => .ok ⟨b, c.mode, c.operation⟩) := by
  unfold Shared.NewCBCEncrypter NewCBCEncrypter
  split
  · rw [Store.put_self]
  · rfl

theorem Shared_NewCBCDecrypter_onCapability (m : Store) (b : Nat) (iv : Slice) :
    Shared.NewCBCDecrypter m b iv =
      (m.put b (NewCBCDecrypter (m b) iv).1,
        match (NewCBCDecrypter (m b) iv).2 with
        | .error e => .error e
        | .ok c => .ok ⟨b, c.mode, c.operation⟩) := by
  unfold Shared.NewCBCDecrypter NewCBCDecrypter
  split
  · rw [Store.put_self]
  · rfl

theorem Shared_CryptBlocks_onCapability (P : Prims) (c : Shared.cbc) (m : Store)
    (dst src : Slice) :
    c.CryptBlocks P m dst src =
      (match (⟨m c.block, c.mode, c.operation⟩ : cbc).CryptBlocks P dst src with
      | .error e => .error e
      | .ok (c1, s, err) => .ok (m.put c.block c1.block, s, err)) := by
  unfold Shared.cbc.CryptBlocks cbc.CryptBlocks Shared.cbc.Encrypt Shared.cbc.Decrypt
    cbc.Encrypt cbc.Decrypt
  by_cases h1 : c.operation = OperationEncrypt
  · simp only [h1, ↓reduceIte]
    cases (m c.block).Encrypt P dst src c.mode <;> rfl
  · by_cases h2 : c.operation = OperationDecrypt
    · simp only [if_neg h1, h2, ↓reduceIte]
      cases (m c.block).Decrypt P dst src c.mode <;> rfl
    · simp only [if_neg h1, if_neg h2, Store.put_self]

/-! ## The claims -/

/-- C1: for every key, `NewCipher` returns (it never panics), and it returns a capability
together with a nil error if and only if hardware support is reported and `len(key)` is
16, 24, 32 or 64; in every other case it returns a nil capability together with a
non-nil error. -/
theorem NewCipher_iff (P : Prims) (aesniSupported : Bool) (key : Slice) :
    ∃ b e, NewCipher P aesniSupported key = .ok (b, e) ∧
      ((b.isSome = true ∧ e = none) ↔
        (aesniSupported = true ∧
          (key.len = 16 ∨ key.len = 24 ∨ key.len = 32 ∨ key.len = 64))) ∧
      (¬ (aesniSupported = true ∧
          (key.len = 16 ∨ key.len = 24 ∨ key.len = 32 ∨ key.len = 64)) →
        b = none ∧ e ≠ none) := by
  cases aesniSupported
  · exact ⟨_, _, NewCipher_unsupported P key, by simp, by simp⟩
  · by_cases h : key.len = 16 ∨ key.len = 24 ∨ key.len = 32 ∨ key.len = 64
    · rcases h with h | h | h | h
      · exact ⟨_, _, NewCipher_16 P key h, by simp [h], by simp [h]⟩
      · exact ⟨_, _, NewCipher_24 P key h, by simp [h], by simp [h]⟩
      · exact ⟨_, _, NewCipher_32 P key h, by simp [h], by simp [h]⟩
      · exact ⟨_, _, NewCipher_64 P key h, by simp [h], by simp [h]⟩
    · exact ⟨_, _, NewCipher_other P key h, by simp [h], by simp [h]⟩

/-- C2: for the capability `b` returned by `NewCipher(key)`, every mode integer and non-empty
buffers, `Encrypt` and `Decrypt` return, and their error is nil exactly when the mode is
in the set fixed by the key length (`supportedModes`); for every other mode value the
error is non-nil, the destination buffer is unchanged and so is the capability, in
particular its IV, additional data and tag. -/
theorem Encrypt_Decrypt_mode_matrix (P : Prims) (hw : Bool) (key : Slice) (b : Block)
    (e0 : error) (hb : NewCipher P hw key = .ok (some b, e0))
    (dst src : Slice) (hd : dst.len ≠ 0) (hs : src.len ≠ 0) (mode : Int) :
    (∃ b' dst' e, b.Encrypt P dst src mode = .ok (b', dst', e) ∧
      (e = none ↔ mode ∈ supportedModes key.len) ∧
      (mode ∉ supportedModes key.len → e ≠ none ∧ dst' = dst ∧ b' = b ∧ b'.iv = b.iv ∧
        b'.additionalData = b.additionalData ∧ b'.GCMGetAuthTag = b.GCMGetAuthTag)) ∧
    (∃ b' dst' e, b.Decrypt P dst src mode = .ok (b', dst', e) ∧
      (e = none ↔ mode ∈ supportedModes key.len) ∧
      (mode ∉ supportedModes key.len → e ≠ none ∧ dst' = dst ∧ b' = b ∧ b'.iv = b.iv ∧
        b'.additionalData = b.additionalData ∧ b'.GCMGetAuthTag = b.GCMGetAuthTag)) := by
  rcases NewCipher_cases P hw key b e0 hb with ⟨hk, a, rfl⟩ | ⟨hk, a, rfl⟩ | ⟨hk, a, rfl⟩ | ⟨hk, a, rfl⟩
  · rw [hk]; simp only [mem_modes_16]
    exact ⟨lift_matrix _ _ a dst _ (enc128_matrix P a dst src hd hs mode),
      lift_matrix _ _ a dst _ (dec128_matrix P a dst src hd hs mode)⟩
  · rw [hk]; simp only [mem_modes_24]
    exact ⟨lift_matrix _ _ a dst _ (enc192_matrix P a dst src hd hs mode),
      lift_matrix _ _ a dst _ (dec192_matrix P a dst src hd hs mode)⟩
  · rw [hk]; simp only [mem_modes_32]
    exact ⟨lift_matrix _ _ a dst _ (enc256_matrix P a dst src hd hs mode),
      lift_matrix _ _ a dst _ (dec256_matrix P a dst src hd hs mode)⟩
  · rw [hk]; simp only [mem_modes_64]
    exact ⟨lift_matrix _ _ a dst _ (enc512_matrix P a dst src hd hs mode),
      lift_matrix _ _ a dst _ (dec512_matrix P a dst src hd hs mode)⟩

/-- Witness for C2: a 16-byte zero key over the stand-in library, buffers of 16 bytes, mode XTS. -/
theorem Encrypt_Decrypt_mode_matrix_witness :
    NewCipher toyPrims true (zeros 0 16) = .ok (some (.c128 toy128), none) ∧
    (zeros 100 16).len ≠ 0 ∧ (zeros 200 16).len ≠ 0 ∧
    ((∃ b' dst' e, (Block.c128 toy128).Encrypt toyPrims (zeros 100 16) (zeros 200 16) ModeXTS =
        .ok (b', dst', e) ∧
      (e = none ↔ ModeXTS ∈ supportedModes (zeros 0 16).len) ∧
      (ModeXTS ∉ supportedModes (zeros 0 16).len → e ≠ none ∧ dst' = zeros 100 16 ∧
        b' = .c128 toy128 ∧ b'.iv = (Block.c128 toy128).iv ∧
        b'.additionalData = (Block.c128 toy128).additionalData ∧
        b'.GCMGetAuthTag = (Block.c128 toy128).GCMGetAuthTag)) ∧
    (∃ b' dst' e, (Block.c128 toy128).Decrypt toyPrims (zeros 100 16) (zeros 200 16) ModeXTS =
        .ok (b', dst', e) ∧
      (e = none ↔ ModeXTS ∈ supportedModes (zeros 0 16).len) ∧
      (ModeXTS ∉ supportedModes (zeros 0 16).len → e ≠ none ∧ dst' = zeros 100 16 ∧
        b' = .c128 toy128 ∧ b'.iv = (Block.c128 toy128).iv ∧
        b'.additionalData = (Block.c128 toy128).additionalData ∧
        b'.GCMGetAuthTag = (Block.c128 toy128).GCMGetAuthTag))) :=
  ⟨rfl, by decide, by decide,
    Encrypt_Decrypt_mode_matrix toyPrims true (zeros 0 16) (.c128 toy128) none rfl
      (zeros 100 16) (zeros 200 16) (by decide) (by decide) ModeXTS⟩

/-- C3, counterexample: the stand-in library satisfies the round-trip hypothesis and the
16-byte-key capability supports GCM, yet for a plaintext of `(2^32 - 2) * 16 + 1` bytes
`Seal` with an empty destination panics with "message too large", so nothing is returned
for `Open` to recover; and for a plaintext of 16 zero bytes, `Open` of the sealed message
into the empty destination `sealed[16:16]`, whose spare capacity is the message's own
tag, fails: the plaintext is stored over the tag before the tag is compared. -/
theorem Seal_oversize_panics :
    GCMInverts toyPrims ∧ (Block.c128 toy128).supportsGCM = true ∧
    NewGCM (.c128 toy128) = (some ⟨.c128 toy128, gcmStandardNonceSize⟩, none) ∧
    gcm.Seal toyPrims ⟨.c128 toy128, gcmStandardNonceSize⟩ 0 Slice.nil (zeros 0 12)
      (zeros 0 (maxPlaintext + 1)) Slice.nil =
        .error (.msg "cipher: message too large for GCM") ∧
    gcm.Seal toyPrims ⟨.c128 toy128, gcmStandardNonceSize⟩ 500 Slice.nil (zeros 300 12)
      (zeros 200 16) Slice.nil =
        .ok ((Block.c128 toy128).withAuthTag (toyTag (List.replicate 16 1) []),
          ⟨500, List.replicate 16 1 ++ List.replicate 16 17, []⟩) ∧
    ((⟨500, List.replicate 16 1 ++ List.replicate 16 17, []⟩ : Slice).startAt 16).upTo 0 =
      ⟨516, [], List.replicate 16 17⟩ ∧
    gcm.Open toyPrims
      ⟨(Block.c128 toy128).withAuthTag (toyTag (List.replicate 16 1) []), gcmStandardNonceSize⟩
      700 ⟨516, [], List.replicate 16 17⟩ (zeros 300 12)
      ⟨500, List.replicate 16 1 ++ List.replicate 16 17, []⟩ Slice.nil =
        .ok ⟨(Block.c128 toy128).withAuthTag (toyTag (List.replicate 16 1) []), none,
          some errOpen, some ⟨516, List.replicate 16 0, []⟩⟩ := by
  refine ⟨toyPrims_inverts, rfl, rfl, ?_, rfl, rfl, ?_⟩
  · unfold gcm.Seal
    have hn : (zeros 0 12).len = 12 := by simp [zeros, Slice.len]
    have hl : (zeros 0 (maxPlaintext + 1)).len = maxPlaintext + 1 := by simp [zeros, Slice.len]
    rw [if_neg (by simp [hn, gcmStandardNonceSize]), if_pos]
    rw [hl, uint64_BlockSize, uint64_len _ (by unfold maxPlaintext; omega)]
    unfold maxPlaintext
    omega
  · rw [Open_core toyPrims ((Block.c128 toy128).withAuthTag (toyTag (List.replicate 16 1) []))
      700 ⟨516, [], List.replicate 16 17⟩ (zeros 300 12)
      ⟨500, List.replicate 16 1 ++ List.replicate 16 17, []⟩ Slice.nil
      (List.replicate 16 0, toyTag (List.replicate 16 1) []) rfl (by decide)
      (open_guard _ _ (by decide)) (by rfl)]
    rfl

/-- C3, as amended: for a capability that supports GCM, over a library whose GCM decryption
inverts its encryption and recomputes the same tag, for every 12-byte nonce, every
additional data and every plaintext of at most `(2^32 - 2) * 16` bytes (the empty one
included), `Seal` into an empty destination `e` returns, and `Open` of its result into
an empty destination `d` returns the plaintext with a nil error, when each call's working
buffer and its input alias exactly or not at all. -/
theorem GCM_roundtrip (P : Prims) (hP : GCMInverts P) (b : Block) (hb : b.supportsGCM = true)
    (g : gcm) (hg : NewGCM b = (some g, none)) (f1 f2 : Nat)
    (d e nonce plaintext additionalData : Slice)
    (hd : d.len = 0) (he : e.len = 0) (hn : nonce.len = 12)
    (hp : plaintext.len ≤ maxPlaintext)
    (hse : exactOrDisjoint (sliceForAppend f1 e (plaintext.len + gcmTagSize)).1 plaintext
      plaintext.len)
    (hop : exactOrDisjoint (sliceForAppend f2 d plaintext.len).1
      (sliceForAppend f1 e (plaintext.len + gcmTagSize)).1 (plaintext.len + gcmTagSize)) :
    ∃ b1 sealed, g.Seal P f1 e nonce plaintext additionalData = .ok (b1, sealed) ∧
      ∃ r p, gcm.Open P { g with block := b1 } f2 d nonce sealed additionalData = .ok r ∧
        r.err = none ∧ r.ret = some p ∧ p.data = plaintext.data := by
  rw [NewGCM_eq b g none hg]
  have hb2 : ((b.SetIV nonce).GCMAddAdditionalData additionalData).supportsGCM = true := by
    rw [supportsGCM_AD, supportsGCM_SetIV, hb]
  obtain ⟨r, hr⟩ := (supportsGCM_iff_enc P _
    (placement (sliceForAppend f1 e (plaintext.len + gcmTagSize)).1 plaintext plaintext.len)
    plaintext.data).mp hb2
  have hrl : r.1.length = plaintext.len := gcmEncrypt_length P _ _ _ r hr
  have h16 : r.2.1.length = 16 := r.2.2
  have hok1 : okPlacement
      (placement (sliceForAppend f1 e (plaintext.len + gcmTagSize)).1 plaintext plaintext.len) :=
    okPlacement_of_exactOrDisjoint _ plaintext plaintext _ _ hse rfl (le_refl _)
  refine ⟨_, _, Seal_some P b f1 e nonce plaintext additionalData r hn hp hr, ?_⟩
  have hdrop : (sliceForAppend f1 e (plaintext.len + gcmTagSize)).1.data.drop
      (plaintext.len + 16) = [] := by
    apply List.drop_of_length_le
    rw [sliceForAppend_data_empty _ _ _ he]
    simp [gcmTagSize]
  rw [hdrop, List.append_nil]
  have hop2 : exactOrDisjoint (sliceForAppend f2 d plaintext.len).1
      ⟨(sliceForAppend f1 e (plaintext.len + gcmTagSize)).1.ptr, r.1 ++ r.2.1,
        (sliceForAppend f1 e (plaintext.len + gcmTagSize)).1.spare⟩
      (plaintext.len + gcmTagSize) := hop
  generalize (sliceForAppend f1 e (plaintext.len + gcmTagSize)).1.ptr = sp at hop2 ⊢
  generalize (sliceForAppend f1 e (plaintext.len + gcmTagSize)).1.spare = ss at hop2 ⊢
  have hsl : (⟨sp, r.1 ++ r.2.1, ss⟩ : Slice).len = plaintext.len + 16 := by
    simp [Slice.len, hrl, h16]
  have hul : ((⟨sp, r.1 ++ r.2.1, ss⟩ : Slice).upTo
      ((⟨sp, r.1 ++ r.2.1, ss⟩ : Slice).len - gcmTagSize)).len = plaintext.len := by
    rw [len_upTo _ _ (by have := le_cap ⟨sp, r.1 ++ r.2.1, ss⟩; omega), hsl]
    simp [gcmTagSize]
  have hbody : ((⟨sp, r.1 ++ r.2.1, ss⟩ : Slice).upTo
      ((⟨sp, r.1 ++ r.2.1, ss⟩ : Slice).len - gcmTagSize)).data = r.1 := by
    rw [upTo_data _ _ (by omega), hsl]
    simp [gcmTagSize, ← hrl]
  have hok2 : okPlacement (placement
      (sliceForAppend f2 d ((⟨sp, r.1 ++ r.2.1, ss⟩ : Slice).upTo
        ((⟨sp, r.1 ++ r.2.1, ss⟩ : Slice).len - gcmTagSize)).len).1
      ((⟨sp, r.1 ++ r.2.1, ss⟩ : Slice).upTo
        ((⟨sp, r.1 ++ r.2.1, ss⟩ : Slice).len - gcmTagSize))
      ((⟨sp, r.1 ++ r.2.1, ss⟩ : Slice).upTo
        ((⟨sp, r.1 ++ r.2.1, ss⟩ : Slice).len - gcmTagSize)).len) := by
    rw [hul]
    exact okPlacement_of_exactOrDisjoint _ _ _ _ _ hop2 rfl (by omega)
  have hdec : Block.gcmDecrypt P
      (((((b.SetIV nonce).GCMAddAdditionalData additionalData).withAuthTag r.2).SetIV
        nonce).GCMAddAdditionalData additionalData)
      (placement
        (sliceForAppend f2 d ((⟨sp, r.1 ++ r.2.1, ss⟩ : Slice).upTo
          ((⟨sp, r.1 ++ r.2.1, ss⟩ : Slice).len - gcmTagSize)).len).1
        ((⟨sp, r.1 ++ r.2.1, ss⟩ : Slice).upTo
          ((⟨sp, r.1 ++ r.2.1, ss⟩ : Slice).len - gcmTagSize))
        ((⟨sp, r.1 ++ r.2.1, ss⟩ : Slice).upTo
          ((⟨sp, r.1 ++ r.2.1, ss⟩ : Slice).len - gcmTagSize)).len)
      ((⟨sp, r.1 ++ r.2.1, ss⟩ : Slice).upTo
        ((⟨sp, r.1 ++ r.2.1, ss⟩ : Slice).len - gcmTagSize)).data = some (plaintext.data, r.2) := by
    rw [hbody]
    exact gcmDecrypt_of_encrypt P hP b nonce additionalData _ _ hok1 hok2 plaintext.data r hr
  have h1 : 16 ≤ (⟨sp, r.1 ++ r.2.1, ss⟩ : Slice).len := by omega
  have h2 : (⟨sp, r.1 ++ r.2.1, ss⟩ : Slice).len ≤ maxPlaintext + 16 := by omega
  have hcl : (sliceForAppend f2 d ((⟨sp, r.1 ++ r.2.1, ss⟩ : Slice).len - 16)).1.ptr ≤
        (⟨sp, r.1 ++ r.2.1, ss⟩ : Slice).ptr ∨
      (⟨sp, r.1 ++ r.2.1, ss⟩ : Slice).ptr + (⟨sp, r.1 ++ r.2.1, ss⟩ : Slice).len ≤
        (sliceForAppend f2 d ((⟨sp, r.1 ++ r.2.1, ss⟩ : Slice).len - 16)).1.ptr := by
    have := clear_of_exactOrDisjoint _ _ _ hop2
    rw [hsl]
    simpa [gcmTagSize] using this
  have hopen := Open_some P (((b.SetIV nonce).GCMAddAdditionalData additionalData).withAuthTag r.2)
    f2 d nonce ⟨sp, r.1 ++ r.2.1, ss⟩ additionalData
    (plaintext.data, r.2) hn h1 (open_guard _ _ h2) hcl hdec
  have htag : r.2.1 = (r.1 ++ r.2.1).drop ((⟨sp, r.1 ++ r.2.1, ss⟩ : Slice).len - 16) := by
    rw [hsl]; simp [← hrl]
  rw [if_pos htag] at hopen
  refine ⟨_, _, hopen, rfl, rfl, ?_⟩
  have hdrop2 : (sliceForAppend f2 d ((⟨sp, r.1 ++ r.2.1, ss⟩ : Slice).len - 16)).1.data.drop
      ((⟨sp, r.1 ++ r.2.1, ss⟩ : Slice).len - 16) = [] := by
    apply List.drop_of_length_le
    rw [sliceForAppend_data_empty _ _ _ hd]
  simp only [hdrop2, List.append_nil]

/-- Witness for C3 as amended: the plaintext `[1, 2, 3]` on the 16-byte-key capability of the
stand-in library, with nil destinations. -/
theorem GCM_roundtrip_witness :
    GCMInverts toyPrims ∧ (Block.c128 toy128).supportsGCM = true ∧
    NewGCM (.c128 toy128) = (some ⟨.c128 toy128, gcmStandardNonceSize⟩, none) ∧
    exactOrDisjoint (sliceForAppend 500 Slice.nil ((⟨200, [1, 2, 3], []⟩ : Slice).len +
      gcmTagSize)).1 ⟨200, [1, 2, 3], []⟩ (⟨200, [1, 2, 3], []⟩ : Slice).len ∧
    exactOrDisjoint (sliceForAppend 700 Slice.nil (⟨200, [1, 2, 3], []⟩ : Slice).len).1
      (sliceForAppend 500 Slice.nil ((⟨200, [1, 2, 3], []⟩ : Slice).len + gcmTagSize)).1
      ((⟨200, [1, 2, 3], []⟩ : Slice).len + gcmTagSize) ∧
    (∃ b1 sealed,
      gcm.Seal toyPrims ⟨.c128 toy128, gcmStandardNonceSize⟩ 500 Slice.nil (zeros 300 12)
        ⟨200, [1, 2, 3], []⟩ (zeros 400 2) = .ok (b1, sealed) ∧
      ∃ r p, gcm.Open toyPrims
          { (⟨.c128 toy128, gcmStandardNonceSize⟩ : gcm) with block := b1 } 700 Slice.nil
          (zeros 300 12) sealed (zeros 400 2) = .ok r ∧
        r.err = none ∧ r.ret = some p ∧ p.data = (⟨200, [1, 2, 3], []⟩ : Slice).data) :=
  ⟨toyPrims_inverts, rfl, rfl, Or.inr rfl, Or.inr rfl,
    GCM_roundtrip toyPrims toyPrims_inverts (.c128 toy128) rfl ⟨.c128 toy128, gcmStandardNonceSize⟩
      rfl 500 700 Slice.nil Slice.nil (zeros 300 12) ⟨200, [1, 2, 3], []⟩ (zeros 400 2)
      rfl rfl rfl three_le_max (Or.inr rfl) (Or.inr rfl)⟩

/-- C4: for every 12-byte nonce, every additional data and every plaintext within the size
bound, `Seal` with an empty `dst` returns exactly `len(plaintext) + 16` bytes; on a
capability with GCM support the first `len(plaintext)` bytes are the ciphertext that the
capability's GCM encryption produced for the bound nonce and additional data, and the
last 16 bytes are the tag that the capability reports after the call. -/
theorem Seal_empty_dst_layout (P : Prims) (b : Block) (g : gcm) (hg : NewGCM b = (some g, none))
    (fresh : Nat) (dst nonce plaintext additionalData : Slice)
    (hd : dst.len = 0) (hn : nonce.len = 12) (hp : plaintext.len ≤ maxPlaintext) :
    ∃ b1 ret, g.Seal P fresh dst nonce plaintext additionalData = .ok (b1, ret) ∧
      ret.len = plaintext.len + 16 ∧
      (b.supportsGCM = true →
        ∃ ct tag,
          ((b.SetIV nonce).GCMAddAdditionalData additionalData).gcmEncrypt P
            (placement (sliceForAppend fresh dst (plaintext.len + gcmTagSize)).1 plaintext
              plaintext.len) plaintext.data = some (ct, tag) ∧
          ct.length = plaintext.len ∧
          ret.data.take plaintext.len = ct ∧
          ret.data.drop plaintext.len = tag.1 ∧
          b1.GCMGetAuthTag = tag.1) := by
  rw [NewGCM_eq b g none hg]
  have hdrop : (sliceForAppend fresh dst (plaintext.len + gcmTagSize)).1.data.drop
      (plaintext.len + 16) = [] := by
    apply List.drop_of_length_le
    rw [sliceForAppend_data_empty _ _ _ hd]
    simp [gcmTagSize]
  have hb2 : ((b.SetIV nonce).GCMAddAdditionalData additionalData).supportsGCM = b.supportsGCM := by
    rw [supportsGCM_AD, supportsGCM_SetIV]
  cases hb : b.supportsGCM
  · refine ⟨_, _, Seal_none P b fresh dst nonce plaintext additionalData hn hp hb, ?_, ?_⟩
    · rw [sliceForAppend_len, hd]; simp [gcmTagSize]
    · intro h; cases h
  · rw [hb] at hb2
    obtain ⟨r, hr⟩ := (supportsGCM_iff_enc P _
      (placement (sliceForAppend fresh dst (plaintext.len + gcmTagSize)).1 plaintext
        plaintext.len) plaintext.data).mp hb2
    have hrl : r.1.length = plaintext.len := gcmEncrypt_length P _ _ _ r hr
    have h16 : r.2.1.length = 16 := r.2.2
    refine ⟨_, _, Seal_some P b fresh dst nonce plaintext additionalData r hn hp hr, ?_, ?_⟩
    · simp only [hdrop, List.append_nil]
      simp [Slice.len, hrl, h16]
    · intro _
      refine ⟨r.1, r.2, hr, hrl, ?_, ?_, withAuthTag_tag _ _ hb2⟩
      · simp only [hdrop, List.append_nil]
        exact List.take_left' hrl
      · simp only [hdrop, List.append_nil]
        exact List.drop_left' hrl

/-- Witness for C4: the scenario of the specification, 1024 plaintext bytes and 13 bytes of
additional data on a 16-byte zero key. -/
theorem Seal_empty_dst_layout_witness :
    NewGCM (.c128 toy128) = (some ⟨.c128 toy128, gcmStandardNonceSize⟩, none) ∧
    (zeros 200 1024).len = 1024 ∧
    (∃ b1 ret,
      gcm.Seal toyPrims ⟨.c128 toy128, gcmStandardNonceSize⟩ 500 Slice.nil (zeros 300 12)
        (zeros 200 1024) (zeros 400 13) = .ok (b1, ret) ∧
      ret.len = (zeros 200 1024).len + 16 ∧
      ((Block.c128 toy128).supportsGCM = true →
        ∃ ct tag,
          (((Block.c128 toy128).SetIV (zeros 300 12)).GCMAddAdditionalData
              (zeros 400 13)).gcmEncrypt toyPrims
            (placement (sliceForAppend 500 Slice.nil ((zeros 200 1024).len + gcmTagSize)).1
              (zeros 200 1024) (zeros 200 1024).len) (zeros 200 1024).data = some (ct, tag) ∧
          ct.length = (zeros 200 1024).len ∧
          ret.data.take (zeros 200 1024).len = ct ∧
          ret.data.drop (zeros 200 1024).len = tag.1 ∧
          b1.GCMGetAuthTag = tag.1)) :=
  ⟨rfl, zeros_len _ _,
    Seal_empty_dst_layout toyPrims (.c128 toy128) ⟨.c128 toy128, gcmStandardNonceSize⟩ rfl
      500 Slice.nil (zeros 300 12) (zeros 200 1024) (zeros 400 13) rfl rfl
      (by rw [zeros_len]; unfold maxPlaintext; omega)⟩

/-- C5, the code at a failing input: with `dst = [9, 9]` (no spare capacity) and the plaintext
`[1, 2, 3]`, for every library and every 16-byte-key capability `Seal` returns the
3 ciphertext bytes, then the 16 tag bytes, then `[0, 0]`: the ciphertext is stored over
the copy of `dst` and the tag is not at the end. With the stand-in library the result
starts `2, 3` where `dst` had `9, 9`. -/
theorem Seal_nonempty_dst_overwritten :
    (∀ (P : Prims) (a : isal128Cipher),
      ∃ b1,
        gcm.Seal P ⟨.c128 a, gcmStandardNonceSize⟩ 500 ⟨600, [9, 9], []⟩ (zeros 300 12)
          ⟨200, [1, 2, 3], []⟩ (zeros 400 2) =
        .ok (b1, ⟨500,
          (P.aes_gcm_enc_128 none a.gcmKeyData [1, 2, 3] (setIV16 a.iv (zeros 300 12)) [0, 0]).1 ++
          (P.aes_gcm_enc_128 none a.gcmKeyData [1, 2, 3] (setIV16 a.iv (zeros 300 12)) [0, 0]).2.1 ++
          [0, 0], []⟩)) ∧
    (∃ b1, gcm.Seal toyPrims ⟨.c128 toy128, gcmStandardNonceSize⟩ 500 ⟨600, [9, 9], []⟩
      (zeros 300 12) ⟨200, [1, 2, 3], []⟩ (zeros 400 2) =
        .ok (b1, ⟨500, [2, 3, 4, 10, 10, 10, 10, 10, 10, 10, 10, 10, 10, 10, 10, 10, 10, 10, 10,
          0, 0], []⟩)) := by
  have gen : ∀ (P : Prims) (a : isal128Cipher),
      ∃ b1,
        gcm.Seal P ⟨.c128 a, gcmStandardNonceSize⟩ 500 ⟨600, [9, 9], []⟩ (zeros 300 12)
          ⟨200, [1, 2, 3], []⟩ (zeros 400 2) =
        .ok (b1, ⟨500,
          (P.aes_gcm_enc_128 none a.gcmKeyData [1, 2, 3] (setIV16 a.iv (zeros 300 12)) [0, 0]).1 ++
          (P.aes_gcm_enc_128 none a.gcmKeyData [1, 2, 3] (setIV16 a.iv (zeros 300 12)) [0, 0]).2.1 ++
          [0, 0], []⟩) := by
    intro P a
    have hs : (sliceForAppend 500 ⟨600, [9, 9], []⟩ ((⟨200, [1, 2, 3], []⟩ : Slice).len + gcmTagSize)).1
        = ⟨500, [9, 9] ++ List.replicate 19 0, []⟩ :=
      sliceForAppend_fresh _ _ _ (by decide)
    have h := Seal_some P (.c128 a) 500 ⟨600, [9, 9], []⟩ (zeros 300 12) ⟨200, [1, 2, 3], []⟩
      (zeros 400 2)
      (P.aes_gcm_enc_128 none a.gcmKeyData [1, 2, 3] (setIV16 a.iv (zeros 300 12)) [0, 0])
      rfl three_le_max (by rw [hs]; rfl)
    rw [hs] at h
    exact ⟨_, h⟩
  refine ⟨gen, ?_⟩
  obtain ⟨b1, h⟩ := gen toyPrims toy128
  exact ⟨b1, h⟩

/-- C6, the code at a failing input: with `dst = [9, 9]` (no spare capacity) and an input
whose trailing 16 bytes are the tag the capability recomputes, for every library and every
16-byte-key capability `Open` returns a nil error and the 3 decrypted bytes followed
by `[0, 0]`: the plaintext is stored over the copy of `dst`, not behind it. With the
stand-in library the result is `[1, 2, 3, 0, 0]` where the claim has `[9, 9, 1, 2, 3]`. -/
theorem Open_nonempty_dst_overwritten :
    (∀ (P : Prims) (a : isal128Cipher),
      ∃ b1,
        gcm.Open P ⟨.c128 a, gcmStandardNonceSize⟩ 700 ⟨600, [9, 9], []⟩ (zeros 300 12)
          ⟨500, [2, 3, 4] ++
            (P.aes_gcm_dec_128 none a.gcmKeyData [2, 3, 4] (setIV16 a.iv (zeros 300 12))
              [0, 0]).2.1, []⟩ (zeros 400 2) =
        .ok ⟨b1,
          some ⟨700, (P.aes_gcm_dec_128 none a.gcmKeyData [2, 3, 4]
            (setIV16 a.iv (zeros 300 12)) [0, 0]).1 ++ [0, 0], []⟩,
          none,
          some ⟨700, (P.aes_gcm_dec_128 none a.gcmKeyData [2, 3, 4]
            (setIV16 a.iv (zeros 300 12)) [0, 0]).1 ++ [0, 0], []⟩⟩) ∧
    (∃ b1, gcm.Open toyPrims ⟨.c128 toy128, gcmStandardNonceSize⟩ 700 ⟨600, [9, 9], []⟩
      (zeros 300 12)
      ⟨500, [2, 3, 4, 10, 10, 10, 10, 10, 10, 10, 10, 10, 10, 10, 10, 10, 10, 10, 10], []⟩
      (zeros 400 2) =
        .ok ⟨b1, some ⟨700, [1, 2, 3, 0, 0], []⟩, none, some ⟨700, [1, 2, 3, 0, 0], []⟩⟩) := by
  have gen : ∀ (P : Prims) (a : isal128Cipher),
      ∃ b1,
        gcm.Open P ⟨.c128 a, gcmStandardNonceSize⟩ 700 ⟨600, [9, 9], []⟩ (zeros 300 12)
          ⟨500, [2, 3, 4] ++
            (P.aes_gcm_dec_128 none a.gcmKeyData [2, 3, 4] (setIV16 a.iv (zeros 300 12))
              [0, 0]).2.1, []⟩ (zeros 400 2) =
        .ok ⟨b1,
          some ⟨700, (P.aes_gcm_dec_128 none a.gcmKeyData [2, 3, 4]
            (setIV16 a.iv (zeros 300 12)) [0, 0]).1 ++ [0, 0], []⟩,
          none,
          some ⟨700, (P.aes_gcm_dec_128 none a.gcmKeyData [2, 3, 4]
            (setIV16 a.iv (zeros 300 12)) [0, 0]).1 ++ [0, 0], []⟩⟩ := by
    intro P a
    generalize hr : P.aes_gcm_dec_128 none a.gcmKeyData [2, 3, 4] (setIV16 a.iv (zeros 300 12))
      [0, 0] = r
    have h := Open_body_tag P (.c128 a) 700 ⟨600, [9, 9], []⟩ (zeros 300 12) (zeros 400 2) 500
      [2, 3, 4] r.2.1 [] r r.2.2 rfl three_le_max (by decide) (by rw [← hr]; rfl)
    rw [if_pos rfl] at h
    exact ⟨_, h⟩
  refine ⟨gen, ?_⟩
  obtain ⟨b1, h⟩ := gen toyPrims toy128
  exact ⟨b1, h⟩

/-- C7, the code at a failing input: with `dst` of length 1 and capacity 6 and an input whose
tag has one bit flipped, for every library and every 16-byte-key capability `Open`
returns nil and `errOpen` and leaves in the storage of `dst` the first decrypted byte
followed by three zero bytes: the zeroing starts at `len(dst)`, the decryption wrote from
index 0. With the stand-in library the storage holds `[1, 0, 0, 0]`. -/
theorem Open_mismatch_leaves_plaintext :
    (∀ (P : Prims) (a : isal128Cipher),
      ∃ b1,
        gcm.Open P ⟨.c128 a, gcmStandardNonceSize⟩ 700 ⟨600, [9], [5, 5, 5, 5, 5]⟩ (zeros 300 12)
          ⟨500, [2, 3, 4] ++
            flipBit (P.aes_gcm_dec_128 none a.gcmKeyData [2, 3, 4] (setIV16 a.iv (zeros 300 12))
              [0, 0]).2.1 0 0, []⟩ (zeros 400 2) =
        .ok ⟨b1, none, some errOpen,
          some ⟨600, (P.aes_gcm_dec_128 none a.gcmKeyData [2, 3, 4]
            (setIV16 a.iv (zeros 300 12)) [0, 0]).1.take 1 ++ [0, 0, 0], [5, 5]⟩⟩) ∧
    (∃ b1, gcm.Open toyPrims ⟨.c128 toy128, gcmStandardNonceSize⟩ 700 ⟨600, [9], [5, 5, 5, 5, 5]⟩
      (zeros 300 12)
      ⟨500, [2, 3, 4, 11, 10, 10, 10, 10, 10, 10, 10, 10, 10, 10, 10, 10, 10, 10, 10], []⟩
      (zeros 400 2) =
        .ok ⟨b1, none, some errOpen, some ⟨600, [1, 0, 0, 0], [5, 5]⟩⟩) := by
  have gen : ∀ (P : Prims) (a : isal128Cipher),
      ∃ b1,
        gcm.Open P ⟨.c128 a, gcmStandardNonceSize⟩ 700 ⟨600, [9], [5, 5, 5, 5, 5]⟩ (zeros 300 12)
          ⟨500, [2, 3, 4] ++
            flipBit (P.aes_gcm_dec_128 none a.gcmKeyData [2, 3, 4] (setIV16 a.iv (zeros 300 12))
              [0, 0]).2.1 0 0, []⟩ (zeros 400 2) =
        .ok ⟨b1, none, some errOpen,
          some ⟨600, (P.aes_gcm_dec_128 none a.gcmKeyData [2, 3, 4]
            (setIV16 a.iv (zeros 300 12)) [0, 0]).1.take 1 ++ [0, 0, 0], [5, 5]⟩⟩ := by
    intro P a
    generalize hr : P.aes_gcm_dec_128 none a.gcmKeyData [2, 3, 4] (setIV16 a.iv (zeros 300 12))
      [0, 0] = r
    have hrl : r.1.length = 3 := by rw [← hr]; exact P.gcm_dec_128_length _ _ _ _ _
    have h16 : r.2.1.length = 16 := r.2.2
    have h := Open_body_tag P (.c128 a) 700 ⟨600, [9], [5, 5, 5, 5, 5]⟩ (zeros 300 12)
      (zeros 400 2) 500 [2, 3, 4] (flipBit r.2.1 0 0) [] r
      (by rw [flipBit_length, h16]) rfl three_le_max (by decide) (by rw [← hr]; rfl)
    rw [if_neg (fun h => flipBit_ne r.2.1 0 0 (by omega) (by omega) h.symm)] at h
    refine ⟨(((Block.c128 a).SetIV (zeros 300 12)).GCMAddAdditionalData
      (zeros 400 2)).withAuthTag r.2, ?_⟩
    rw [h]
    have hs : (sliceForAppend 700 ⟨600, [9], [5, 5, 5, 5, 5]⟩ ([2, 3, 4] : Bytes).length).1 =
        ⟨600, [9, 5, 5, 5], [5, 5]⟩ := by decide
    rw [hs]
    simp only [zeroTail_eq, Slice.len, List.length_cons, List.length_nil, List.drop_succ_cons,
      List.drop_zero, List.length_append, hrl]
    rw [List.take_append_of_le_length (by omega)]
    rfl
  refine ⟨gen, ?_⟩
  obtain ⟨b1, h⟩ := gen toyPrims toy128
  exact ⟨b1, h⟩

/-- C8: for a fixed capability, destination, nonce, additional data and ciphertext body, if
`Open` accepts `body ++ t` for a 16-byte tag `t`, then for every other 16-byte tag `u`
the call on `body ++ u` returns a nil slice and `errOpen`; in particular this holds for
`t` with any single bit flipped. The working buffer and the input alias exactly or not at
all. -/
theorem Open_tag_tamper (P : Prims) (g : gcm) (fresh : Nat) (dst nonce ad : Slice) (p : Nat)
    (body t sp : Bytes) (ht : t.length = 16) (r : OpenResult)
    (hal : exactOrDisjoint (sliceForAppend fresh dst body.length).1 ⟨p, body ++ t, sp⟩
      (body.length + 16))
    (hacc : g.Open P fresh dst nonce ⟨p, body ++ t, sp⟩ ad = .ok r) (hok : r.err = none) :
    (∀ u : Bytes, u.length = 16 → u ≠ t →
      ∃ r', g.Open P fresh dst nonce ⟨p, body ++ u, sp⟩ ad = .ok r' ∧
        r'.ret = none ∧ r'.err = some errOpen) ∧
    (∀ i k : Nat, i < 16 → k < 8 →
      ∃ r', g.Open P fresh dst nonce ⟨p, body ++ flipBit t i k, sp⟩ ad = .ok r' ∧
        r'.ret = none ∧ r'.err = some errOpen) := by
  have hclear := clear_of_exactOrDisjoint _ _ _ hal
  simp only at hclear
  have main : ∀ u : Bytes, u.length = 16 → u ≠ t →
      ∃ r', g.Open P fresh dst nonce ⟨p, body ++ u, sp⟩ ad = .ok r' ∧
        r'.ret = none ∧ r'.err = some errOpen := by
    intro u hu hne
    rw [Open_split P g fresh dst nonce ad p body t sp ht] at hacc
    rw [Open_split P g fresh dst nonce ad p body u sp hu]
    split at hacc
    · cases hacc
    · rename_i h1
      rw [if_neg h1]
      split at hacc
      · cases hacc; cases hok
      · rename_i h2
        rw [if_neg h2]
        split at hacc
        · cases hacc
        · rename_i b3 ret1 e3 hdec
          have hptr := Decrypt_ptr P _ _ _ _ b3 ret1 e3 hdec
          have hwl : (ret1.readC body.length).length ≤ body.length := by
            simp [Slice.readC]
          have hct : ∀ v : Bytes, v.length = 16 →
              (⟨p + body.length, v, sp⟩ : Slice).afterStore ret1.ptr
                (ret1.readC body.length) = v := by
            intro v hv
            apply afterStore_clear
            rw [hptr]
            simp only [hv]
            omega
          rw [hct t ht] at hacc
          rw [hct u hu]
          split at hacc
          · cases hacc; cases hok
          · rename_i h3
            have h3' : b3.GCMGetAuthTag = t := by simpa using h3
            refine ⟨⟨b3, none, some errOpen, some (zeroTail ret1 dst.len)⟩, ?_, rfl, rfl⟩
            rw [if_pos]
            rw [h3']
            exact fun h => hne h.symm
  refine ⟨main, ?_⟩
  intro i k hi hk
  exact main _ (by rw [flipBit_length, ht]) (flipBit_ne t i k (by omega) hk)

/-- Witness for C8: the body `[2, 3, 4]` with the tag the stand-in library computes for it. -/
theorem Open_tag_tamper_witness :
    (List.replicate 16 10 : Bytes).length = 16 ∧
    exactOrDisjoint (sliceForAppend 700 Slice.nil ([2, 3, 4] : Bytes).length).1
      ⟨500, [2, 3, 4] ++ List.replicate 16 10, []⟩ (([2, 3, 4] : Bytes).length + 16) ∧
    gcm.Open toyPrims ⟨.c128 toy128, gcmStandardNonceSize⟩ 700 Slice.nil (zeros 300 12)
      ⟨500, [2, 3, 4] ++ List.replicate 16 10, []⟩ (zeros 400 2) =
      .ok ⟨(((Block.c128 toy128).SetIV (zeros 300 12)).GCMAddAdditionalData
          (zeros 400 2)).withAuthTag (toyTag [2, 3, 4] [0, 0]),
        some ⟨700, [1, 2, 3], []⟩, none, some ⟨700, [1, 2, 3], []⟩⟩ ∧
    ((∀ u : Bytes, u.length = 16 → u ≠ List.replicate 16 10 →
      ∃ r', gcm.Open toyPrims ⟨.c128 toy128, gcmStandardNonceSize⟩ 700 Slice.nil (zeros 300 12)
          ⟨500, [2, 3, 4] ++ u, []⟩ (zeros 400 2) = .ok r' ∧
        r'.ret = none ∧ r'.err = some errOpen) ∧
    (∀ i k : Nat, i < 16 → k < 8 →
      ∃ r', gcm.Open toyPrims ⟨.c128 toy128, gcmStandardNonceSize⟩ 700 Slice.nil (zeros 300 12)
          ⟨500, [2, 3, 4] ++ flipBit (List.replicate 16 10) i k, []⟩ (zeros 400 2) = .ok r' ∧
        r'.ret = none ∧ r'.err = some errOpen)) :=
  ⟨rfl, Or.inr rfl, rfl,
    Open_tag_tamper toyPrims ⟨.c128 toy128, gcmStandardNonceSize⟩ 700 Slice.nil (zeros 300 12)
      (zeros 400 2) 500 [2, 3, 4] (List.replicate 16 10) [] rfl
      ⟨(((Block.c128 toy128).SetIV (zeros 300 12)).GCMAddAdditionalData
          (zeros 400 2)).withAuthTag (toyTag [2, 3, 4] [0, 0]),
        some ⟨700, [1, 2, 3], []⟩, none, some ⟨700, [1, 2, 3], []⟩⟩ (Or.inr rfl) rfl rfl⟩

/-- C9: any two calls of `Open` that return a non-nil error (too short or too long an
input, or a tag mismatch of any kind) return the same pair: a nil slice and the one
value `errOpen`. -/
theorem Open_failure_uniform (P : Prims) (g1 g2 : gcm) (f1 f2 : Nat)
    (dst1 nonce1 ciphertext1 ad1 dst2 nonce2 ciphertext2 ad2 : Slice) (r1 r2 : OpenResult)
    (h1 : g1.Open P f1 dst1 nonce1 ciphertext1 ad1 = .ok r1)
    (h2 : g2.Open P f2 dst2 nonce2 ciphertext2 ad2 = .ok r2)
    (e1 : r1.err ≠ none) (e2 : r2.err ≠ none) :
    r1.ret = none ∧ r1.err = some errOpen ∧ (r1.ret, r1.err) = (r2.ret, r2.err) := by
  obtain ⟨a1, b1⟩ := Open_err P g1 f1 dst1 nonce1 ciphertext1 ad1 r1 h1 e1
  obtain ⟨a2, b2⟩ := Open_err P g2 f2 dst2 nonce2 ciphertext2 ad2 r2 h2 e2
  exact ⟨a1, b1, by rw [a1, b1, a2, b2]⟩

/-- Witness for C9: an input of 3 bytes and an input of 19 bytes with a wrong tag. -/
theorem Open_failure_uniform_witness :
    gcm.Open toyPrims ⟨.c128 toy128, gcmStandardNonceSize⟩ 700 Slice.nil (zeros 300 12)
      ⟨500, [2, 3, 4], []⟩ (zeros 400 2) =
      .ok ⟨.c128 toy128, none, some errOpen, none⟩ ∧
    gcm.Open toyPrims ⟨.c128 toy128, gcmStandardNonceSize⟩ 700 Slice.nil (zeros 300 12)
      ⟨500, [2, 3, 4] ++ List.replicate 16 11, []⟩ (zeros 400 2) =
      .ok ⟨(((Block.c128 toy128).SetIV (zeros 300 12)).GCMAddAdditionalData
          (zeros 400 2)).withAuthTag (toyTag [2, 3, 4] [0, 0]),
        none, some errOpen, some ⟨700, [0, 0, 0], []⟩⟩ ∧
    (none : Option Slice) = none ∧ some errOpen = some errOpen ∧
    ((none : Option Slice), some errOpen) = ((none : Option Slice), some errOpen) :=
  ⟨rfl, toy_open_mismatch,
    Open_failure_uniform toyPrims ⟨.c128 toy128, gcmStandardNonceSize⟩
      ⟨.c128 toy128, gcmStandardNonceSize⟩ 700 700
      Slice.nil (zeros 300 12) ⟨500, [2, 3, 4], []⟩ (zeros 400 2)
      Slice.nil (zeros 300 12) ⟨500, [2, 3, 4] ++ List.replicate 16 11, []⟩ (zeros 400 2)
      ⟨.c128 toy128, none, some errOpen, none⟩
      ⟨(((Block.c128 toy128).SetIV (zeros 300 12)).GCMAddAdditionalData
          (zeros 400 2)).withAuthTag (toyTag [2, 3, 4] [0, 0]),
        none, some errOpen, some ⟨700, [0, 0, 0], []⟩⟩
      rfl toy_open_mismatch (by decide) (by decide)⟩

/-- C10: for every nonce whose length is not 12, `Open` panics whatever the ciphertext is; for
every 12-byte nonce and every ciphertext shorter than 16 bytes, `Open` returns a nil
slice and `errOpen`, and the capability, in particular its IV, additional data and
tag, is exactly as before the call. -/
theorem Open_prechecks (P : Prims) (b : Block) (g : gcm) (hg : NewGCM b = (some g, none))
    (fresh : Nat) (dst nonce ciphertext additionalData : Slice) :
    (nonce.len ≠ 12 →
      g.Open P fresh dst nonce ciphertext additionalData =
        .error (.msg "cipher: incorrect nonce length given to GCM")) ∧
    (nonce.len = 12 → ciphertext.len < 16 →
      ∃ r, g.Open P fresh dst nonce ciphertext additionalData = .ok r ∧
        r.ret = none ∧ r.err = some errOpen ∧ r.block = b ∧ r.block.iv = b.iv ∧
        r.block.additionalData = b.additionalData ∧
        r.block.GCMGetAuthTag = b.GCMGetAuthTag) := by
  rw [NewGCM_eq b g none hg]
  constructor
  · intro hn
    unfold gcm.Open
    rw [if_pos]
    simp only [gcmStandardNonceSize]
    omega
  · intro hn hc
    unfold gcm.Open
    rw [if_neg (by simp [hn, gcmStandardNonceSize]), if_pos (by unfold gcmTagSize; omega)]
    exact ⟨_, rfl, rfl, rfl, rfl, rfl, rfl, rfl⟩

/-- Witness for C10: an 11-byte nonce, and a 12-byte nonce with a 3-byte input. -/
theorem Open_prechecks_witness :
    NewGCM (.c128 toy128) = (some ⟨.c128 toy128, gcmStandardNonceSize⟩, none) ∧
    gcm.Open toyPrims ⟨.c128 toy128, gcmStandardNonceSize⟩ 700 Slice.nil (zeros 300 11)
      ⟨500, [2, 3, 4], []⟩ (zeros 400 2) =
        .error (.msg "cipher: incorrect nonce length given to GCM") ∧
    (∃ r, gcm.Open toyPrims ⟨.c128 toy128, gcmStandardNonceSize⟩ 700 Slice.nil (zeros 300 12)
        ⟨500, [2, 3, 4], []⟩ (zeros 400 2) = .ok r ∧
      r.ret = none ∧ r.err = some errOpen ∧ r.block = .c128 toy128 ∧
      r.block.iv = (Block.c128 toy128).iv ∧
      r.block.additionalData = (Block.c128 toy128).additionalData ∧
      r.block.GCMGetAuthTag = (Block.c128 toy128).GCMGetAuthTag) :=
  ⟨rfl,
    (Open_prechecks toyPrims (.c128 toy128) ⟨.c128 toy128, gcmStandardNonceSize⟩ rfl 700
      Slice.nil (zeros 300 11) ⟨500, [2, 3, 4], []⟩ (zeros 400 2)).1 (by decide),
    (Open_prechecks toyPrims (.c128 toy128) ⟨.c128 toy128, gcmStandardNonceSize⟩ rfl 700
      Slice.nil (zeros 300 12) ⟨500, [2, 3, 4], []⟩ (zeros 400 2)).2 (by decide) (by decide)⟩

/-! ### The CBC and XTS wrappers and the remaining GCM contracts -/

/-- C11: `Seal` of the AEAD that `NewGCM` returns panics if and only if the nonce is not 12
bytes long or the plaintext is longer than `(2^32-2) * 16` bytes, a bound whose 64-bit unsigned
product does not wrap; on every other input it returns a result. Lengths are those of Go
slices, which are below `2^63`. -/
theorem Seal_panics_iff (P : Prims) (b : Block) (g : gcm) (hg : NewGCM b = (some g, none))
    (fresh : Nat) (dst nonce plaintext additionalData : Slice)
    (hlen : plaintext.len < 2 ^ 63) :
    ((2 ^ 32 - 2) * uint64 b.BlockSize) % 2 ^ 64 = (2 ^ 32 - 2) * 16 ∧
    ((∃ e, g.Seal P fresh dst nonce plaintext additionalData = .error e) ↔
      (nonce.len ≠ 12 ∨ plaintext.len > (2 ^ 32 - 2) * 16)) ∧
    (¬ (nonce.len ≠ 12 ∨ plaintext.len > (2 ^ 32 - 2) * 16) →
      ∃ b1 ret, g.Seal P fresh dst nonce plaintext additionalData = .ok (b1, ret)) := by
  rw [NewGCM_eq b g none hg]
  have hret : ¬ (nonce.len ≠ 12 ∨ plaintext.len > (2 ^ 32 - 2) * 16) →
      ∃ b1 ret, gcm.Seal P ⟨b, gcmStandardNonceSize⟩ fresh dst nonce plaintext additionalData =
        .ok (b1, ret) := by
    intro h
    have hn : nonce.len = 12 := by omega
    have hp : plaintext.len ≤ maxPlaintext := by unfold maxPlaintext; omega
    exact Seal_returns P b fresh dst nonce plaintext additionalData hn hp
  refine ⟨by rw [uint64_BlockSize]; norm_num, ⟨?_, ?_⟩, hret⟩
  · rintro ⟨e, he⟩
    by_contra h
    obtain ⟨b1, ret, hok⟩ := hret h
    rw [hok] at he
    cases he
  · intro h
    unfold gcm.Seal
    by_cases hn : nonce.len = 12
    · have hp : plaintext.len > (2 ^ 32 - 2) * 16 := by omega
      rw [if_neg (by simp [hn, gcmStandardNonceSize]), if_pos]
      · exact ⟨_, rfl⟩
      · rw [uint64_BlockSize, uint64_len _ (by omega)]
        omega
    · rw [if_pos]
      · exact ⟨_, rfl⟩
      · simp only [gcmStandardNonceSize]
        omega

/-- C11 at a three-byte plaintext and a 12-byte nonce over the stand-in library. -/
theorem Seal_panics_iff_witness :
    NewGCM (.c128 toy128) = (some ⟨.c128 toy128, gcmStandardNonceSize⟩, none) ∧
    (⟨200, [1, 2, 3], []⟩ : Slice).len < 2 ^ 63 ∧
    (((2 ^ 32 - 2) * uint64 (Block.c128 toy128).BlockSize) % 2 ^ 64 = (2 ^ 32 - 2) * 16 ∧
    ((∃ e, gcm.Seal toyPrims ⟨.c128 toy128, gcmStandardNonceSize⟩ 500 Slice.nil (zeros 300 12)
        ⟨200, [1, 2, 3], []⟩ (zeros 400 2) = .error e) ↔
      ((zeros 300 12).len ≠ 12 ∨ (⟨200, [1, 2, 3], []⟩ : Slice).len > (2 ^ 32 - 2) * 16)) ∧
    (¬ ((zeros 300 12).len ≠ 12 ∨ (⟨200, [1, 2, 3], []⟩ : Slice).len > (2 ^ 32 - 2) * 16) →
      ∃ b1 ret, gcm.Seal toyPrims ⟨.c128 toy128, gcmStandardNonceSize⟩ 500 Slice.nil
        (zeros 300 12) ⟨200, [1, 2, 3], []⟩ (zeros 400 2) = .ok (b1, ret))) :=
  ⟨rfl, by decide,
    Seal_panics_iff toyPrims (.c128 toy128) ⟨.c128 toy128, gcmStandardNonceSize⟩ rfl 500
      Slice.nil (zeros 300 12) ⟨200, [1, 2, 3], []⟩ (zeros 400 2) (by decide)⟩

/-- C12: `NewGCMWithNonceSize` returns a nil AEAD together with a non-nil error if and only
if the requested size is not 12; for size 12 it returns what `NewGCM` returns, and `NewGCM`
returns the AEAD over the capability with a nil error. -/
theorem NewGCMWithNonceSize_iff (b : Block) (size : Int) :
    (((NewGCMWithNonceSize b size).1 = none ∧ (NewGCMWithNonceSize b size).2 ≠ none) ↔
      size ≠ 12) ∧
    NewGCMWithNonceSize b 12 = NewGCM b ∧
    (NewGCM b).1 = some ⟨b, 12⟩ ∧ (NewGCM b).2 = none := by
  refine ⟨?_, rfl, rfl, rfl⟩
  unfold NewGCMWithNonceSize NewGCM gcmStandardNonceSize
  by_cases h : size = 12
  · simp [h]
  · simp [h]

/-- C13: CBC round trip. On a capability built from a 16-, 24- or 32-byte key over a
library whose CBC decryption inverts its CBC encryption, for a 16-byte IV and a non-empty
plaintext whose length is a multiple of 16, `CryptBlocks` of `NewCBCEncrypter` returns a nil
error, and `CryptBlocks` of `NewCBCDecrypter` on its output returns the plaintext with a nil
error. In each call the destination has the length of the source and the two alias
exactly or not at all. -/
theorem CBC_roundtrip (P : Prims) (hP : CBCInverts P) (hw : Bool) (key : Slice) (b : Block)
    (e0 : error) (hb : NewCipher P hw key = .ok (some b, e0))
    (hk : key.len = 16 ∨ key.len = 24 ∨ key.len = 32)
    (iv plaintext dst : Slice) (hiv : iv.len = 16) (hne : plaintext.len ≠ 0)
    (hmul : plaintext.len % 16 = 0) (hd : dst.len = plaintext.len)
    (hal : exactOrDisjoint dst plaintext plaintext.len) :
    ∃ e e' ct, (NewCBCEncrypter b iv).2 = .ok e ∧
      e.CryptBlocks P dst plaintext = .ok (e', ct, none) ∧
      ∀ dst2 : Slice, dst2.len = plaintext.len → exactOrDisjoint dst2 ct ct.len →
        ∃ d d' out, (NewCBCDecrypter e'.block iv).2 = .ok d ∧
          d.CryptBlocks P dst2 ct = .ok (d', out, none) ∧ out.data = plaintext.data := by
  have h' : ¬ (iv.len : Int) ≠ b.BlockSize := fun hc => ((ivlen_ne_iff b iv).mp hc) hiv
  have hx : plaintext.data ≠ [] := by
    intro h; apply hne; simp [Slice.len, h]
  obtain ⟨out, henc, hlen, hdec⟩ := cbc_pair P hP hw key b e0 hb hk iv
    (placement dst plaintext plaintext.len)
    (okPlacement_of_exactOrDisjoint dst plaintext plaintext _ _ hal rfl (le_refl _))
    plaintext.data hx hmul
  have hE := Encrypt_CBC P (b.SetIV iv) dst plaintext out (by omega) hne henc
  have hct : (dst.pokeC out).data = out := pokeC_data_full dst out (by rw [hlen, hd]; rfl)
  have hctl : (dst.pokeC out).len = plaintext.len := by rw [pokeC_len, hd]
  refine ⟨⟨b.SetIV iv, ModeCBC, OperationEncrypt⟩, ⟨b.SetIV iv, ModeCBC, OperationEncrypt⟩,
    dst.pokeC out, ?_, ?_, ?_⟩
  · simp only [NewCBCEncrypter, if_neg h']
  · simp only [cbc.CryptBlocks, cbc.Encrypt, ↓reduceIte, hE]
  · intro dst2 hd2 hal2
    have h2 : ¬ (iv.len : Int) ≠ (b.SetIV iv).BlockSize :=
      fun hc => ((ivlen_ne_iff _ iv).mp hc) hiv
    have hD := Decrypt_CBC P (b.SetIV iv) dst2 (dst.pokeC out) plaintext.data (by omega)
      (by omega) (by rw [cbcDecrypt_placement dst2 _ hal2, hct]; exact hdec)
    refine ⟨⟨b.SetIV iv, ModeCBC, OperationDecrypt⟩, ⟨b.SetIV iv, ModeCBC, OperationDecrypt⟩,
      dst2.pokeC plaintext.data, ?_, ?_, ?_⟩
    · simp only [NewCBCDecrypter, if_neg h2, Block.SetIV_idem]
    · have hne2 : OperationDecrypt ≠ OperationEncrypt := by decide
      simp only [cbc.CryptBlocks, cbc.Decrypt, hne2, ↓reduceIte, hD]
    · exact pokeC_data_full dst2 _ (by rw [hd2]; rfl)

/-- C13 at a 16-byte key, IV and plaintext over the front-to-back stand-in library, with
the encryption done in place. -/
theorem CBC_roundtrip_witness :
    CBCInverts seqPrims ∧
    NewCipher seqPrims true (zeros 0 16) = .ok (some (.c128 toy128), none) ∧
    (zeros 300 16).len = 16 ∧ (zeros 200 16).len ≠ 0 ∧ (zeros 200 16).len % 16 = 0 ∧
    exactOrDisjoint (zeros 200 16) (zeros 200 16) (zeros 200 16).len ∧
    (∃ e e' ct, (NewCBCEncrypter (.c128 toy128) (zeros 300 16)).2 = .ok e ∧
      e.CryptBlocks seqPrims (zeros 200 16) (zeros 200 16) = .ok (e', ct, none) ∧
      ∀ dst2 : Slice, dst2.len = (zeros 200 16).len → exactOrDisjoint dst2 ct ct.len →
        ∃ d d' out, (NewCBCDecrypter e'.block (zeros 300 16)).2 = .ok d ∧
          d.CryptBlocks seqPrims dst2 ct = .ok (d', out, none) ∧
          out.data = (zeros 200 16).data) :=
  ⟨seqPrims_cbc_inverts, rfl, rfl, by decide, by decide, Or.inl rfl,
    CBC_roundtrip seqPrims seqPrims_cbc_inverts true (zeros 0 16) (.c128 toy128) none rfl
      (Or.inl rfl) (zeros 300 16) (zeros 200 16) (zeros 200 16) rfl (by decide) (by decide) rfl
      (Or.inl rfl)⟩

/-- C14: on a capability that supports CBC, decrypting a non-empty ciphertext buffer onto
itself stores the same bytes as decrypting it into a destination that does not overlap it:
in both calls the stored bytes are the CBC decrypt primitive's output on a private copy of
the ciphertext, and with buffers of the ciphertext's length they are the whole content. -/
theorem CBC_decrypt_in_place (P : Prims) (b : Block) (hb : b.supportsCBC = true)
    (c dst : Slice) (hc : c.len ≠ 0) (hd : dst.len ≠ 0)
    (hdis : placement dst c c.len = none) :
    ∃ out, b.cbcDecrypt P none c.data = some out ∧
      b.Decrypt P c c ModeCBC = .ok (b, c.pokeC out, none) ∧
      b.Decrypt P dst c ModeCBC = .ok (b, dst.pokeC out, none) ∧
      (out.length = c.len → dst.len = c.len →
        (c.pokeC out).data = out ∧ (dst.pokeC out).data = out) := by
  obtain ⟨out, ho⟩ := (supportsCBC_iff_dec P b none c.data).mp hb
  refine ⟨out, ho, ?_, ?_, ?_⟩
  · exact Decrypt_CBC P b c c out hc hc (by rw [if_pos rfl]; exact ho)
  · apply Decrypt_CBC P b dst c out hd hc
    by_cases hp : c.ptr = dst.ptr
    · rw [if_pos hp]; exact ho
    · rw [if_neg hp, hdis]; exact ho
  · intro h1 h2
    exact ⟨pokeC_data_full c out h1, pokeC_data_full dst out (by omega)⟩

/-- C14 at a 16-byte ciphertext and a disjoint 16-byte destination. -/
theorem CBC_decrypt_in_place_witness :
    (Block.c128 toy128).supportsCBC = true ∧
    placement (zeros 100 16) (zeros 200 16) (zeros 200 16).len = none ∧
    (∃ out, (Block.c128 toy128).cbcDecrypt toyPrims none (zeros 200 16).data = some out ∧
      (Block.c128 toy128).Decrypt toyPrims (zeros 200 16) (zeros 200 16) ModeCBC =
        .ok (.c128 toy128, (zeros 200 16).pokeC out, none) ∧
      (Block.c128 toy128).Decrypt toyPrims (zeros 100 16) (zeros 200 16) ModeCBC =
        .ok (.c128 toy128, (zeros 100 16).pokeC out, none) ∧
      (out.length = (zeros 200 16).len → (zeros 100 16).len = (zeros 200 16).len →
        ((zeros 200 16).pokeC out).data = out ∧ ((zeros 100 16).pokeC out).data = out)) :=
  ⟨rfl, rfl,
    CBC_decrypt_in_place toyPrims (.c128 toy128) rfl (zeros 200 16) (zeros 100 16) (by decide)
      (by decide) rfl⟩

/-- C15: XTS round trip and conformance. On a capability built from a 32- or 64-byte key
`key1 || key2` over a library that computes the standard AES-XTS function `std`, after
`SetIV(tweak)` the wrapper's `Encrypt` stores `std key1 key2 tweak P` with a nil error, and
`Decrypt` of that ciphertext returns `P` with a nil error. A sector has at least 16 bytes,
and in each call the destination is at least as long as the source and the two alias
exactly or not at all. -/
theorem XTS_roundtrip (P : Prims) (std : Bytes → Bytes → Arr16 → Bytes → Bytes)
    (hP : XTSCorrect P std) (hw : Bool) (key : Slice) (b : Block) (e0 : error)
    (hb : NewCipher P hw key = .ok (some b, e0)) (hk : key.len = 32 ∨ key.len = 64)
    (tweak plaintext dst : Slice) (ht : tweak.len = 16) (hp : 16 ≤ plaintext.len)
    (hd : plaintext.len ≤ dst.len) (hal : exactOrDisjoint dst plaintext plaintext.len) :
    ∃ x1 x2 ct, (NewXTSEncryptor b).SetIV tweak = (x1, none) ∧
      x1.Encrypt P dst plaintext = .ok (x2, ct, none) ∧
      ct.data.take plaintext.len =
        std (key.data.take (key.len / 2)) (key.data.drop (key.len / 2)) ⟨tweak.data, ht⟩
          plaintext.data ∧
      ∀ c dst2 : Slice,
        c.data = std (key.data.take (key.len / 2)) (key.data.drop (key.len / 2))
          ⟨tweak.data, ht⟩ plaintext.data →
        c.len ≤ dst2.len → exactOrDisjoint dst2 c c.len →
        ∃ x3 out, x2.Decrypt P dst2 c = .ok (x3, out, none) ∧
          out.data.take plaintext.len = plaintext.data := by
  have h' : ¬ (tweak.len : Int) ≠ b.BlockSize := fun hc => ((ivlen_ne_iff b tweak).mp hc) ht
  have hsl := hP.2.2 (key.data.take (key.len / 2)) (key.data.drop (key.len / 2))
    ⟨tweak.data, ht⟩ plaintext.data
  obtain ⟨hE, hD⟩ := xts_pair P std hP hw key b e0 hb hk tweak ht plaintext.data hp
  have hx1 : (NewXTSEncryptor b).SetIV tweak = (NewXTSEncryptor (b.SetIV tweak), none) := by
    simp only [xtsEncryptor.SetIV, NewXTSEncryptor, if_neg h']
  refine ⟨NewXTSEncryptor (b.SetIV tweak), NewXTSEncryptor (b.SetIV tweak),
    dst.pokeC (std (key.data.take (key.len / 2)) (key.data.drop (key.len / 2))
      ⟨tweak.data, ht⟩ plaintext.data), hx1, ?_, ?_, ?_⟩
  · rw [xts_Encrypt_pass P _ dst plaintext (by omega), hE dst plaintext (by omega) rfl
      (okPlacement_of_exactOrDisjoint dst plaintext plaintext _ _ hal rfl (le_refl _))]
    rfl
  · have := pokeC_data_take dst _ (by rw [hsl]; exact hd)
    rw [hsl] at this
    exact this
  · intro c dst2 hc hcd hal2
    have hcl : c.len = plaintext.len := by
      unfold Slice.len; rw [hc, hsl]
    refine ⟨NewXTSEncryptor (b.SetIV tweak), dst2.pokeC plaintext.data, ?_, ?_⟩
    · rw [xts_Decrypt_pass P _ dst2 c (by omega), hD dst2 c (by omega) hc
        (okPlacement_of_exactOrDisjoint dst2 c c _ _ hal2 rfl (le_refl _))]
      rfl
    · exact pokeC_data_take dst2 plaintext.data (by unfold Slice.len at *; omega)

/-- C15 at a 32-byte key and a 16-byte tweak and plaintext over the stand-in library. -/
theorem XTS_roundtrip_witness :
    XTSCorrect toyPrims toyXTS ∧
    NewCipher toyPrims true (zeros 0 32) = .ok (some (.c256 toy256), none) ∧
    16 ≤ (zeros 200 16).len ∧ (zeros 200 16).len ≤ (zeros 100 16).len ∧
    exactOrDisjoint (zeros 100 16) (zeros 200 16) (zeros 200 16).len ∧
    (∃ x1 x2 ct, (NewXTSEncryptor (.c256 toy256)).SetIV (zeros 300 16) = (x1, none) ∧
      x1.Encrypt toyPrims (zeros 100 16) (zeros 200 16) = .ok (x2, ct, none) ∧
      ct.data.take (zeros 200 16).len =
        toyXTS ((zeros 0 32).data.take ((zeros 0 32).len / 2))
          ((zeros 0 32).data.drop ((zeros 0 32).len / 2))
          ⟨(zeros 300 16).data, rfl⟩ (zeros 200 16).data ∧
      ∀ c dst2 : Slice,
        c.data = toyXTS ((zeros 0 32).data.take ((zeros 0 32).len / 2))
          ((zeros 0 32).data.drop ((zeros 0 32).len / 2))
          ⟨(zeros 300 16).data, rfl⟩ (zeros 200 16).data →
        c.len ≤ dst2.len → exactOrDisjoint dst2 c c.len →
        ∃ x3 out, x2.Decrypt toyPrims dst2 c = .ok (x3, out, none) ∧
          out.data.take (zeros 200 16).len = (zeros 200 16).data) :=
  ⟨toyPrims_xts_correct, rfl, by decide, by decide, Or.inr rfl,
    XTS_roundtrip toyPrims toyXTS toyPrims_xts_correct true (zeros 0 32) (.c256 toy256) none rfl
      (Or.inl rfl) (zeros 300 16) (zeros 200 16) (zeros 100 16) rfl (by decide) (by decide)
      (Or.inr rfl)⟩

/-- C16: `Encrypt` and `Decrypt` of the XTS wrapper return a size error if and only if
`len(dst) < 16` or `len(dst) < len(src)`; in that case the capability and `dst` are the ones
passed in, and otherwise the result is exactly that of the capability's `Encrypt` or
`Decrypt` in XTS mode. -/
theorem XTS_validate_iff (P : Prims) (k : Block) (dst src : Slice) :
    (((∃ x d e, (NewXTSEncryptor k).Encrypt P dst src = .ok (x, d, some e) ∧ isSizeError e) ↔
        (dst.len < 16 ∨ dst.len < src.len)) ∧
      ((dst.len < 16 ∨ dst.len < src.len) →
        ∃ e, (NewXTSEncryptor k).Encrypt P dst src = .ok (NewXTSEncryptor k, dst, some e) ∧
          isSizeError e) ∧
      (¬ (dst.len < 16 ∨ dst.len < src.len) →
        (NewXTSEncryptor k).Encrypt P dst src =
          match k.Encrypt P dst src ModeXTS with
          | .error e => .error e
          | .ok (b, s, err) => .ok (⟨b, ModeXTS⟩, s, err))) ∧
    (((∃ x d e, (NewXTSEncryptor k).Decrypt P dst src = .ok (x, d, some e) ∧ isSizeError e) ↔
        (dst.len < 16 ∨ dst.len < src.len)) ∧
      ((dst.len < 16 ∨ dst.len < src.len) →
        ∃ e, (NewXTSEncryptor k).Decrypt P dst src = .ok (NewXTSEncryptor k, dst, some e) ∧
          isSizeError e) ∧
      (¬ (dst.len < 16 ∨ dst.len < src.len) →
        (NewXTSEncryptor k).Decrypt P dst src =
          match k.Decrypt P dst src ModeXTS with
          | .error e => .error e
          | .ok (b, s, err) => .ok (⟨b, ModeXTS⟩, s, err))) := by
  refine ⟨⟨⟨?_, ?_⟩, xts_Encrypt_reject P k dst src, xts_Encrypt_pass P k dst src⟩,
    ⟨⟨?_, ?_⟩, xts_Decrypt_reject P k dst src, xts_Decrypt_pass P k dst src⟩⟩
  · rintro ⟨x, d, e, he, hs⟩
    by_contra h
    rw [xts_Encrypt_pass P k dst src h] at he
    split at he
    · cases he
    · rename_i b s err heq
      simp only [Except.ok.injEq, Prod.mk.injEq] at he
      rw [he.2.2] at heq
      exact Encrypt_XTS_not_sizeError P k dst src b s e heq hs
  · intro h
    obtain ⟨e, he, hs⟩ := xts_Encrypt_reject P k dst src h
    exact ⟨_, _, e, he, hs⟩
  · rintro ⟨x, d, e, he, hs⟩
    by_contra h
    rw [xts_Decrypt_pass P k dst src h] at he
    split at he
    · cases he
    · rename_i b s err heq
      simp only [Except.ok.injEq, Prod.mk.injEq] at he
      rw [he.2.2] at heq
      exact Decrypt_XTS_not_sizeError P k dst src b s e heq hs
  · intro h
    obtain ⟨e, he, hs⟩ := xts_Decrypt_reject P k dst src h
    exact ⟨_, _, e, he, hs⟩

/-- C17: with a 16-byte destination and an empty source the XTS wrapper's `validate`
reports no error, and `Encrypt` and `Decrypt` over a 32-byte-key or a 64-byte-key capability
then panic on the index expression `src[0]`, whatever the library is. -/
theorem XTS_empty_src_panics (P : Prims) (a : isal256Cipher) (a' : isal512Cipher) :
    (NewXTSEncryptor (.c256 a)).validate (zeros 100 16) ⟨200, [], []⟩ = none ∧
    (NewXTSEncryptor (.c256 a)).Encrypt P (zeros 100 16) ⟨200, [], []⟩ =
      .error .indexOutOfRange ∧
    (NewXTSEncryptor (.c256 a)).Decrypt P (zeros 100 16) ⟨200, [], []⟩ =
      .error .indexOutOfRange ∧
    (NewXTSEncryptor (.c512 a')).validate (zeros 100 16) ⟨200, [], []⟩ = none ∧
    (NewXTSEncryptor (.c512 a')).Encrypt P (zeros 100 16) ⟨200, [], []⟩ =
      .error .indexOutOfRange ∧
    (NewXTSEncryptor (.c512 a')).Decrypt P (zeros 100 16) ⟨200, [], []⟩ =
      .error .indexOutOfRange := by
  have hv : ¬ ((zeros 100 16).len < 16 ∨ (zeros 100 16).len < (⟨200, [], []⟩ : Slice).len) := by
    decide
  refine ⟨validate_none _ _ _ hv, ?_, ?_, validate_none _ _ _ hv, ?_, ?_⟩
  · rw [xts_Encrypt_pass P _ _ _ hv, Encrypt_XTS_c256]; rfl
  · rw [xts_Decrypt_pass P _ _ _ hv, Decrypt_XTS_c256]; rfl
  · rw [xts_Encrypt_pass P _ _ _ hv, Encrypt_XTS_c512]; rfl
  · rw [xts_Decrypt_pass P _ _ _ hv, Decrypt_XTS_c512]; rfl

/-- C18: `NewCBCEncrypter`, `NewCBCDecrypter`, the CBC wrapper's `SetIV` and the XTS
wrapper's `SetIV` panic if and only if `len(iv)` is not 16; when they panic the capability is
the one passed in, and otherwise the capability's 16-byte IV is exactly `iv`. -/
theorem IV_binding (b : Block) (iv : Slice) :
    (((∃ e, (NewCBCEncrypter b iv).2 = .error e) ↔ iv.len ≠ 16) ∧
      (iv.len ≠ 16 → (NewCBCEncrypter b iv).1 = b) ∧
      (iv.len = 16 → (NewCBCEncrypter b iv).1.iv.1 = iv.data)) ∧
    (((∃ e, (NewCBCDecrypter b iv).2 = .error e) ↔ iv.len ≠ 16) ∧
      (iv.len ≠ 16 → (NewCBCDecrypter b iv).1 = b) ∧
      (iv.len = 16 → (NewCBCDecrypter b iv).1.iv.1 = iv.data)) ∧
    (∀ c : cbc, c.block = b →
      ((c.SetIV iv).2 ≠ none ↔ iv.len ≠ 16) ∧
      (iv.len ≠ 16 → (c.SetIV iv).1.block = b) ∧
      (iv.len = 16 → (c.SetIV iv).1.block.iv.1 = iv.data)) ∧
    (∀ x : xtsEncryptor, x.block = b →
      ((x.SetIV iv).2 ≠ none ↔ iv.len ≠ 16) ∧
      (iv.len ≠ 16 → (x.SetIV iv).1.block = b) ∧
      (iv.len = 16 → (x.SetIV iv).1.block.iv.1 = iv.data)) := by
  have hb := ivlen_ne_iff b iv
  by_cases h : iv.len = 16
  · have h' : ¬ (iv.len : Int) ≠ b.BlockSize := fun hc => (hb.mp hc) h
    have hiv := SetIV_iv b iv h
    refine ⟨?_, ?_, ?_, ?_⟩
    · simp only [NewCBCEncrypter, if_neg h']
      exact ⟨by simp [h], fun hc => absurd h hc, fun _ => hiv⟩
    · simp only [NewCBCDecrypter, if_neg h']
      exact ⟨by simp [h], fun hc => absurd h hc, fun _ => hiv⟩
    · intro c hc
      subst hc
      simp only [cbc.SetIV, if_neg h']
      exact ⟨by simp [h], fun hc => absurd h hc, fun _ => hiv⟩
    · intro x hx
      subst hx
      simp only [xtsEncryptor.SetIV, if_neg h']
      exact ⟨by simp [h], fun hc => absurd h hc, fun _ => hiv⟩
  · have h' : (iv.len : Int) ≠ b.BlockSize := hb.mpr h
    refine ⟨?_, ?_, ?_, ?_⟩
    · simp only [NewCBCEncrypter, if_pos h']
      exact ⟨by simp [h], fun _ => trivial, fun hc => absurd hc h⟩
    · simp only [NewCBCDecrypter, if_pos h']
      exact ⟨by simp [h], fun _ => trivial, fun hc => absurd hc h⟩
    · intro c hc
      subst hc
      simp only [cbc.SetIV, if_pos h']
      exact ⟨by simp [h], fun _ => trivial, fun hc => absurd hc h⟩
    · intro x hx
      subst hx
      simp only [xtsEncryptor.SetIV, if_pos h']
      exact ⟨by simp [h], fun _ => trivial, fun hc => absurd hc h⟩

/-- C19: for a 16-byte IV, `CryptBlocks` on the wrapper built by `NewCBCEncrypter` is the
capability's `Encrypt` in CBC mode and on the wrapper built by `NewCBCDecrypter` the
capability's `Decrypt` in CBC mode, on the capability with the IV bound; the direction is
kept by `CryptBlocks` and `SetIV`, and the error is never "Unknown operation". -/
theorem CBC_CryptBlocks_delegates (P : Prims) (b : Block) (iv dst src : Slice)
    (hiv : iv.len = 16) :
    (∃ c, NewCBCEncrypter b iv = (b.SetIV iv, .ok c) ∧ c.block = b.SetIV iv ∧
      c.operation = OperationEncrypt ∧
      c.CryptBlocks P dst src =
        (match (b.SetIV iv).Encrypt P dst src ModeCBC with
        | .error e => .error e
        | .ok (b', s, err) => .ok ({ c with block := b' }, s, err)) ∧
      (∀ c' s err, c.CryptBlocks P dst src = .ok (c', s, err) →
        c'.operation = OperationEncrypt ∧ err ≠ some (.new "Unknown operation")) ∧
      (∀ iv', (c.SetIV iv').1.operation = OperationEncrypt)) ∧
    (∃ c, NewCBCDecrypter b iv = (b.SetIV iv, .ok c) ∧ c.block = b.SetIV iv ∧
      c.operation = OperationDecrypt ∧
      c.CryptBlocks P dst src =
        (match (b.SetIV iv).Decrypt P dst src ModeCBC with
        | .error e => .error e
        | .ok (b', s, err) => .ok ({ c with block := b' }, s, err)) ∧
      (∀ c' s err, c.CryptBlocks P dst src = .ok (c', s, err) →
        c'.operation = OperationDecrypt ∧ err ≠ some (.new "Unknown operation")) ∧
      (∀ iv', (c.SetIV iv').1.operation = OperationDecrypt)) := by
  have h' : ¬ (iv.len : Int) ≠ b.BlockSize := fun hc => ((ivlen_ne_iff b iv).mp hc) hiv
  constructor
  · refine ⟨⟨b.SetIV iv, ModeCBC, OperationEncrypt⟩, ?_, rfl, rfl, ?_, ?_, ?_⟩
    · simp only [NewCBCEncrypter, if_neg h']
    · simp only [cbc.CryptBlocks, cbc.Encrypt, ↓reduceIte]
    · intro c' s err h
      simp only [cbc.CryptBlocks, cbc.Encrypt, ↓reduceIte] at h
      split at h
      · cases h
      · rename_i b2 s2 err2 heq
        simp only [Except.ok.injEq, Prod.mk.injEq] at h
        obtain ⟨h1, h2, h3⟩ := h
        refine ⟨by rw [← h1], ?_⟩
        intro hu
        rw [← h3] at hu
        rw [hu] at heq
        have := Encrypt_CBC_err P _ _ _ _ _ _ heq
        simp at this
    · intro iv'
      simp only [cbc.SetIV]
      split <;> rfl
  · refine ⟨⟨b.SetIV iv, ModeCBC, OperationDecrypt⟩, ?_, rfl, rfl, ?_, ?_, ?_⟩
    · simp only [NewCBCDecrypter, if_neg h']
    · have : OperationDecrypt ≠ OperationEncrypt := by decide
      simp only [cbc.CryptBlocks, cbc.Decrypt, this, ↓reduceIte]
    · intro c' s err h
      have hne : OperationDecrypt ≠ OperationEncrypt := by decide
      simp only [cbc.CryptBlocks, cbc.Decrypt, hne, ↓reduceIte] at h
      split at h
      · cases h
      · rename_i b2 s2 err2 heq
        simp only [Except.ok.injEq, Prod.mk.injEq] at h
        obtain ⟨h1, h2, h3⟩ := h
        refine ⟨by rw [← h1], ?_⟩
        intro hu
        rw [← h3] at hu
        rw [hu] at heq
        have := Decrypt_CBC_err P _ _ _ _ _ _ heq
        simp at this
    · intro iv'
      simp only [cbc.SetIV]
      split <;> rfl

/-- C19 at a 16-byte IV over the stand-in library. -/
theorem CBC_CryptBlocks_delegates_witness :
    (zeros 300 16).len = 16 ∧
    ((∃ c, NewCBCEncrypter (.c128 toy128) (zeros 300 16) =
        ((Block.c128 toy128).SetIV (zeros 300 16), .ok c) ∧
      c.block = (Block.c128 toy128).SetIV (zeros 300 16) ∧
      c.operation = OperationEncrypt ∧
      c.CryptBlocks toyPrims (zeros 100 16) (zeros 200 16) =
        (match ((Block.c128 toy128).SetIV (zeros 300 16)).Encrypt toyPrims (zeros 100 16)
          (zeros 200 16) ModeCBC with
        | .error e => .error e
        | .ok (b', s, err) => .ok ({ c with block := b' }, s, err)) ∧
      (∀ c' s err, c.CryptBlocks toyPrims (zeros 100 16) (zeros 200 16) = .ok (c', s, err) →
        c'.operation = OperationEncrypt ∧ err ≠ some (.new "Unknown operation")) ∧
      (∀ iv', (c.SetIV iv').1.operation = OperationEncrypt)) ∧
    (∃ c, NewCBCDecrypter (.c128 toy128) (zeros 300 16) =
        ((Block.c128 toy128).SetIV (zeros 300 16), .ok c) ∧
      c.block = (Block.c128 toy128).SetIV (zeros 300 16) ∧
      c.operation = OperationDecrypt ∧
      c.CryptBlocks toyPrims (zeros 100 16) (zeros 200 16) =
        (match ((Block.c128 toy128).SetIV (zeros 300 16)).Decrypt toyPrims (zeros 100 16)
          (zeros 200 16) ModeCBC with
        | .error e => .error e
        | .ok (b', s, err) => .ok ({ c with block := b' }, s, err)) ∧
      (∀ c' s err, c.CryptBlocks toyPrims (zeros 100 16) (zeros 200 16) = .ok (c', s, err) →
        c'.operation = OperationDecrypt ∧ err ≠ some (.new "Unknown operation")) ∧
      (∀ iv', (c.SetIV iv').1.operation = OperationDecrypt))) :=
  ⟨rfl,
    CBC_CryptBlocks_delegates toyPrims (.c128 toy128) (zeros 300 16) (zeros 100 16)
      (zeros 200 16) rfl⟩

/-- C20: `CryptBlocks` of the XTS wrapper returns a non-nil error and leaves the
destination, the wrapper and its capability as they were. -/
theorem XTS_CryptBlocks_not_implemented (x : xtsEncryptor) (dst src : Slice) :
    (x.CryptBlocks dst src).2.2 ≠ none ∧ (x.CryptBlocks dst src).2.1 = dst ∧
    (x.CryptBlocks dst src).1 = x ∧ (x.CryptBlocks dst src).1.block = x.block := by
  refine ⟨?_, rfl, rfl, rfl⟩
  simp [xtsEncryptor.CryptBlocks]

/-! ### The size queries, the hash wrapper and the behaviour behind the contracts -/

/-- C21: the size queries are constants. For every AEAD that `NewGCM` or
`NewGCMWithNonceSize` returns, `NonceSize()` is 12 and `Overhead()` is 16, whatever state
the capability behind it is in; `BlockSize()` of every XTS wrapper is 1; `BlockSize()` of
every CBC wrapper is 16, over any capability. -/
theorem size_queries_constant (b : Block) (size : Int) :
    (∀ g, (NewGCM b).1 = some g →
      g.NonceSize = 12 ∧ g.Overhead = 16 ∧
      ∀ b1 : Block, ({ g with block := b1 } : gcm).NonceSize = 12 ∧
        ({ g with block := b1 } : gcm).Overhead = 16) ∧
    (∀ g, (NewGCMWithNonceSize b size).1 = some g →
      g.NonceSize = 12 ∧ g.Overhead = 16 ∧
      ∀ b1 : Block, ({ g with block := b1 } : gcm).NonceSize = 12 ∧
        ({ g with block := b1 } : gcm).Overhead = 16) ∧
    (∀ x : xtsEncryptor, x.BlockSize = 1) ∧
    (∀ c : cbc, c.block = b → c.BlockSize = 16) := by
  refine ⟨?_, ?_, fun _ => rfl, ?_⟩
  · intro g hg
    simp only [NewGCM, Option.some.injEq] at hg
    subst hg
    exact ⟨rfl, rfl, fun _ => ⟨rfl, rfl⟩⟩
  · intro g hg
    unfold NewGCMWithNonceSize at hg
    split at hg
    · simp at hg
    · simp only [NewGCM, Option.some.injEq] at hg
      subst hg
      exact ⟨rfl, rfl, fun _ => ⟨rfl, rfl⟩⟩
  · intro c hc
    rw [cbc.BlockSize, hc, Block.BlockSize_eq]

/-- C22: over a hash library whose `mh_sha1_init` initialises the whole context, the
one-shot `Sum(data)` gives the 20 bytes that `Reset(); Write(data); Sum(nil)` gives on a
digest from `New()` and on a digest with any history; the method `Sum(in)` returns `in`
followed by those 20 bytes; `Write` returns `(len(data), nil)`, for the empty slice too. -/
theorem Sum_oneshot_eq_streaming (M : MhPrims) (hM : MhInitResets M) (d : msha1.digest M)
    (data in_ : Slice) (fresh extra : Nat) :
    (((msha1.New M).Reset.Write data).1.Sum fresh extra Slice.nil).data = (msha1.Sum M data).1 ∧
    ((d.Reset.Write data).1.Sum fresh extra Slice.nil).data = (msha1.Sum M data).1 ∧
    ((d.Reset.Write data).1.Sum fresh extra in_).data = in_.data ++ (msha1.Sum M data).1 ∧
    (msha1.Sum M data).1.length = 20 ∧
    (d.Write data).2 = ((data.len : Int), none) ∧
    (d.Write Slice.nil).2 = (0, none) := by
  have key : ∀ e : msha1.digest M, (e.Reset.Write data).1.finalize = msha1.Sum M data := by
    intro e
    unfold msha1.Sum msha1.digest.finalize
    rw [Write_ctx, Write_ctx]
    simp only [msha1.digest.Reset, hM e.ctx (msha1.digest.zero M).ctx]
  refine ⟨?_, ?_, ?_, (msha1.Sum M data).2, Write_result d data, Write_result d Slice.nil⟩
  · rw [msha1.digest.Sum, append_data, key]; rfl
  · rw [msha1.digest.Sum, append_data, key]; rfl
  · rw [msha1.digest.Sum, append_data, key]

/-- C22 at three data bytes, on a digest that has already taken in one byte, over the
stand-in hash library. -/
theorem Sum_oneshot_eq_streaming_witness :
    MhInitResets toyMh ∧
    ((((msha1.New toyMh).Reset.Write ⟨200, [1, 2, 3], []⟩).1.Sum 500 0 Slice.nil).data =
        (msha1.Sum toyMh ⟨200, [1, 2, 3], []⟩).1 ∧
      ((((msha1.New toyMh).Write ⟨100, [9], []⟩).1.Reset.Write ⟨200, [1, 2, 3], []⟩).1.Sum
          500 0 Slice.nil).data = (msha1.Sum toyMh ⟨200, [1, 2, 3], []⟩).1 ∧
      ((((msha1.New toyMh).Write ⟨100, [9], []⟩).1.Reset.Write ⟨200, [1, 2, 3], []⟩).1.Sum
          500 0 ⟨300, [7, 7], []⟩).data =
        (⟨300, [7, 7], []⟩ : Slice).data ++ (msha1.Sum toyMh ⟨200, [1, 2, 3], []⟩).1 ∧
      (msha1.Sum toyMh ⟨200, [1, 2, 3], []⟩).1.length = 20 ∧
      (((msha1.New toyMh).Write ⟨100, [9], []⟩).1.Write ⟨200, [1, 2, 3], []⟩).2 =
        (((⟨200, [1, 2, 3], []⟩ : Slice).len : Int), none) ∧
      (((msha1.New toyMh).Write ⟨100, [9], []⟩).1.Write Slice.nil).2 = (0, none)) :=
  ⟨fun _ _ => rfl,
    Sum_oneshot_eq_streaming toyMh (fun _ _ => rfl) ((msha1.New toyMh).Write ⟨100, [9], []⟩).1
      ⟨200, [1, 2, 3], []⟩ ⟨300, [7, 7], []⟩ 500 0⟩

/-- C23: the two keys that the XTS sub-key expansions take in are the two halves of the
key. For a 32-byte key the first expansion is handed the address of `key[0]` and loads 16
bytes, `key[0:16]`, the second loads `key[16:32]`, and the capability holds their
schedules; for a 64-byte key the two loads are `key[0:32]` and `key[32:64]`. The slice
expressions `key[:15]` and `key[:31]` of the source fix the address only: what is
expanded is the same as with `key[:16]` and `key[:32]`. -/
theorem XTS_subkeys_are_halves (P : Prims) (key : Slice)
    (hk : key.len = 32 ∨ key.len = 64) :
    (key.len = 32 →
      (key.data.take 16).length = 16 ∧ (key.data.drop 16).length = 16 ∧
      key.data.take 16 ++ key.data.drop 16 = key.data ∧
      isalKeyExpand128 P (key.upTo 15) = .ok (P.aes_keyexp_128 (key.data.take 16)) ∧
      isalKeyExpand128 P (key.upTo 15) = isalKeyExpand128 P (key.upTo 16) ∧
      isalKeyExpand128 P (key.startAt 16) = .ok (P.aes_keyexp_128 (key.data.drop 16)) ∧
      ∃ a, NewCipher P true key = .ok (some (.c256 a), none) ∧
        (a.xtsExpkey1Enc, a.xtsExpkey1Dec) = P.aes_keyexp_128 (key.data.take 16) ∧
        (a.xtsExpkey2Enc, a.unused) = P.aes_keyexp_128 (key.data.drop 16)) ∧
    (key.len = 64 →
      (key.data.take 32).length = 32 ∧ (key.data.drop 32).length = 32 ∧
      key.data.take 32 ++ key.data.drop 32 = key.data ∧
      isalKeyExpand256 P (key.upTo 31) = .ok (P.aes_keyexp_256 (key.data.take 32)) ∧
      isalKeyExpand256 P (key.upTo 31) = isalKeyExpand256 P (key.upTo 32) ∧
      isalKeyExpand256 P (key.startAt 32) = .ok (P.aes_keyexp_256 (key.data.drop 32)) ∧
      ∃ a, NewCipher P true key = .ok (some (.c512 a), none) ∧
        (a.xtsExpkey1Enc, a.xtsExpkey1Dec) = P.aes_keyexp_256 (key.data.take 32) ∧
        (a.xtsExpkey2Enc, a.unused) = P.aes_keyexp_256 (key.data.drop 32)) := by
  have _ := hk
  constructor
  · intro h
    have hl : key.data.length = 32 := h
    have e1 : ∀ j, 0 < j → j ≤ key.cap →
        isalKeyExpand128 P (key.upTo j) = .ok (P.aes_keyexp_128 (key.data.take 16)) := by
      intro j hj hjc
      rw [isalKeyExpand128_ok P _ (by rw [len_upTo _ _ hjc]; omega),
        upTo_readC key j 16 (by omega)]
    have hc := le_cap key
    have e2 : isalKeyExpand128 P (key.startAt 16) =
        .ok (P.aes_keyexp_128 (key.data.drop 16)) := by
      rw [isalKeyExpand128_ok P _ (by rw [len_startAt]; omega),
        startAt_readC key 16 16 (by omega)]
    refine ⟨by simp [hl], by simp [hl], List.take_append_drop _ _,
      e1 15 (by omega) (by omega), ?_, e2, _, NewCipher_32 P key h, ?_, ?_⟩
    · rw [e1 15 (by omega) (by omega), e1 16 (by omega) (by omega)]
    · simp only [upTo_readC key 15 16 (by omega)]
    · simp only [startAt_readC key 16 16 (by omega)]
  · intro h
    have hl : key.data.length = 64 := h
    have e1 : ∀ j, 0 < j → j ≤ key.cap →
        isalKeyExpand256 P (key.upTo j) = .ok (P.aes_keyexp_256 (key.data.take 32)) := by
      intro j hj hjc
      rw [isalKeyExpand256_ok P _ (by rw [len_upTo _ _ hjc]; omega),
        upTo_readC key j 32 (by omega)]
    have hc := le_cap key
    have e2 : isalKeyExpand256 P (key.startAt 32) =
        .ok (P.aes_keyexp_256 (key.data.drop 32)) := by
      rw [isalKeyExpand256_ok P _ (by rw [len_startAt]; omega),
        startAt_readC key 32 32 (by omega)]
    refine ⟨by simp [hl], by simp [hl], List.take_append_drop _ _,
      e1 31 (by omega) (by omega), ?_, e2, _, NewCipher_64 P key h, ?_, ?_⟩
    · rw [e1 31 (by omega) (by omega), e1 32 (by omega) (by omega)]
    · simp only [upTo_readC key 31 32 (by omega)]
    · simp only [startAt_readC key 32 32 (by omega)]

/-- C23 at the 32-byte and the 64-byte key whose byte `i` is `i`. -/
theorem XTS_subkeys_are_halves_witness :
    (key32.len = 32 ∨ key32.len = 64) ∧ (key64.len = 32 ∨ key64.len = 64) ∧
    ((key32.data.take 16).length = 16 ∧ (key32.data.drop 16).length = 16 ∧
      key32.data.take 16 ++ key32.data.drop 16 = key32.data ∧
      isalKeyExpand128 toyPrims (key32.upTo 15) =
        .ok (toyPrims.aes_keyexp_128 (key32.data.take 16)) ∧
      isalKeyExpand128 toyPrims (key32.upTo 15) = isalKeyExpand128 toyPrims (key32.upTo 16) ∧
      isalKeyExpand128 toyPrims (key32.startAt 16) =
        .ok (toyPrims.aes_keyexp_128 (key32.data.drop 16)) ∧
      ∃ a, NewCipher toyPrims true key32 = .ok (some (.c256 a), none) ∧
        (a.xtsExpkey1Enc, a.xtsExpkey1Dec) = toyPrims.aes_keyexp_128 (key32.data.take 16) ∧
        (a.xtsExpkey2Enc, a.unused) = toyPrims.aes_keyexp_128 (key32.data.drop 16)) ∧
    ((key64.data.take 32).length = 32 ∧ (key64.data.drop 32).length = 32 ∧
      key64.data.take 32 ++ key64.data.drop 32 = key64.data ∧
      isalKeyExpand256 toyPrims (key64.upTo 31) =
        .ok (toyPrims.aes_keyexp_256 (key64.data.take 32)) ∧
      isalKeyExpand256 toyPrims (key64.upTo 31) = isalKeyExpand256 toyPrims (key64.upTo 32) ∧
      isalKeyExpand256 toyPrims (key64.startAt 32) =
        .ok (toyPrims.aes_keyexp_256 (key64.data.drop 32)) ∧
      ∃ a, NewCipher toyPrims true key64 = .ok (some (.c512 a), none) ∧
        (a.xtsExpkey1Enc, a.xtsExpkey1Dec) = toyPrims.aes_keyexp_256 (key64.data.take 32) ∧
        (a.xtsExpkey2Enc, a.unused) = toyPrims.aes_keyexp_256 (key64.data.drop 32)) :=
  ⟨Or.inl rfl, Or.inr rfl, (XTS_subkeys_are_halves toyPrims key32 (Or.inl rfl)).1 rfl,
    (XTS_subkeys_are_halves toyPrims key64 (Or.inr rfl)).2 rfl⟩

/-- C24, counterexample: with a stand-in library whose XTS primitive tells its two key
arguments apart, the capability built from the 32-byte key whose byte `i` is `i` encrypts
a sector with the schedule of the second key half in the tweak-key position and the
schedule of the first half in the data-key position; the ciphertext differs from the one
the primitive gives with the two schedules the other way round. -/
theorem XTS_tweak_key_is_second_half :
    ∃ a ct,
      NewCipher keyedPrims true key32 = .ok (some (.c256 a), none) ∧
      (Block.c256 a).Encrypt keyedPrims (zeros 100 16) (zeros 200 16) ModeXTS =
        .ok (.c256 a, ct, none) ∧
      ct.data = keyedPrims.XTS_AES_128_enc_expanded_key none
        (keyedPrims.aes_keyexp_128 (key32.data.drop 16)).1
        (keyedPrims.aes_keyexp_128 (key32.data.take 16)).1 a.iv (zeros 200 16).data ∧
      ct.data ≠ keyedPrims.XTS_AES_128_enc_expanded_key none
        (keyedPrims.aes_keyexp_128 (key32.data.take 16)).1
        (keyedPrims.aes_keyexp_128 (key32.data.drop 16)).1 a.iv (zeros 200 16).data := by
  refine ⟨_, _, NewCipher_32 keyedPrims key32 rfl, rfl, rfl, by decide⟩

/-- C24, as amended: on a capability built from a 32-byte key, XTS `Encrypt` and `Decrypt`
hand the sector primitive the encryption schedule of the second key half as the tweak key
and the schedule of the first key half as the data key: its encryption schedule to
encrypt, its decryption schedule to decrypt. -/
theorem XTS_key_roles (P : Prims) (hw : Bool) (key : Slice) (b : Block) (e0 : error)
    (hb : NewCipher P hw key = .ok (some b, e0)) (hk : key.len = 32)
    (dst src : Slice) (hd : dst.len ≠ 0) (hs : src.len ≠ 0) :
    b.Encrypt P dst src ModeXTS =
      .ok (b, dst.pokeC (P.XTS_AES_128_enc_expanded_key (placement dst src src.len)
        (P.aes_keyexp_128 (key.data.drop 16)).1 (P.aes_keyexp_128 (key.data.take 16)).1
        b.iv src.data), none) ∧
    b.Decrypt P dst src ModeXTS =
      .ok (b, dst.pokeC (P.XTS_AES_128_dec_expanded_key (placement dst src src.len)
        (P.aes_keyexp_128 (key.data.drop 16)).1 (P.aes_keyexp_128 (key.data.take 16)).2
        b.iv src.data), none) := by
  cases hw
  · rw [NewCipher_unsupported] at hb
    simp at hb
  · rw [NewCipher_32 P key hk] at hb
    simp only [Except.ok.injEq, Prod.mk.injEq, Option.some.injEq] at hb
    rw [← hb.1]
    constructor
    · rw [Encrypt_XTS_c256, if_neg hs, if_neg hd]
      simp only [upTo_readC key 15 16 (by omega), startAt_readC key 16 16 (by omega), Block.iv]
    · rw [Decrypt_XTS_c256, if_neg hd, if_neg hs]
      simp only [upTo_readC key 15 16 (by omega), startAt_readC key 16 16 (by omega), Block.iv]

/-- C24 as amended, at the 32-byte key whose byte `i` is `i` and a 16-byte sector. -/
theorem XTS_key_roles_witness :
    (∃ b, NewCipher keyedPrims true key32 = .ok (some b, none) ∧ key32.len = 32 ∧
      (zeros 100 16).len ≠ 0 ∧ (zeros 200 16).len ≠ 0 ∧
      b.Encrypt keyedPrims (zeros 100 16) (zeros 200 16) ModeXTS =
        .ok (b, (zeros 100 16).pokeC (keyedPrims.XTS_AES_128_enc_expanded_key
          (placement (zeros 100 16) (zeros 200 16) (zeros 200 16).len)
          (keyedPrims.aes_keyexp_128 (key32.data.drop 16)).1
          (keyedPrims.aes_keyexp_128 (key32.data.take 16)).1
          b.iv (zeros 200 16).data), none) ∧
      b.Decrypt keyedPrims (zeros 100 16) (zeros 200 16) ModeXTS =
        .ok (b, (zeros 100 16).pokeC (keyedPrims.XTS_AES_128_dec_expanded_key
          (placement (zeros 100 16) (zeros 200 16) (zeros 200 16).len)
          (keyedPrims.aes_keyexp_128 (key32.data.drop 16)).1
          (keyedPrims.aes_keyexp_128 (key32.data.take 16)).2
          b.iv (zeros 200 16).data), none)) :=
  ⟨_, NewCipher_32 keyedPrims key32 rfl, rfl, by decide, by decide,
    XTS_key_roles keyedPrims true key32 _ none (NewCipher_32 keyedPrims key32 rfl) rfl
      (zeros 100 16) (zeros 200 16) (by decide) (by decide)⟩

/-- C25, counterexample: source `buf[0:32]` and destination `buf[16:48]` of one 48-byte
buffer overlap and start at different addresses. With a stand-in library that works front
to back, `Decrypt` then stores `8, 8, ...` as the second block, where decrypting the same
source into a disjoint buffer stores `19, 19, ...`: no private copy was made. -/
theorem CBC_partial_overlap_no_copy :
    (Block.c128 toy128).supportsCBC = true ∧
    (buf48.upTo 32).ptr ≠ (buf48.startAt 16).ptr ∧
    placement (buf48.startAt 16) (buf48.upTo 32) (buf48.upTo 32).len = some 16 ∧
    placement (zeros 500 32) (buf48.upTo 32) (buf48.upTo 32).len = none ∧
    (Block.c128 toy128).Decrypt seqPrims (buf48.startAt 16) (buf48.upTo 32) ModeCBC =
      .ok (.c128 toy128, ⟨116, List.replicate 16 9 ++ List.replicate 16 8, []⟩, none) ∧
    (Block.c128 toy128).Decrypt seqPrims (zeros 500 32) (buf48.upTo 32) ModeCBC =
      .ok (.c128 toy128, ⟨500, List.replicate 16 9 ++ List.replicate 16 19, []⟩, none) ∧
    (List.replicate 16 9 ++ List.replicate 16 8 : Bytes) ≠
      List.replicate 16 9 ++ List.replicate 16 19 := by
  refine ⟨rfl, by decide, rfl, rfl, rfl, rfl, by decide⟩

/-- C25, as amended: on every variant with a CBC case, `Decrypt` with a source and a
destination that start at the same address runs the primitive on a private copy of the
source, so it stores what decrypting the source into any disjoint destination stores; with
a source and a destination that start at different addresses the primitive runs on the two
buffers as they lie, overlapping or not. -/
theorem CBC_decrypt_copies_on_same_start (P : Prims) (b : Block) (hb : b.supportsCBC = true)
    (dst src : Slice) (hd : dst.len ≠ 0) (hs : src.len ≠ 0) :
    (src.ptr = dst.ptr →
      ∃ out, b.cbcDecrypt P none src.data = some out ∧
        b.Decrypt P dst src ModeCBC = .ok (b, dst.pokeC out, none) ∧
        ∀ dst2 : Slice, dst2.len ≠ 0 → placement dst2 src src.len = none →
          b.Decrypt P dst2 src ModeCBC = .ok (b, dst2.pokeC out, none)) ∧
    (src.ptr ≠ dst.ptr →
      ∃ out, b.cbcDecrypt P (placement dst src src.len) src.data = some out ∧
        b.Decrypt P dst src ModeCBC = .ok (b, dst.pokeC out, none)) := by
  constructor
  · intro hp
    obtain ⟨out, ho⟩ := (supportsCBC_iff_dec P b none src.data).mp hb
    refine ⟨out, ho, Decrypt_CBC P b dst src out hd hs (by rw [if_pos hp]; exact ho), ?_⟩
    intro dst2 hd2 hpl
    apply Decrypt_CBC P b dst2 src out hd2 hs
    by_cases hp2 : src.ptr = dst2.ptr
    · rw [if_pos hp2]; exact ho
    · rw [if_neg hp2, hpl]; exact ho
  · intro hp
    obtain ⟨out, ho⟩ := (supportsCBC_iff_dec P b (placement dst src src.len) src.data).mp hb
    exact ⟨out, ho, Decrypt_CBC_distinct_ptr P b dst src out hd hs hp ho⟩

/-- C25 as amended, at the source `buf[0:32]` and the destination `buf[0:16]` of one
buffer. -/
theorem CBC_decrypt_copies_on_same_start_witness :
    (Block.c128 toy128).supportsCBC = true ∧ (buf48.upTo 16).len ≠ 0 ∧ (buf48.upTo 32).len ≠ 0 ∧
    (buf48.upTo 32).ptr = (buf48.upTo 16).ptr ∧
    ((buf48.upTo 32).ptr = (buf48.upTo 16).ptr →
      ∃ out, (Block.c128 toy128).cbcDecrypt seqPrims none (buf48.upTo 32).data = some out ∧
        (Block.c128 toy128).Decrypt seqPrims (buf48.upTo 16) (buf48.upTo 32) ModeCBC =
          .ok (.c128 toy128, (buf48.upTo 16).pokeC out, none) ∧
        ∀ dst2 : Slice, dst2.len ≠ 0 → placement dst2 (buf48.upTo 32) (buf48.upTo 32).len = none →
          (Block.c128 toy128).Decrypt seqPrims dst2 (buf48.upTo 32) ModeCBC =
            .ok (.c128 toy128, dst2.pokeC out, none)) ∧
    ((buf48.upTo 32).ptr ≠ (buf48.upTo 16).ptr →
      ∃ out, (Block.c128 toy128).cbcDecrypt seqPrims
          (placement (buf48.upTo 16) (buf48.upTo 32) (buf48.upTo 32).len)
          (buf48.upTo 32).data = some out ∧
        (Block.c128 toy128).Decrypt seqPrims (buf48.upTo 16) (buf48.upTo 32) ModeCBC =
          .ok (.c128 toy128, (buf48.upTo 16).pokeC out, none)) :=
  ⟨rfl, by decide, by decide, rfl,
    CBC_decrypt_copies_on_same_start seqPrims (.c128 toy128) rfl (buf48.upTo 16) (buf48.upTo 32)
      (by decide) (by decide)⟩

/-- C26: `sliceForAppend(in, n)` returns `head` of `len(in) + n` bytes that starts with the
bytes of `in`, and `tail = head[len(in):]` of `n` bytes. When `cap(in)` suffices `head` is
`in[:len(in)+n]` on the same storage and the `n` extra bytes are those of the spare
capacity; otherwise `head` is a new buffer and the `n` extra bytes are zero. The sum
`len(in) + n` is within the range of `int`. -/
theorem sliceForAppend_spec (fresh : Nat) (in_ : Slice) (n : Nat)
    (hint : in_.len + n < 2 ^ 63) :
    (sliceForAppend fresh in_ n).1.len = in_.len + n ∧
    (sliceForAppend fresh in_ n).1.data.take in_.len = in_.data ∧
    (sliceForAppend fresh in_ n).2 = (sliceForAppend fresh in_ n).1.startAt in_.len ∧
    (sliceForAppend fresh in_ n).2.data = (sliceForAppend fresh in_ n).1.data.drop in_.len ∧
    (sliceForAppend fresh in_ n).2.len = n ∧
    (in_.cap ≥ in_.len + n →
      (sliceForAppend fresh in_ n).1 = in_.upTo (in_.len + n) ∧
      (sliceForAppend fresh in_ n).1.ptr = in_.ptr ∧
      (sliceForAppend fresh in_ n).1.mem = in_.mem ∧
      (sliceForAppend fresh in_ n).2.data = in_.spare.take n) ∧
    (¬ in_.cap ≥ in_.len + n →
      (sliceForAppend fresh in_ n).1 = ⟨fresh, in_.data ++ List.replicate n 0, []⟩ ∧
      (sliceForAppend fresh in_ n).2.data = List.replicate n 0) := by
  have _ := hint
  have h2 : (sliceForAppend fresh in_ n).2 = (sliceForAppend fresh in_ n).1.startAt in_.len := rfl
  have hl := sliceForAppend_len fresh in_ n
  have hd : (sliceForAppend fresh in_ n).2.data =
      (sliceForAppend fresh in_ n).1.data.drop in_.len := by rw [h2]; rfl
  have hshared : in_.cap ≥ in_.len + n →
      (sliceForAppend fresh in_ n).1.data = in_.data ++ in_.spare.take n := by
    intro h
    rw [sliceForAppend_shared fresh in_ n h]
    simp only [Slice.upTo, Slice.mem, Slice.len, List.take_append_eq_append_take,
      List.take_of_length_le (Nat.le_add_right _ _), Nat.add_sub_cancel_left]
  have hfresh : ¬ in_.cap ≥ in_.len + n →
      (sliceForAppend fresh in_ n).1.data = in_.data ++ List.replicate n 0 := by
    intro h
    rw [sliceForAppend_fresh fresh in_ n h]
  have hdata : ∃ t : Bytes, t.length = n ∧ (sliceForAppend fresh in_ n).1.data = in_.data ++ t := by
    by_cases h : in_.cap ≥ in_.len + n
    · refine ⟨in_.spare.take n, ?_, hshared h⟩
      unfold Slice.cap Slice.len at h
      simp only [List.length_take]
      omega
    · exact ⟨List.replicate n 0, by simp, hfresh h⟩
  obtain ⟨t, ht, hdt⟩ := hdata
  refine ⟨hl, ?_, h2, hd, ?_, ?_, ?_⟩
  · rw [hdt]
    unfold Slice.len
    simp
  · unfold Slice.len
    rw [hd, hdt]
    unfold Slice.len
    simp [ht]
  · intro h
    refine ⟨sliceForAppend_shared fresh in_ n h, ?_, ?_, ?_⟩
    · rw [sliceForAppend_shared fresh in_ n h]; rfl
    · rw [sliceForAppend_shared fresh in_ n h]
      simp only [Slice.upTo, Slice.mem, List.take_append_drop]
    · rw [hd, hshared h]
      unfold Slice.len
      simp
  · intro h
    refine ⟨sliceForAppend_fresh fresh in_ n h, ?_⟩
    rw [hd, hfresh h]
    unfold Slice.len
    simp

/-- C26 at a two-byte slice with three bytes of spare capacity and `n = 3`. -/
theorem sliceForAppend_spec_witness :
    (⟨600, [9, 9], [7, 7, 7]⟩ : Slice).len + 3 < 2 ^ 63 ∧
    ((sliceForAppend 500 ⟨600, [9, 9], [7, 7, 7]⟩ 3).1.len = (⟨600, [9, 9], [7, 7, 7]⟩ : Slice).len + 3 ∧
    (sliceForAppend 500 ⟨600, [9, 9], [7, 7, 7]⟩ 3).1.data.take (⟨600, [9, 9], [7, 7, 7]⟩ : Slice).len =
      (⟨600, [9, 9], [7, 7, 7]⟩ : Slice).data ∧
    (sliceForAppend 500 ⟨600, [9, 9], [7, 7, 7]⟩ 3).2 =
      (sliceForAppend 500 ⟨600, [9, 9], [7, 7, 7]⟩ 3).1.startAt (⟨600, [9, 9], [7, 7, 7]⟩ : Slice).len ∧
    (sliceForAppend 500 ⟨600, [9, 9], [7, 7, 7]⟩ 3).2.data =
      (sliceForAppend 500 ⟨600, [9, 9], [7, 7, 7]⟩ 3).1.data.drop (⟨600, [9, 9], [7, 7, 7]⟩ : Slice).len ∧
    (sliceForAppend 500 ⟨600, [9, 9], [7, 7, 7]⟩ 3).2.len = 3 ∧
    ((⟨600, [9, 9], [7, 7, 7]⟩ : Slice).cap ≥ (⟨600, [9, 9], [7, 7, 7]⟩ : Slice).len + 3 →
      (sliceForAppend 500 ⟨600, [9, 9], [7, 7, 7]⟩ 3).1 =
        (⟨600, [9, 9], [7, 7, 7]⟩ : Slice).upTo ((⟨600, [9, 9], [7, 7, 7]⟩ : Slice).len + 3) ∧
      (sliceForAppend 500 ⟨600, [9, 9], [7, 7, 7]⟩ 3).1.ptr = (⟨600, [9, 9], [7, 7, 7]⟩ : Slice).ptr ∧
      (sliceForAppend 500 ⟨600, [9, 9], [7, 7, 7]⟩ 3).1.mem = (⟨600, [9, 9], [7, 7, 7]⟩ : Slice).mem ∧
      (sliceForAppend 500 ⟨600, [9, 9], [7, 7, 7]⟩ 3).2.data =
        (⟨600, [9, 9], [7, 7, 7]⟩ : Slice).spare.take 3) ∧
    (¬ (⟨600, [9, 9], [7, 7, 7]⟩ : Slice).cap ≥ (⟨600, [9, 9], [7, 7, 7]⟩ : Slice).len + 3 →
      (sliceForAppend 500 ⟨600, [9, 9], [7, 7, 7]⟩ 3).1 =
        ⟨500, (⟨600, [9, 9], [7, 7, 7]⟩ : Slice).data ++ List.replicate 3 0, []⟩ ∧
      (sliceForAppend 500 ⟨600, [9, 9], [7, 7, 7]⟩ 3).2.data = List.replicate 3 0)) :=
  ⟨by decide, sliceForAppend_spec 500 ⟨600, [9, 9], [7, 7, 7]⟩ 3 (by decide)⟩

/-- C27, counterexample: on the 24-byte-key capability, `Seal` with an empty destination
that has 19 bytes of spare capacity holding `7` returns those 19 bytes, not zeros; and
`Seal` of a plaintext of `(2^32 - 2) * 16 + 1` bytes panics instead of returning. -/
theorem Seal_noGCM_not_all_zero :
    (Block.c192 toy192).supportsGCM = false ∧
    (⟨600, [], List.replicate 19 7⟩ : Slice).len = 0 ∧
    gcm.Seal toyPrims ⟨.c192 toy192, gcmStandardNonceSize⟩ 500 ⟨600, [], List.replicate 19 7⟩
      (zeros 300 12) ⟨200, [1, 2, 3], []⟩ Slice.nil =
        .ok (.c192 (toy192.SetIV (zeros 300 12)), ⟨600, List.replicate 19 7, []⟩) ∧
    gcm.Seal toyPrims ⟨.c192 toy192, gcmStandardNonceSize⟩ 500 Slice.nil (zeros 300 12)
      (zeros 200 (maxPlaintext + 1)) Slice.nil =
        .error (.msg "cipher: message too large for GCM") := by
  refine ⟨rfl, rfl, rfl, ?_⟩
  unfold gcm.Seal
  have hn : (zeros 300 12).len = 12 := zeros_len _ _
  have hl : (zeros 200 (maxPlaintext + 1)).len = maxPlaintext + 1 := zeros_len _ _
  rw [if_neg (by simp [hn, gcmStandardNonceSize]), if_pos]
  rw [hl, uint64_BlockSize, uint64_len _ (by unfold maxPlaintext; omega)]
  unfold maxPlaintext
  omega

/-- C27, as amended: `NewGCM` accepts a capability built from a 24- or 64-byte key, and for
every 12-byte nonce and every plaintext of at most `(2^32 - 2) * 16` bytes `Seal` with an
empty destination returns, although the capability's `Encrypt` returned an error. The
result has `len(plaintext) + 16` bytes and holds no ciphertext and no tag: all zero in a
new buffer when the destination's capacity does not suffice, otherwise the bytes the
destination's spare capacity held. -/
theorem Seal_noGCM_discards_error (P : Prims) (hw : Bool) (key : Slice) (b : Block) (e0 : error)
    (hb : NewCipher P hw key = .ok (some b, e0)) (hk : key.len = 24 ∨ key.len = 64)
    (fresh : Nat) (dst nonce plaintext additionalData : Slice)
    (hn : nonce.len = 12) (hp : plaintext.len ≤ (2 ^ 32 - 2) * 16) (hd : dst.len = 0) :
    NewGCM b = (some ⟨b, gcmStandardNonceSize⟩, none) ∧
    (∃ b' s e, ((b.SetIV nonce).GCMAddAdditionalData additionalData).Encrypt P
      (sliceForAppend fresh dst (plaintext.len + gcmTagSize)).1 plaintext ModeGCM =
        .ok (b', s, some e)) ∧
    ∃ b1 ret, gcm.Seal P ⟨b, gcmStandardNonceSize⟩ fresh dst nonce plaintext additionalData =
        .ok (b1, ret) ∧
      ret.len = plaintext.len + 16 ∧ b1.GCMGetAuthTag = [] ∧
      (¬ dst.cap ≥ plaintext.len + 16 →
        ret = ⟨fresh, List.replicate (plaintext.len + 16) 0, []⟩) ∧
      (dst.cap ≥ plaintext.len + 16 →
        ret.ptr = dst.ptr ∧ ret.data = dst.spare.take (plaintext.len + 16)) := by
  have hg := NewCipher_noGCM P hw key b e0 hb hk
  have hg2 : ((b.SetIV nonce).GCMAddAdditionalData additionalData).supportsGCM = false := by
    rw [supportsGCM_AD, supportsGCM_SetIV]; exact hg
  have hdn : dst.data = [] := List.eq_nil_of_length_eq_zero hd
  refine ⟨rfl, ?_, _, _, Seal_none P b fresh dst nonce plaintext additionalData hn hp hg,
    ?_, noGCM_tag _ hg2, ?_, ?_⟩
  · obtain ⟨e, he⟩ := Encrypt_GCM_none P _
      (sliceForAppend fresh dst (plaintext.len + gcmTagSize)).1 plaintext hg2
    exact ⟨_, _, e, he⟩
  · rw [sliceForAppend_len, hd]; simp [gcmTagSize]
  · intro h
    rw [sliceForAppend_fresh fresh dst _ (by rw [hd]; simpa [gcmTagSize] using h)]
    simp [hdn, gcmTagSize]
  · intro h
    rw [sliceForAppend_shared fresh dst _ (by rw [hd]; simpa [gcmTagSize] using h),
      upTo_of_len_zero dst _ hd, hd]
    simp [gcmTagSize]

/-- C27 as amended, at a 24-byte key, a nil destination and a three-byte plaintext. -/
theorem Seal_noGCM_discards_error_witness :
    NewCipher toyPrims true (zeros 0 24) = .ok (some (.c192 toy192), none) ∧
    ((zeros 0 24).len = 24 ∨ (zeros 0 24).len = 64) ∧
    (zeros 300 12).len = 12 ∧ (⟨200, [1, 2, 3], []⟩ : Slice).len ≤ (2 ^ 32 - 2) * 16 ∧
    Slice.nil.len = 0 ∧
    (NewGCM (.c192 toy192) = (some ⟨.c192 toy192, gcmStandardNonceSize⟩, none) ∧
    (∃ b' s e, (((Block.c192 toy192).SetIV (zeros 300 12)).GCMAddAdditionalData
        (zeros 400 2)).Encrypt toyPrims
      (sliceForAppend 500 Slice.nil ((⟨200, [1, 2, 3], []⟩ : Slice).len + gcmTagSize)).1
        ⟨200, [1, 2, 3], []⟩ ModeGCM = .ok (b', s, some e)) ∧
    ∃ b1 ret, gcm.Seal toyPrims ⟨.c192 toy192, gcmStandardNonceSize⟩ 500 Slice.nil (zeros 300 12)
        ⟨200, [1, 2, 3], []⟩ (zeros 400 2) = .ok (b1, ret) ∧
      ret.len = (⟨200, [1, 2, 3], []⟩ : Slice).len + 16 ∧ b1.GCMGetAuthTag = [] ∧
      (¬ Slice.nil.cap ≥ (⟨200, [1, 2, 3], []⟩ : Slice).len + 16 →
        ret = ⟨500, List.replicate ((⟨200, [1, 2, 3], []⟩ : Slice).len + 16) 0, []⟩) ∧
      (Slice.nil.cap ≥ (⟨200, [1, 2, 3], []⟩ : Slice).len + 16 →
        ret.ptr = Slice.nil.ptr ∧
        ret.data = Slice.nil.spare.take ((⟨200, [1, 2, 3], []⟩ : Slice).len + 16))) :=
  ⟨rfl, Or.inl rfl, rfl, by decide, rfl,
    Seal_noGCM_discards_error toyPrims true (zeros 0 24) (.c192 toy192) none rfl (Or.inl rfl)
      500 Slice.nil (zeros 300 12) ⟨200, [1, 2, 3], []⟩ (zeros 400 2) rfl (by decide) rfl⟩

/-- C28: on every variant with a CBC case, `Encrypt` and `Decrypt` in CBC mode, and
`CryptBlocks`, `Encrypt` and `Decrypt` of both CBC wrappers, panic on an index out of
range when the source or the destination is empty. -/
theorem CBC_empty_buffer_panics (P : Prims) (b : Block) (hb : b.supportsCBC = true)
    (dst src : Slice) (h : src.len = 0 ∨ dst.len = 0) :
    b.Encrypt P dst src ModeCBC = .error .indexOutOfRange ∧
    b.Decrypt P dst src ModeCBC = .error .indexOutOfRange ∧
    (∀ iv e, (NewCBCEncrypter b iv).2 = .ok e →
      e.CryptBlocks P dst src = .error .indexOutOfRange ∧
      e.Encrypt P dst src = .error .indexOutOfRange ∧
      e.Decrypt P dst src = .error .indexOutOfRange) ∧
    (∀ iv d, (NewCBCDecrypter b iv).2 = .ok d →
      d.CryptBlocks P dst src = .error .indexOutOfRange ∧
      d.Encrypt P dst src = .error .indexOutOfRange ∧
      d.Decrypt P dst src = .error .indexOutOfRange) := by
  have h' : dst.len = 0 ∨ src.len = 0 := h.symm
  have hne : OperationDecrypt ≠ OperationEncrypt := by decide
  refine ⟨Encrypt_CBC_empty P b dst src hb h', Decrypt_CBC_empty P b dst src hb h', ?_, ?_⟩
  · intro iv e he
    unfold NewCBCEncrypter at he
    split at he
    · cases he
    · simp only [Except.ok.injEq] at he
      subst he
      have hE := Encrypt_CBC_empty P (b.SetIV iv) dst src (by rw [supportsCBC_SetIV]; exact hb) h'
      have hD := Decrypt_CBC_empty P (b.SetIV iv) dst src (by rw [supportsCBC_SetIV]; exact hb) h'
      simp only [cbc.CryptBlocks, cbc.Encrypt, cbc.Decrypt, ↓reduceIte, hE, hD, and_self]
  · intro iv d he
    unfold NewCBCDecrypter at he
    split at he
    · cases he
    · simp only [Except.ok.injEq] at he
      subst he
      have hE := Encrypt_CBC_empty P (b.SetIV iv) dst src (by rw [supportsCBC_SetIV]; exact hb) h'
      have hD := Decrypt_CBC_empty P (b.SetIV iv) dst src (by rw [supportsCBC_SetIV]; exact hb) h'
      simp only [cbc.CryptBlocks, cbc.Encrypt, cbc.Decrypt, hne, ↓reduceIte, hE, hD, and_self]

/-- C28 at an empty source and a 16-byte destination on the 16-byte-key capability. -/
theorem CBC_empty_buffer_panics_witness :
    (Block.c128 toy128).supportsCBC = true ∧
    ((⟨200, [], []⟩ : Slice).len = 0 ∨ (zeros 100 16).len = 0) ∧
    ((Block.c128 toy128).Encrypt toyPrims (zeros 100 16) ⟨200, [], []⟩ ModeCBC =
        .error .indexOutOfRange ∧
    (Block.c128 toy128).Decrypt toyPrims (zeros 100 16) ⟨200, [], []⟩ ModeCBC =
        .error .indexOutOfRange ∧
    (∀ iv e, (NewCBCEncrypter (.c128 toy128) iv).2 = .ok e →
      e.CryptBlocks toyPrims (zeros 100 16) ⟨200, [], []⟩ = .error .indexOutOfRange ∧
      e.Encrypt toyPrims (zeros 100 16) ⟨200, [], []⟩ = .error .indexOutOfRange ∧
      e.Decrypt toyPrims (zeros 100 16) ⟨200, [], []⟩ = .error .indexOutOfRange) ∧
    (∀ iv d, (NewCBCDecrypter (.c128 toy128) iv).2 = .ok d →
      d.CryptBlocks toyPrims (zeros 100 16) ⟨200, [], []⟩ = .error .indexOutOfRange ∧
      d.Encrypt toyPrims (zeros 100 16) ⟨200, [], []⟩ = .error .indexOutOfRange ∧
      d.Decrypt toyPrims (zeros 100 16) ⟨200, [], []⟩ = .error .indexOutOfRange)) :=
  ⟨rfl, Or.inl rfl,
    CBC_empty_buffer_panics toyPrims (.c128 toy128) rfl (zeros 100 16) ⟨200, [], []⟩
      (Or.inl rfl)⟩

/-- C29, counterexample: `Open` with a 12-byte nonce and a three-byte input returns before
it reaches the capability, whose IV stays the 16 zero bytes it was. -/
theorem Open_short_leaves_IV :
    (⟨300, List.replicate 12 5, []⟩ : Slice).len = 12 ∧
    ∃ r, gcm.Open toyPrims ⟨.c128 toy128, gcmStandardNonceSize⟩ 700 Slice.nil
        ⟨300, List.replicate 12 5, []⟩ ⟨500, [2, 3, 4], []⟩ Slice.nil = .ok r ∧
      r.block.iv.1 = List.replicate 16 0 ∧
      r.block.iv.1 ≠
        (⟨300, List.replicate 12 5, []⟩ : Slice).data ++ (Block.c128 toy128).iv.1.drop 12 := by
  refine ⟨rfl, _, rfl, rfl, by decide⟩

/-- C29, as amended: the wrappers keep no IV of their own; each holds the address of the
capability and reads the IV there. With the capabilities in a store: `NewCBCEncrypter(b,
iv1)` and then `NewCBCDecrypter(b, iv2)` on the capability at one address leave `iv2`
there; the encrypter's `CryptBlocks` and `Encrypt` then encrypt under `iv2`, its `Decrypt`
and the decrypter's `CryptBlocks` decrypt under `iv2`, and `Encrypt` and `Decrypt` of an
XTS wrapper on the same address run with `iv2` as the tweak. After `SetIV(tw)` of the XTS
wrapper, or of the CBC wrapper, all of them run under `tw`. In every store a CBC wrapper's
`Encrypt` and `Decrypt` and an XTS wrapper's `Encrypt` and `Decrypt` are the capability's
at the wrapper's address, and the XTS wrapper's `CryptBlocks` returns "Not implemented".
The capability's `SetIV` copies `min(len(iv), 16)` bytes and checks nothing. After a `Seal`
that returns, and after an `Open` whose input has at least 16 bytes and is within the size
bound, with a 12-byte nonce, the IV of the capability is the nonce followed by the last 4
bytes of the IV before, and no other capability changed. -/
theorem IV_is_shared (P : Prims) (m : Store) (p : Nat) (iv1 iv2 tw dst src : Slice)
    (fresh : Nat) (gdst nonce plaintext ciphertext ad : Slice)
    (h1 : iv1.len = 16) (h2 : iv2.len = 16) (htw : tw.len = 16) (hn : nonce.len = 12)
    (hp : plaintext.len ≤ (2 ^ 32 - 2) * 16)
    (h16 : 16 ≤ ciphertext.len) (hmax : ciphertext.len ≤ (2 ^ 32 - 2) * 16 + 16) :
    (∃ e d m1 m2 m3,
      Shared.NewCBCEncrypter m p iv1 = (m1, .ok e) ∧
      Shared.NewCBCDecrypter m1 p iv2 = (m2, .ok d) ∧
      (m2 p).iv.1 = iv2.data ∧ m2 p = (m p).SetIV iv2 ∧ (∀ q, q ≠ p → m2 q = m q) ∧
      e.CryptBlocks P m2 dst src = m2.result p (((m p).SetIV iv2).Encrypt P dst src ModeCBC) ∧
      e.Encrypt P m2 dst src = m2.result p (((m p).SetIV iv2).Encrypt P dst src ModeCBC) ∧
      e.Decrypt P m2 dst src = m2.result p (((m p).SetIV iv2).Decrypt P dst src ModeCBC) ∧
      d.CryptBlocks P m2 dst src = m2.result p (((m p).SetIV iv2).Decrypt P dst src ModeCBC) ∧
      (∀ out, dst.len ≠ 0 → src.len ≠ 0 →
        ((m p).SetIV iv2).cbcEncrypt P (placement dst src src.len) src.data = some out →
        e.CryptBlocks P m2 dst src = .ok (m2, dst.pokeC out, none)) ∧
      (Shared.NewXTSEncryptor p).Encrypt P m2 dst src =
        (match (NewXTSEncryptor ((m p).SetIV iv2)).validate dst src with
        | some err => .ok (m2, dst, some err)
        | none => m2.result p (((m p).SetIV iv2).Encrypt P dst src ModeXTS)) ∧
      (Shared.NewXTSEncryptor p).Decrypt P m2 dst src =
        (match (NewXTSEncryptor ((m p).SetIV iv2)).validate dst src with
        | some err => .ok (m2, dst, some err)
        | none => m2.result p (((m p).SetIV iv2).Decrypt P dst src ModeXTS)) ∧
      (Shared.NewXTSEncryptor p).SetIV m2 tw = (m3, none) ∧ e.SetIV m2 tw = (m3, none) ∧
      (m3 p).iv.1 = tw.data ∧
      e.CryptBlocks P m3 dst src = m3.result p (((m p).SetIV tw).Encrypt P dst src ModeCBC) ∧
      d.CryptBlocks P m3 dst src = m3.result p (((m p).SetIV tw).Decrypt P dst src ModeCBC) ∧
      (Shared.NewXTSEncryptor p).Encrypt P m3 dst src =
        (match (NewXTSEncryptor ((m p).SetIV tw)).validate dst src with
        | some err => .ok (m3, dst, some err)
        | none => m3.result p (((m p).SetIV tw).Encrypt P dst src ModeXTS))) ∧
    (∀ (c : Shared.cbc) (x : Shared.xtsEncryptor) (s : Store),
      c.Encrypt P s dst src = s.result c.block ((s c.block).Encrypt P dst src c.mode) ∧
      c.Decrypt P s dst src = s.result c.block ((s c.block).Decrypt P dst src c.mode) ∧
      x.Encrypt P s dst src =
        (match (⟨s x.block, x.mode⟩ : xtsEncryptor).validate dst src with
        | some err => .ok (s, dst, some err)
        | none => s.result x.block ((s x.block).Encrypt P dst src x.mode)) ∧
      x.Decrypt P s dst src =
        (match (⟨s x.block, x.mode⟩ : xtsEncryptor).validate dst src with
        | some err => .ok (s, dst, some err)
        | none => s.result x.block ((s x.block).Decrypt P dst src x.mode)) ∧
      x.CryptBlocks s dst src = (s, dst, some (.new "Not implemented"))) ∧
    (∀ iv : Slice, ((m p).SetIV iv).iv.1 = iv.data.take 16 ++ (m p).iv.1.drop iv.len) ∧
    (∃ g, Shared.NewGCM p = (some g, none) ∧
      (∃ m1 ret, g.Seal P m fresh gdst nonce plaintext ad = .ok (m1, ret) ∧
        (m1 p).iv.1 = nonce.data ++ (m p).iv.1.drop 12 ∧ ∀ q, q ≠ p → m1 q = m q) ∧
      (∃ m1 ret err, g.Open P m fresh gdst nonce ciphertext ad = .ok (m1, ret, err) ∧
        (m1 p).iv.1 = nonce.data ++ (m p).iv.1.drop 12 ∧ ∀ q, q ≠ p → m1 q = m q)) := by
  have hb1 : ¬ (iv1.len : Int) ≠ (m p).BlockSize := fun hc => ((ivlen_ne_iff _ iv1).mp hc) h1
  have hb2 : ¬ (iv2.len : Int) ≠ ((m.put p ((m p).SetIV iv1)) p).BlockSize :=
    fun hc => ((ivlen_ne_iff _ iv2).mp hc) h2
  have hm2 : (m.put p ((m p).SetIV iv1)).put p (((m.put p ((m p).SetIV iv1)) p).SetIV iv2) =
      m.put p ((m p).SetIV iv2) := by
    rw [Store.put_put, Store.put_same, SetIV_twice _ iv1 iv2 h2]
  have hb3 : ¬ (tw.len : Int) ≠ ((m.put p ((m p).SetIV iv2)) p).BlockSize :=
    fun hc => ((ivlen_ne_iff _ tw).mp hc) htw
  have hm3 : (m.put p ((m p).SetIV iv2)).put p (((m.put p ((m p).SetIV iv2)) p).SetIV tw) =
      m.put p ((m p).SetIV tw) := by
    rw [Store.put_put, Store.put_same, SetIV_twice _ iv2 tw htw]
  refine ⟨⟨⟨p, ModeCBC, OperationEncrypt⟩, ⟨p, ModeCBC, OperationDecrypt⟩,
    m.put p ((m p).SetIV iv1), m.put p ((m p).SetIV iv2), m.put p ((m p).SetIV tw),
    ?_, ?_, ?_, Store.put_same _ _ _, fun q hq => Store.put_other _ _ q _ hq,
    ?_, ?_, ?_, ?_, ?_, ?_, ?_, ?_, ?_, ?_, ?_, ?_, ?_⟩, ?_, SetIV_iv_val (m p), ?_⟩
  · simp only [Shared.NewCBCEncrypter, if_neg hb1]
  · simp only [Shared.NewCBCDecrypter, if_neg hb2, hm2]
  · rw [Store.put_same]; exact SetIV_iv _ iv2 h2
  · simp only [Shared.cbc.CryptBlocks, ↓reduceIte, Shared_cbc_Encrypt, Store.put_same]
  · simp only [Shared_cbc_Encrypt, Store.put_same]
  · simp only [Shared_cbc_Decrypt, Store.put_same]
  · have hne : OperationDecrypt ≠ OperationEncrypt := by decide
    simp only [Shared.cbc.CryptBlocks, if_neg hne, ↓reduceIte, Shared_cbc_Decrypt,
      Store.put_same]
  · intro out hd hs ho
    simp only [Shared.cbc.CryptBlocks, ↓reduceIte, Shared_cbc_Encrypt, Store.put_same,
      Encrypt_CBC P ((m p).SetIV iv2) dst src out hd hs ho, Store.result, Store.put_put]
  · simp only [Shared_xts_Encrypt, Shared.NewXTSEncryptor, NewXTSEncryptor, Store.put_same]
  · simp only [Shared_xts_Decrypt, Shared.NewXTSEncryptor, NewXTSEncryptor, Store.put_same]
  · simp only [Shared.xtsEncryptor.SetIV, Shared.NewXTSEncryptor, if_neg hb3, hm3]
  · simp only [Shared.cbc.SetIV, if_neg hb3, hm3]
  · rw [Store.put_same]; exact SetIV_iv _ tw htw
  · simp only [Shared.cbc.CryptBlocks, ↓reduceIte, Shared_cbc_Encrypt, Store.put_same]
  · have hne : OperationDecrypt ≠ OperationEncrypt := by decide
    simp only [Shared.cbc.CryptBlocks, if_neg hne, ↓reduceIte, Shared_cbc_Decrypt,
      Store.put_same]
  · simp only [Shared_xts_Encrypt, Shared.NewXTSEncryptor, NewXTSEncryptor, Store.put_same]
  · intro c x s
    exact ⟨Shared_cbc_Encrypt P c s dst src, Shared_cbc_Decrypt P c s dst src,
      Shared_xts_Encrypt P x s dst src, Shared_xts_Decrypt P x s dst src, rfl⟩
  · refine ⟨⟨p, gcmStandardNonceSize⟩, rfl, ?_, ?_⟩
    · exact Shared_Seal_iv P m ⟨p, gcmStandardNonceSize⟩ fresh gdst nonce plaintext ad rfl hn hp
    · exact Shared_Open_iv P m ⟨p, gcmStandardNonceSize⟩ fresh gdst nonce ciphertext ad rfl hn
        h16 hmax

/-- C29 as amended, over the stand-in library on a store of 16-byte-key capabilities. -/
theorem IV_is_shared_witness :
    (⟨300, List.replicate 16 1, []⟩ : Slice).len = 16 ∧
    (⟨310, List.replicate 16 2, []⟩ : Slice).len = 16 ∧
    (⟨320, List.replicate 16 3, []⟩ : Slice).len = 16 ∧
    (⟨400, List.replicate 12 5, []⟩ : Slice).len = 12 ∧
    (⟨200, [1, 2, 3], []⟩ : Slice).len ≤ (2 ^ 32 - 2) * 16 ∧
    16 ≤ (zeros 600 16).len ∧ (zeros 600 16).len ≤ (2 ^ 32 - 2) * 16 + 16 ∧
    ((∃ e d m1 m2 m3,
      Shared.NewCBCEncrypter toyStore 7 ⟨300, List.replicate 16 1, []⟩ = (m1, .ok e) ∧
      Shared.NewCBCDecrypter m1 7 ⟨310, List.replicate 16 2, []⟩ = (m2, .ok d) ∧
      (m2 7).iv.1 = (⟨310, List.replicate 16 2, []⟩ : Slice).data ∧ m2 7 =
          (toyStore 7).SetIV ⟨310, List.replicate 16 2, []⟩ ∧ (∀ q, q ≠ 7 → m2 q = toyStore q) ∧
      e.CryptBlocks toyPrims m2 (zeros 100 16) (zeros 200 16) =
          m2.result 7 (((toyStore 7).SetIV ⟨310, List.replicate 16 2, []⟩).Encrypt toyPrims (zeros
              100 16) (zeros 200 16) ModeCBC) ∧
      e.Encrypt toyPrims m2 (zeros 100 16) (zeros 200 16) =
          m2.result 7 (((toyStore 7).SetIV ⟨310, List.replicate 16 2, []⟩).Encrypt toyPrims (zeros
              100 16) (zeros 200 16) ModeCBC) ∧
      e.Decrypt toyPrims m2 (zeros 100 16) (zeros 200 16) =
          m2.result 7 (((toyStore 7).SetIV ⟨310, List.replicate 16 2, []⟩).Decrypt toyPrims (zeros
              100 16) (zeros 200 16) ModeCBC) ∧
      d.CryptBlocks toyPrims m2 (zeros 100 16) (zeros 200 16) =
          m2.result 7 (((toyStore 7).SetIV ⟨310, List.replicate 16 2, []⟩).Decrypt toyPrims (zeros
              100 16) (zeros 200 16) ModeCBC) ∧
      (∀ out, (zeros 100 16).len ≠ 0 → (zeros 200 16).len ≠ 0 →
        ((toyStore 7).SetIV ⟨310, List.replicate 16 2, []⟩).cbcEncrypt toyPrims (placement (zeros
            100 16) (zeros 200 16) (zeros 200 16).len) (zeros 200 16).data = some out →
        e.CryptBlocks toyPrims m2 (zeros 100 16) (zeros 200 16) =
            .ok (m2, (zeros 100 16).pokeC out, none)) ∧
      (Shared.NewXTSEncryptor 7).Encrypt toyPrims m2 (zeros 100 16) (zeros 200 16) =
        (match (NewXTSEncryptor ((toyStore 7).SetIV ⟨310, List.replicate 16 2, []⟩)).validate
            (zeros 100 16) (zeros 200 16) with
        | some err => .ok (m2, (zeros 100 16), some err)
        | none => m2.result 7 (((toyStore 7).SetIV ⟨310, List.replicate 16 2, []⟩).Encrypt toyPrims
            (zeros 100 16) (zeros 200 16) ModeXTS)) ∧
      (Shared.NewXTSEncryptor 7).Decrypt toyPrims m2 (zeros 100 16) (zeros 200 16) =
        (match (NewXTSEncryptor ((toyStore 7).SetIV ⟨310, List.replicate 16 2, []⟩)).validate
            (zeros 100 16) (zeros 200 16) with
        | some err => .ok (m2, (zeros 100 16), some err)
        | none => m2.result 7 (((toyStore 7).SetIV ⟨310, List.replicate 16 2, []⟩).Decrypt toyPrims
            (zeros 100 16) (zeros 200 16) ModeXTS)) ∧
      (Shared.NewXTSEncryptor 7).SetIV m2 ⟨320, List.replicate 16 3, []⟩ = (m3, none) ∧
          e.SetIV m2 ⟨320, List.replicate 16 3, []⟩ = (m3, none) ∧
      (m3 7).iv.1 = (⟨320, List.replicate 16 3, []⟩ : Slice).data ∧
      e.CryptBlocks toyPrims m3 (zeros 100 16) (zeros 200 16) =
          m3.result 7 (((toyStore 7).SetIV ⟨320, List.replicate 16 3, []⟩).Encrypt toyPrims (zeros
              100 16) (zeros 200 16) ModeCBC) ∧
      d.CryptBlocks toyPrims m3 (zeros 100 16) (zeros 200 16) =
          m3.result 7 (((toyStore 7).SetIV ⟨320, List.replicate 16 3, []⟩).Decrypt toyPrims (zeros
              100 16) (zeros 200 16) ModeCBC) ∧
      (Shared.NewXTSEncryptor 7).Encrypt toyPrims m3 (zeros 100 16) (zeros 200 16) =
        (match (NewXTSEncryptor ((toyStore 7).SetIV ⟨320, List.replicate 16 3, []⟩)).validate
            (zeros 100 16) (zeros 200 16) with
        | some err => .ok (m3, (zeros 100 16), some err)
        | none => m3.result 7 (((toyStore 7).SetIV ⟨320, List.replicate 16 3, []⟩).Encrypt toyPrims
            (zeros 100 16) (zeros 200 16) ModeXTS))) ∧
    (∀ (c : Shared.cbc) (x : Shared.xtsEncryptor) (s : Store),
      c.Encrypt toyPrims s (zeros 100 16) (zeros 200 16) =
          s.result c.block ((s c.block).Encrypt toyPrims (zeros 100 16) (zeros 200 16) c.mode) ∧
      c.Decrypt toyPrims s (zeros 100 16) (zeros 200 16) =
          s.result c.block ((s c.block).Decrypt toyPrims (zeros 100 16) (zeros 200 16) c.mode) ∧
      x.Encrypt toyPrims s (zeros 100 16) (zeros 200 16) =
        (match (⟨s x.block, x.mode⟩ : xtsEncryptor).validate (zeros 100 16) (zeros 200 16) with
        | some err => .ok (s, (zeros 100 16), some err)
        | none => s.result x.block ((s x.block).Encrypt toyPrims (zeros 100 16) (zeros 200 16)
            x.mode)) ∧
      x.Decrypt toyPrims s (zeros 100 16) (zeros 200 16) =
        (match (⟨s x.block, x.mode⟩ : xtsEncryptor).validate (zeros 100 16) (zeros 200 16) with
        | some err => .ok (s, (zeros 100 16), some err)
        | none => s.result x.block ((s x.block).Decrypt toyPrims (zeros 100 16) (zeros 200 16)
            x.mode)) ∧
      x.CryptBlocks s (zeros 100 16) (zeros 200 16) =
          (s, (zeros 100 16), some (.new "Not implemented"))) ∧
    (∀ iv : Slice, ((toyStore 7).SetIV iv).iv.1 =
        iv.data.take 16 ++ (toyStore 7).iv.1.drop iv.len) ∧
    (∃ g, Shared.NewGCM 7 = (some g, none) ∧
      (∃ m1 ret, g.Seal toyPrims toyStore 500 Slice.nil ⟨400, List.replicate 12 5, []⟩ ⟨200, [1, 2,
          3], []⟩ Slice.nil = .ok (m1, ret) ∧
        (m1 7).iv.1 = (⟨400, List.replicate 12 5, []⟩ : Slice).data ++ (toyStore 7).iv.1.drop 12 ∧
            ∀ q, q ≠ 7 → m1 q = toyStore q) ∧
      (∃ m1 ret err, g.Open toyPrims toyStore 500 Slice.nil ⟨400, List.replicate 12 5, []⟩ (zeros
          600 16) Slice.nil = .ok (m1, ret, err) ∧
        (m1 7).iv.1 = (⟨400, List.replicate 12 5, []⟩ : Slice).data ++ (toyStore 7).iv.1.drop 12 ∧
            ∀ q, q ≠ 7 → m1 q = toyStore q))) :=
  ⟨rfl, rfl, rfl, rfl, by decide, by decide, by decide,
    IV_is_shared toyPrims toyStore 7 ⟨300, List.replicate 16 1, []⟩
      ⟨310, List.replicate 16 2, []⟩ ⟨320, List.replicate 16 3, []⟩ (zeros 100 16)
      (zeros 200 16) 500 Slice.nil ⟨400, List.replicate 12 5, []⟩ ⟨200, [1, 2, 3], []⟩
      (zeros 600 16) Slice.nil rfl rfl rfl rfl (by decide) (by decide) (by decide)⟩

end Crypto
